import Mathlib

set_option maxRecDepth 8192

/-!
Verification development for the mSTL ordered-container engine
(`src/include/internals/tree.h` and `src/include/internals/red_black_tree.h`).

The C++ code is a pointer-based intrusive red-black tree.  We embed it
shallowly: every allocated node lives in an arena (a `List NodeR`), a pointer
is either `null`, an arena index, or the address of the per-erase stack
sentinel.  Freed nodes stay in the arena with `live := false` and their last
field values retained: this models the common behaviour of freed heap memory
whose bytes are not scrubbed, which is what the code's own deletion fix-up
relies on when it navigates from the sentinel's parent pointer.  Indices are
never reused, which is faithful because no allocation happens while a dangling
pointer is still compared or dereferenced (all such uses are local to one
`erase_node` call).

The tree is instantiated the way the repository's own tests use it:
`T = int`, `identity_key`, `std::less<int>` — keys are `Int` with `<`.

Loops are translated fuel-style; every top-level operation passes fuel
`nodes.length + 1` (or `+ 2`), which is proven / checked sufficient where a
claim depends on it.
-/

namespace mstl

/-- Colour tag, from `enum RBColor : unsigned char { RBRed, RBBk }`. -/
inductive RBColor where
  | RBRed
  | RBBk
deriving DecidableEq, Repr

/-- A pointer value: null, the address of arena node `i`, or the address of
the transient stack sentinel used by `erase_node`. -/
inductive Ptr where
  | null
  | node (i : Nat)
  | sent
deriving DecidableEq, Repr

/-- One `rb_node<int>`: the three links and colour of `rb_node_base` (colour
default-initialised to `RBRed`, source line 24), the stored value, and a
liveness flag recording whether `DoDestroyNode` has run on this slot. -/
structure NodeR where
  left : Ptr := .null
  right : Ptr := .null
  parent : Ptr := .null
  color : RBColor := .RBRed
  val : Int := 0
  live : Bool := true
deriving DecidableEq, Repr

/-- The memory of one `rb_tree<int>`: the arena of all nodes ever allocated,
the stack sentinel slot, and the tree's `mp_Root` / `m_Size` fields. -/
structure Mem where
  nodes : List NodeR := []
  sent : NodeR := {}
  root : Ptr := .null
  size : Nat := 0
deriving DecidableEq, Repr

/-- A freshly constructed `rb_tree` (null root, size 0). -/
def emptyMem : Mem := {}

/-- Dereference a pointer.  Dereferencing null yields a default record; the
translated code only ever does so where the C++ code guards against null. -/
def rd (s : Mem) : Ptr → NodeR
  | .null => {}
  | .sent => s.sent
  | .node i => s.nodes.getD i {}

/-- Write through a pointer (no-op on null, like the guarded writes in the
source).  Writes to a freed arena slot update its stale bytes. -/
def wr (s : Mem) (p : Ptr) (f : NodeR → NodeR) : Mem :=
  match p with
  | .null => s
  | .sent => { s with sent := f s.sent }
  | .node i => { s with nodes := s.nodes.set i (f (s.nodes.getD i {})) }

/-- `rb_tree::color_of`: null pointers (leaves) are black. -/
def color_of (s : Mem) (p : Ptr) : RBColor :=
  match p with
  | .null => .RBBk
  | _ => (rd s p).color

/-- `rb_tree::set_color`: guarded against null. -/
def set_color (s : Mem) (p : Ptr) (c : RBColor) : Mem :=
  wr s p (fun n => { n with color := c })

/-! ## Shared tree primitives (`tree.h`) -/

/-- `TreeMin` (tree.h): follow left children while present. -/
def TreeMin (s : Mem) : Nat → Ptr → Ptr
  | 0, p => p
  | fuel+1, p =>
    if p ≠ .null ∧ (rd s p).left ≠ .null then TreeMin s fuel ((rd s p).left) else p

/-- `TreeMax` (tree.h): follow right children while present. -/
def TreeMax (s : Mem) : Nat → Ptr → Ptr
  | 0, p => p
  | fuel+1, p =>
    if p ≠ .null ∧ (rd s p).right ≠ .null then TreeMax s fuel ((rd s p).right) else p

/-- The ascending loop of `TreeSuccessor`: climb while the current node is its
parent's right child; arguments are the loop variables `n` and `p`. -/
def TreeSuccUp (s : Mem) : Nat → Ptr → Ptr → Ptr
  | 0, _, p => p
  | fuel+1, n, p =>
    if p ≠ .null ∧ n = (rd s p).right then TreeSuccUp s fuel p ((rd s p).parent) else p

/-- `TreeSuccessor` (tree.h): minimum of the right subtree if present, else
the nearest ancestor of which the node lies in the left subtree. -/
def TreeSuccessor (s : Mem) (fuel : Nat) (n : Ptr) : Ptr :=
  if n = .null then .null
  else if (rd s n).right ≠ .null then TreeMin s fuel ((rd s n).right)
  else TreeSuccUp s fuel n ((rd s n).parent)

/-- `TreeFind` (tree.h): comparator-driven descent, with the state threaded
through to make explicit that the search never writes. -/
def TreeFindLoop (s : Mem) : Nat → Ptr → Int → Ptr × Mem
  | 0, _, _ => (.null, s)
  | fuel+1, root, k =>
    if root = .null then (.null, s)
    else
      let v := (rd s root).val
      if k < v then TreeFindLoop s fuel ((rd s root).left) k
      else if v < k then TreeFindLoop s fuel ((rd s root).right) k
      else (root, s)

/-- `TreeLowerBound` (tree.h): descent keeping the best `≥ k` candidate. -/
def TreeLowerBoundLoop (s : Mem) : Nat → Ptr → Int → Ptr → Ptr × Mem
  | 0, _, _, res => (res, s)
  | fuel+1, root, k, res =>
    if root = .null then (res, s)
    else
      let v := (rd s root).val
      if ¬ v < k then TreeLowerBoundLoop s fuel ((rd s root).left) k root
      else TreeLowerBoundLoop s fuel ((rd s root).right) k res

/-- `TreeUpperBound` (tree.h): descent keeping the best `> k` candidate. -/
def TreeUpperBoundLoop (s : Mem) : Nat → Ptr → Int → Ptr → Ptr × Mem
  | 0, _, _, res => (res, s)
  | fuel+1, root, k, res =>
    if root = .null then (res, s)
    else
      let v := (rd s root).val
      if k < v then TreeUpperBoundLoop s fuel ((rd s root).left) k root
      else TreeUpperBoundLoop s fuel ((rd s root).right) k res

/-- Modelled from the spec: `TreeRotateLeft` is called by the red-black and
AVL engines but its definition is not among the provided sources.  Spec §4.1:
rotation takes a pivot, restructures it with one child preserving in-order
sequence, returns the new local subtree root, and leaves all relations
internally consistent, including the moved grandchild's parent and the
original parent's child pointer; the tree's root reference is the caller's
business.  If the pivot has no right child the call would be meaningless; we
return the pivot unchanged (no caller ever does this). -/
def TreeRotateLeft (s : Mem) (x : Ptr) : Mem × Ptr :=
  let y := (rd s x).right
  if y = .null then (s, x)
  else
    let b := (rd s y).left
    let s1 := wr s x (fun n => { n with right := b })
    let s2 := if b ≠ .null then wr s1 b (fun n => { n with parent := x }) else s1
    let xp := (rd s2 x).parent
    let s3 := wr s2 y (fun n => { n with parent := xp })
    let s4 :=
      if xp = .null then s3
      else if (rd s3 xp).left = x then wr s3 xp (fun n => { n with left := y })
      else wr s3 xp (fun n => { n with right := y })
    let s5 := wr s4 y (fun n => { n with left := x })
    let s6 := wr s5 x (fun n => { n with parent := y })
    (s6, y)

/-- Modelled from the spec: mirror image of `TreeRotateLeft` (spec §4.1). -/
def TreeRotateRight (s : Mem) (x : Ptr) : Mem × Ptr :=
  let y := (rd s x).left
  if y = .null then (s, x)
  else
    let b := (rd s y).right
    let s1 := wr s x (fun n => { n with left := b })
    let s2 := if b ≠ .null then wr s1 b (fun n => { n with parent := x }) else s1
    let xp := (rd s2 x).parent
    let s3 := wr s2 y (fun n => { n with parent := xp })
    let s4 :=
      if xp = .null then s3
      else if (rd s3 xp).left = x then wr s3 xp (fun n => { n with left := y })
      else wr s3 xp (fun n => { n with right := y })
    let s5 := wr s4 y (fun n => { n with right := x })
    let s6 := wr s5 x (fun n => { n with parent := y })
    (s6, y)

/-- Modelled from the spec: `TreeTransplant` is called with the tree's root
reference but not defined among the provided sources.  Spec §4.1: rewire the
removed node's parent to point at the replacement (updating the tree's root
reference if the removed node was the root) and the replacement's parent
pointer, when present, to the removed node's old parent. -/
def TreeTransplant (s : Mem) (u v : Ptr) : Mem :=
  let up := (rd s u).parent
  let s1 :=
    if up = .null then { s with root := v }
    else if (rd s up).left = u then wr s up (fun n => { n with left := v })
    else wr s up (fun n => { n with right := v })
  if v ≠ .null then wr s1 v (fun n => { n with parent := up }) else s1

/-! ## Red-black insertion (`red_black_tree.h`) -/

/-- The descent loop of `insert_impl` (lines 236-253): either the key is
found (`Sum.inl` the existing node) or the loop exits with the last visited
node, the parent-to-be (`Sum.inr`). -/
def insertDescend (s : Mem) : Nat → Ptr → Ptr → Int → Ptr ⊕ Ptr
  | 0, parent, _, _ => .inr parent
  | fuel+1, parent, current, v =>
    if current = .null then .inr parent
    else
      let val := (rd s current).val
      if v < val then insertDescend s fuel current ((rd s current).left) v
      else if val < v then insertDescend s fuel current ((rd s current).right) v
      else .inl current

/-- `create_node` (success path): allocate a fresh arena slot, construct the
value, set parent, null children and red colour.  Returns the new index. -/
def create_node (s : Mem) (v : Int) (parent : Ptr) : Mem × Nat :=
  let i := s.nodes.length
  let s1 : Mem := { s with nodes := s.nodes ++ [{ val := v, parent := parent,
                                                  left := .null, right := .null,
                                                  color := .RBRed, live := true }] }
  (s1, i)

/-- The zig-zag ("quite-fortunate") block of `insert_fixup` (lines
337-352): uncle black and `x` on the uncle's side: rotate `px` toward the
straight shape and swap the `x`/`px` roles, then recompute the side flag.
Returns the new state and the new `x`, `px`, `IsXLeftChild`. -/
def zigStep (s : Mem) (x px : Ptr) (isXLeft : Bool) : Mem × Ptr × Ptr × Bool :=
  let s' := if isXLeft = false then (TreeRotateLeft s px).1 else (TreeRotateRight s px).1
  (s', px, x, decide (px = (rd s' x).left))

/-- The straight-line ("fortunate") block of `insert_fixup` (lines
355-378): rotate the grandparent away from `x`, swap the grandparent's and
parent's colours, update `mp_Root` if the new local root has no parent. -/
def straightStep (s : Mem) (gx px1 : Ptr) (isXLeft1 : Bool) : Mem :=
  let rot := if isXLeft1 then TreeRotateRight s gx else TreeRotateLeft s gx
  let s2 := rot.1
  let newRoot := rot.2
  let s3 := set_color s2 gx .RBRed
  let s4 := set_color s3 px1 .RBBk
  if (rd s4 newRoot).parent = .null then { s4 with root := newRoot } else s4

/-- The red-uncle ("unlucky") block of `insert_fixup` (lines 381-385):
recolour parent and uncle black, grandparent red. -/
def redUncleStep (s : Mem) (px1 ux gx : Ptr) : Mem :=
  set_color (set_color (set_color s px1 .RBBk) ux .RBBk) gx .RBRed

/-- The loop of `insert_fixup` (lines 310-389).  Loop variables `x`, `px`
exactly as in the source; `gx`/`ux` recomputed per iteration; the zig-zag
case swaps `x` and `px` after rotating; the straight-line case breaks; the
red-uncle case climbs two levels. -/
def insert_fixupLoop (s : Mem) : Nat → Ptr → Ptr → Mem
  | 0, _, _ => s
  | fuel+1, x, px =>
    if px ≠ .null ∧ color_of s px = .RBRed then
      let gx := (rd s px).parent
      if gx = .null then s
      else
        let isXLeft := decide (x = (rd s px).left)
        let uinfo : Ptr × Bool :=
          if px = (rd s gx).left then ((rd s gx).right, false) else ((rd s gx).left, true)
        let ux := uinfo.1
        let isUncleLeft := uinfo.2
        let zz : Mem × Ptr × Ptr × Bool :=
          if color_of s ux = .RBBk ∧ isXLeft = isUncleLeft then zigStep s x px isXLeft
          else (s, x, px, isXLeft)
        let s1 := zz.1
        let px1 := zz.2.2.1
        let isXLeft1 := zz.2.2.2
        if color_of s1 ux = .RBBk then
          straightStep s1 gx px1 isXLeft1
        else
          let s4 := redUncleStep s1 px1 ux gx
          insert_fixupLoop s4 fuel gx ((rd s4 gx).parent)
    else s

/-- `insert_fixup`: run the loop from the new node, then unconditionally
recolour the root black (lines 391-394). -/
def insert_fixup (s : Mem) (fuel : Nat) (x : Ptr) : Mem :=
  let s' := insert_fixupLoop s fuel x ((rd s x).parent)
  if s'.root ≠ .null then set_color s' s'.root .RBBk else s'

/-- `insert_impl` (lines 230-279): descend; on duplicate return the existing
node with `false` and no effect; otherwise create the node, link it, bump
`m_Size`, run the fix-up, return the new node with `true`. -/
def insert_impl (s : Mem) (v : Int) : (Ptr × Bool) × Mem :=
  match insertDescend s (s.nodes.length + 1) .null s.root v with
  | .inl current => ((current, false), s)
  | .inr parent =>
    let c := create_node s v parent
    let s1 := c.1
    let ni := c.2
    let s2 :=
      if parent = .null then { s1 with root := .node ni }
      else if v < (rd s1 parent).val then wr s1 parent (fun n => { n with left := .node ni })
      else wr s1 parent (fun n => { n with right := .node ni })
    let s3 : Mem := { s2 with size := s2.size + 1 }
    let s4 := insert_fixup s3 (s3.nodes.length + 1) (.node ni)
    ((.node ni, true), s4)

/-- `rb_tree::insert`: wraps `insert_impl`, returning (iterator, flag). -/
def insert (s : Mem) (v : Int) : (Ptr × Bool) × Mem :=
  insert_impl s v

/-! ## Red-black deletion (`red_black_tree.h`) -/

/-- The red-brother ("worst") block of `erase_fixup` (lines 507-528):
update `mp_Root` if the parent was the root, rotate the parent toward the
double-black side, recolour, and recompute the brother as `px->mp_Right`
irrespective of side — exactly as in line 527. -/
def eraseWorstStep (s : Mem) (px bx : Ptr) (isDBLeft : Bool) : Mem × Ptr :=
  let sA := if (rd s px).parent = .null then { s with root := bx } else s
  let sB := if isDBLeft then (TreeRotateLeft sA px).1 else (TreeRotateRight sA px).1
  let sC := set_color sB px .RBRed
  let sD := set_color sC bx .RBBk
  (sD, (rd sD px).right)

/-- The "bad" block of `erase_fixup` (lines 531-542): recolour the brother
red and move the deficiency up; if the parent is red, blacken it and stop
(the `true` flag means stop). -/
def eraseBadStep (s : Mem) (px bx1 : Ptr) : Mem × Bool :=
  let s2 := set_color s bx1 .RBRed
  if (rd s2 px).color = .RBRed then (set_color s2 px .RBBk, true) else (s2, false)

/-- The semi-fortunate block of `erase_fixup` (lines 548-564): near nephew
red, far nephew black: rotate the brother away from the double-black side,
recolour, and let the near nephew become the brother. -/
def eraseSemiStep (s : Mem) (bx1 sameX : Ptr) (isDBLeft : Bool) : Mem × Ptr :=
  let sA := if isDBLeft then (TreeRotateRight s bx1).1 else (TreeRotateLeft s bx1).1
  let sB := set_color sA sameX .RBBk
  let sC := set_color sB bx1 .RBRed
  (sC, sameX)

/-- The fortunate block of `erase_fixup` (lines 570-590): rotate the parent
toward the double-black side, transfer the parent's colour to the brother,
blacken parent, far nephew and the double-black node, and update `mp_Root`
if the brother ended up without a parent. -/
def eraseFortunateStep (s : Mem) (px db bx2 oppoX : Ptr) (isDBLeft : Bool) : Mem :=
  let s3 := if isDBLeft then (TreeRotateLeft s px).1 else (TreeRotateRight s px).1
  let s4 := set_color s3 oppoX .RBBk
  let s5 := set_color s4 bx2 ((rd s4 px).color)
  let s6 := set_color s5 px .RBBk
  let s7 := set_color s6 db .RBBk
  if (rd s7 bx2).parent = .null then { s7 with root := bx2 } else s7

/-- The loop of `erase_fixup` (lines 483-592).  Returns the final state and
the final value of `double_black` for the trailing recolour.  All reads,
stale-variable uses (`sameX`/`oppoX` computed before the red-brother
rotation, `bx = px->mp_Right` irrespective of side after it, line 527) are
kept exactly as in the source. -/
def erase_fixupLoop (s : Mem) : Nat → Ptr → Mem × Ptr
  | 0, db => (s, db)
  | fuel+1, db =>
    if db ≠ .null ∧ (rd s db).color = .RBBk then
      let px := (rd s db).parent
      if px = .null then (s, db)
      else
        let isDBLeft := decide (db = (rd s px).left)
        let bx := if isDBLeft then (rd s px).right else (rd s px).left
        let sameX := if bx ≠ .null then (if isDBLeft then (rd s bx).left else (rd s bx).right) else .null
        let oppoX := if bx ≠ .null then (if isDBLeft then (rd s bx).right else (rd s bx).left) else .null
        let wc : Mem × Ptr :=
          if bx ≠ .null ∧ (rd s bx).color = .RBRed then eraseWorstStep s px bx isDBLeft
          else (s, bx)
        let s1 := wc.1
        let bx1 := wc.2
        if (sameX = .null ∨ (rd s1 sameX).color = .RBBk)
            ∧ (oppoX = .null ∨ (rd s1 oppoX).color = .RBBk) then
          let bad := eraseBadStep s1 px bx1
          if bad.2 then (bad.1, px) else erase_fixupLoop bad.1 fuel px
        else
          let sf : Mem × Ptr :=
            if (sameX ≠ .null ∧ (rd s1 sameX).color = .RBRed)
                ∧ (oppoX = .null ∨ (rd s1 oppoX).color = .RBBk) then
              eraseSemiStep s1 bx1 sameX isDBLeft
            else (s1, bx1)
          (eraseFortunateStep sf.1 px db sf.2 oppoX isDBLeft, db)
    else (s, db)

/-- `erase_fixup`: run the loop, then recolour the node finally reached
black (line 594). -/
def erase_fixup (s : Mem) (fuel : Nat) (db : Ptr) : Mem :=
  let r := erase_fixupLoop s fuel db
  if r.2 ≠ .null then set_color r.1 r.2 .RBBk else r.1

/-- The splicing part of `erase_node` (lines 405-457): unlink the node with
the appropriate transplant, or splice the in-order successor into its place.
Returns the state together with `removed_node`, `rn_original_color` and
`rn_substitute`. -/
def eraseSplice (s0 : Mem) (x : Ptr) : Mem × Ptr × RBColor × Ptr :=
  let fuel := s0.nodes.length + 1
  if (rd s0 x).left = .null then
    (TreeTransplant s0 x ((rd s0 x).right), x, (rd s0 x).color, (rd s0 x).right)
  else if (rd s0 x).right = .null then
    (TreeTransplant s0 x ((rd s0 x).left), x, (rd s0 x).color, (rd s0 x).left)
  else
    -- two children: use the successor
    let sp := TreeSuccessor s0 fuel x
    let rn_substitute := (rd s0 sp).right
    let sA :=
      if (rd s0 sp).parent = x then
        (if rn_substitute ≠ .null then wr s0 rn_substitute (fun n => { n with parent := sp }) else s0)
      else
        let t1 := TreeTransplant s0 sp ((rd s0 sp).right)
        let t2 := wr t1 sp (fun n => { n with right := (rd t1 x).right })
        let t3 := wr t2 ((rd t2 sp).right) (fun n => { n with parent := sp })
        t3
    let sB := TreeTransplant sA x sp
    let sC := wr sB sp (fun n => { n with left := (rd sB x).left })
    let sD := if (rd sC sp).left ≠ .null then wr sC ((rd sC sp).left) (fun n => { n with parent := sp }) else sC
    let sE := set_color sD sp ((rd sD x).color)
    (sE, sp, (rd s0 sp).color, rn_substitute)

/-- `erase_node` (lines 399-479), with one extra observation: the second
component is `some p` exactly when the transient black stack sentinel was
passed to `erase_fixup`, recording the value `p` that was written to the
sentinel's parent pointer (`leafSentinel.mp_Parent = removed_node`,
line 471). -/
def erase_nodeFull (s0 : Mem) (x : Ptr) : Mem × Option Ptr :=
  if x = .null then (s0, none)
  else
    let main : Mem × Ptr × RBColor × Ptr := eraseSplice s0 x
    let s1 := main.1
    let removed_node := main.2.1
    let rn_original_color := main.2.2.1
    let rn_substitute := main.2.2.2
    -- DoDestroyNode(node_to_delete); --m_Size;
    let s2 := wr s1 x (fun n => { n with live := false })
    let s3 : Mem := { s2 with size := s2.size - 1 }
    -- base_node_type leafSentinel{}; leafSentinel.m_Color = RBBk;
    let s4 : Mem := { s3 with sent := { left := .null, right := .null, parent := .null,
                                        color := .RBBk, val := 0, live := true } }
    if rn_original_color = .RBBk then
      if rn_substitute = .null then
        let s5 : Mem := { s4 with sent := { s4.sent with parent := removed_node } }
        (erase_fixup s5 (s5.nodes.length + 2) .sent, some removed_node)
      else
        (erase_fixup s4 (s4.nodes.length + 2) rn_substitute, none)
    else (s4, none)

/-- `erase_node` without the observation. -/
def erase_node (s : Mem) (x : Ptr) : Mem :=
  (erase_nodeFull s x).1

/-- `rb_tree::erase(const key_type&)` (lines 170-176): find, then erase;
returns the removal count. -/
def eraseKey (s : Mem) (k : Int) : Nat × Mem :=
  let z := (TreeFindLoop s (s.nodes.length + 1) s.root k).1
  if z = .null then (0, s)
  else (1, erase_node s z)

/-- `rb_tree::erase(iterator)` (lines 179-186): null iterator returns
`end()` untouched; otherwise erase and return the in-order successor. -/
def eraseIter (s : Mem) (pos : Ptr) : Ptr × Mem :=
  if pos = .null then (.null, s)
  else
    let su := TreeSuccessor s (s.nodes.length + 1) pos
    (su, erase_node s pos)

/-! ## The source's own structural checker (`verify_rb_properties`) -/

/-- `verify_node_rec` (lines 616-656): black-height comparison against the
first completed path (threaded `expected_black_height`, starting at -1),
parent-linkage check, red-red check. -/
def verify_node_rec (s : Mem) : Nat → Ptr → Int → Int → Bool × Int
  | 0, _, _, e => (false, e)
  | fuel+1, p, black_count, expected =>
    if p = .null then
      if expected = -1 then (true, black_count + 1)
      else if black_count + 1 ≠ expected then (false, expected)
      else (true, expected)
    else
      if (rd s p).left ≠ .null ∧ (rd s ((rd s p).left)).parent ≠ p then (false, expected)
      else if (rd s p).right ≠ .null ∧ (rd s ((rd s p).right)).parent ≠ p then (false, expected)
      else
        let bc := if color_of s p = .RBBk then black_count + 1 else black_count
        if color_of s p = .RBRed ∧
            (((rd s p).left ≠ .null ∧ color_of s ((rd s p).left) = .RBRed)
              ∨ ((rd s p).right ≠ .null ∧ color_of s ((rd s p).right) = .RBRed)) then
          (false, expected)
        else
          let lres := verify_node_rec s fuel ((rd s p).left) bc expected
          let rres := verify_node_rec s fuel ((rd s p).right) bc lres.2
          (lres.1 && rres.1, rres.2)

/-- `IsRBTree` / `verify_rb_properties` (lines 599-614). -/
def IsRBTree (s : Mem) : Bool :=
  let rootOk : Bool := ¬ (s.root ≠ .null ∧ color_of s s.root ≠ .RBBk)
  let recOk := (verify_node_rec s (s.nodes.length + 1) s.root 0 (-1)).1
  rootOk && recOk

/-! ## Specification-level invariant checkers (spec §3)

These are our own decidable formalisations of the invariants the claims
quantify over; they read the pointer structure directly. -/

/-- In-order list of pointers below `p`. -/
def inorderPtrs (s : Mem) : Nat → Ptr → List Ptr
  | 0, _ => []
  | fuel+1, p =>
    if p = .null then []
    else inorderPtrs s fuel ((rd s p).left) ++ p :: inorderPtrs s fuel ((rd s p).right)

/-- In-order list of stored values below the root — what iterating from
`begin()` is supposed to visit. -/
def inorderList (s : Mem) : List Int :=
  (inorderPtrs s (s.nodes.length + 1) s.root).map (fun p => (rd s p).val)

/-- Strictly increasing test. -/
def strictIncr : List Int → Bool
  | [] => true
  | [_] => true
  | a :: b :: t => (a < b : Bool) && strictIncr (b :: t)

/-- Invariant 1 (spec §3): binary-search-tree order under the comparator. -/
def bstOrderOK (s : Mem) : Bool :=
  strictIncr (inorderList s)

/-- Invariant 6 (spec §3): every parent link is the exact inverse of the
corresponding child link (and the root has no parent). -/
def childLinksOK (s : Mem) : Nat → Ptr → Bool
  | 0, _ => false
  | fuel+1, p =>
    if p = .null then true
    else
      ((rd s p).left = .null ∨ ((rd s ((rd s p).left)).parent = p : Prop))
      ∧ ((rd s p).right = .null ∨ ((rd s ((rd s p).right)).parent = p : Prop))
      ∧ childLinksOK s fuel ((rd s p).left) = true
      ∧ childLinksOK s fuel ((rd s p).right) = true

/-- Invariant 4 (spec §3): a red node has no red child. -/
def noRedRedOK (s : Mem) : Nat → Ptr → Bool
  | 0, _ => false
  | fuel+1, p =>
    if p = .null then true
    else
      (color_of s p = .RBRed →
        color_of s ((rd s p).left) = .RBBk ∧ color_of s ((rd s p).right) = .RBBk : Prop)
      ∧ noRedRedOK s fuel ((rd s p).left) = true
      ∧ noRedRedOK s fuel ((rd s p).right) = true

/-- Invariant 5 (spec §3): common black count on every downward path from
each node; `none` on a mismatch, otherwise the black-height. -/
def blackHeightOf (s : Mem) : Nat → Ptr → Option Nat
  | 0, _ => none
  | fuel+1, p =>
    if p = .null then some 1
    else
      match blackHeightOf s fuel ((rd s p).left), blackHeightOf s fuel ((rd s p).right) with
      | some a, some b =>
        if a = b then some (a + (if color_of s p = .RBBk then 1 else 0)) else none
      | _, _ => none

/-- All red-black invariants of spec §3 that claim C1 lists: BST order,
root (if present) black, no red-red, equal black count everywhere, parent
links the exact inverse of child links.  ("Every node red or black" holds by
the colour type.) -/
def rbInvariantsOK (s : Mem) : Bool :=
  let fuel := s.nodes.length + 1
  bstOrderOK s
  && (s.root = .null ∨ (color_of s s.root = .RBBk : Prop))
  && (s.root = .null ∨ ((rd s s.root).parent = .null : Prop))
  && childLinksOK s fuel s.root
  && noRedRedOK s fuel s.root
  && (blackHeightOf s fuel s.root).isSome

/-! ## Public lookup interface (`tree_base`, lines 360-396) -/

/-- `tree_base::find`. -/
def find (s : Mem) (k : Int) : Ptr × Mem :=
  TreeFindLoop s (s.nodes.length + 1) s.root k

/-- `tree_base::lower_bound`. -/
def lower_bound (s : Mem) (k : Int) : Ptr × Mem :=
  TreeLowerBoundLoop s (s.nodes.length + 1) s.root k .null

/-- `tree_base::upper_bound`. -/
def upper_bound (s : Mem) (k : Int) : Ptr × Mem :=
  TreeUpperBoundLoop s (s.nodes.length + 1) s.root k .null

/-- `tree_base::contains`: `TreeFind(...) != nullptr`. -/
def contains (s : Mem) (k : Int) : Bool × Mem :=
  let r := TreeFindLoop s (s.nodes.length + 1) s.root k
  (decide (r.1 ≠ .null), r.2)

/-- `tree_base::equal_range`: the pair `(lower_bound, upper_bound)`. -/
def equal_range (s : Mem) (k : Int) : (Ptr × Ptr) × Mem :=
  let l := lower_bound s k
  let u := upper_bound l.2 k
  ((l.1, u.1), u.2)

/-! ## Failure modes of insertion (`create_node`, lines 282-303)

`create_node` allocates, then constructs the value inside a try block; on a
construction failure it deallocates the raw storage and rethrows.  An
allocation failure escapes before any state change.  We model the two failure
points with an explicit mode. -/

/-- Which step of node creation fails, if any. -/
inductive FailMode where
  | ok
  | allocFail
  | constructFail
deriving DecidableEq, Repr

/-- `create_node` with its failure behaviour: `DoAllocateNode` may throw
(state untouched), or the value construction may throw, in which case the
already-allocated slot is deallocated before the exception propagates. -/
def create_nodeF (s : Mem) (v : Int) (parent : Ptr) (mode : FailMode) :
    Except Unit Nat × Mem :=
  match mode with
  | .allocFail => (.error (), s)
  | .constructFail =>
    let s1 : Mem := { s with nodes := s.nodes ++ [{}] }
    let s2 : Mem := { s1 with nodes := s1.nodes.dropLast }
    (.error (), s2)
  | .ok =>
    let c := create_node s v parent
    (.ok c.2, c.1)

/-- `insert_impl` with the failure behaviour of `create_node` made explicit;
identical to `insert_impl` on the success path. -/
def insert_implF (s : Mem) (v : Int) (mode : FailMode) :
    Except Unit (Ptr × Bool) × Mem :=
  match insertDescend s (s.nodes.length + 1) .null s.root v with
  | .inl current => (.ok (current, false), s)
  | .inr parent =>
    match create_nodeF s v parent mode with
    | (.error e, s') => (.error e, s')
    | (.ok ni, s1) =>
      let s2 :=
        if parent = .null then { s1 with root := .node ni }
        else if v < (rd s1 parent).val then wr s1 parent (fun n => { n with left := .node ni })
        else wr s1 parent (fun n => { n with right := .node ni })
      let s3 : Mem := { s2 with size := s2.size + 1 }
      let s4 := insert_fixup s3 (s3.nodes.length + 1) (.node ni)
      (.ok (.node ni, true), s4)

/-- `rb_tree::emplace`: first constructs a candidate value (which may itself
throw, before the tree is touched), then behaves as `insert`. -/
def emplaceF (s : Mem) (v : Int) (tempFails : Bool) (mode : FailMode) :
    Except Unit (Ptr × Bool) × Mem :=
  if tempFails then (.error (), s) else insert_implF s v mode

/-! ## Operation sequences -/

/-- A public mutating operation of the engine. -/
inductive Op where
  | ins (v : Int)
  | del (k : Int)
deriving DecidableEq, Repr

/-- Apply one operation. -/
def applyOp (s : Mem) : Op → Mem
  | .ins v => (insert s v).2
  | .del k => (eraseKey s k).2

/-- Apply a sequence of operations to the empty tree. -/
def applyOps (l : List Op) : Mem :=
  l.foldl applyOp emptyMem

/-! ## Inductive abstraction of the live pointer structure

`reprT s t p par` states that the pointer `p` (whose parent pointer is
`par`) spells out the finite, acyclic, parent-consistent tree `t` of arena
indices inside the memory `s`.  Claims quantifying over "every tree" take
such an abstraction as hypothesis — it is exactly the well-formedness that
any tree reachable through the public interface enjoys. -/

/-- A finite binary tree of arena indices. -/
inductive ITree where
  | leaf
  | node (l : ITree) (i : Nat) (r : ITree)
deriving DecidableEq, Repr

/-- In-order list of the arena indices of a tree. -/
def inorderIdx : ITree → List Nat
  | .leaf => []
  | .node l i r => inorderIdx l ++ i :: inorderIdx r

/-- Height (leaf = 0). -/
def heightT : ITree → Nat
  | .leaf => 0
  | .node l _ r => max (heightT l) (heightT r) + 1

/-- The value stored in arena slot `i`. -/
def valAt (s : Mem) (i : Nat) : Int :=
  (s.nodes.getD i {}).val

/-- In-order list of stored keys of an abstracted tree. -/
def inorderKeys (s : Mem) (t : ITree) : List Int :=
  (inorderIdx t).map (valAt s)

/-- The pointer structure rooted at `p`, with incoming parent pointer
`par`, spells out `t`: indices in bounds and live, parent fields the exact
inverse of the child fields, children spelling out the subtrees. -/
def reprT (s : Mem) : ITree → Ptr → Ptr → Prop
  | .leaf, p, _ => p = .null
  | .node l i r, p, par =>
    p = .node i ∧ i < s.nodes.length ∧ (rd s (.node i)).live = true
      ∧ (rd s (.node i)).parent = par
      ∧ reprT s l ((rd s (.node i)).left) (.node i)
      ∧ reprT s r ((rd s (.node i)).right) (.node i)

instance instDecidableReprT (s : Mem) :
    ∀ (t : ITree) (p par : Ptr), Decidable (reprT s t p par)
  | .leaf, _, _ => inferInstanceAs (Decidable (_ = _))
  | .node l i r, _, _ =>
    have := instDecidableReprT s l ((rd s (.node i)).left) (.node i)
    have := instDecidableReprT s r ((rd s (.node i)).right) (.node i)
    inferInstanceAs (Decidable (_ ∧ _ ∧ _ ∧ _ ∧ _ ∧ _))

/-! ## Pure counterparts of the descent loops -/

/-- What `TreeFind`'s descent computes on the abstraction. -/
def findIdx (s : Mem) (k : Int) : ITree → Option Nat
  | .leaf => none
  | .node l i r =>
    if k < valAt s i then findIdx s k l
    else if valAt s i < k then findIdx s k r
    else some i

/-- What `TreeLowerBound`'s descent computes on the abstraction (`res` is
the best candidate so far). -/
def lbIdx (s : Mem) (k : Int) : ITree → Ptr → Ptr
  | .leaf, res => res
  | .node l i r, res =>
    if ¬ valAt s i < k then lbIdx s k l (.node i) else lbIdx s k r res

/-- What `TreeUpperBound`'s descent computes on the abstraction. -/
def ubIdx (s : Mem) (k : Int) : ITree → Ptr → Ptr
  | .leaf, res => res
  | .node l i r, res =>
    if k < valAt s i then ubIdx s k l (.node i) else ubIdx s k r res

/-- The liveness flag of arena slot `i`. -/
def liveAt (s : Mem) (i : Nat) : Bool :=
  (s.nodes.getD i {}).live

/-- Two memories agree on arena length, `m_Size`, and the value/liveness of
every slot — the projection that re-linking and recolouring preserve. -/
def SameVLS (s s' : Mem) : Prop :=
  s'.nodes.length = s.nodes.length ∧ s'.size = s.size
    ∧ ∀ j, valAt s' j = valAt s j ∧ liveAt s' j = liveAt s j

/-! ## Paths into the abstraction -/

/-- A direction of descent. -/
inductive Dir where
  | L
  | R
deriving DecidableEq, Repr

/-- The subtree of `t` at path `π`. -/
def subAt : ITree → List Dir → Option ITree
  | t, [] => some t
  | .leaf, _ :: _ => none
  | .node l _ _, .L :: π => subAt l π
  | .node _ _ r, .R :: π => subAt r π

/-- Replace the subtree of `t` at path `π`. -/
def replaceAt : ITree → List Dir → ITree → ITree
  | _, [], u => u
  | .leaf, _ :: _, _ => .leaf
  | .node l i r, .L :: π, u => .node (replaceAt l π u) i r
  | .node l i r, .R :: π, u => .node l i (replaceAt r π u)

/-- The parent pointer of the subtree at `π`, given the parent pointer
`par` of `t` itself. -/
def parAt : ITree → List Dir → Ptr → Option Ptr
  | _, [], par => some par
  | .leaf, _ :: _, _ => none
  | .node l i _, .L :: π, _ => parAt l π (.node i)
  | .node _ i r, .R :: π, _ => parAt r π (.node i)

/-- The pointer of a subtree: null for a leaf, the root's arena index
otherwise. -/
def ptrOfSub : ITree → Ptr
  | .leaf => .null
  | .node _ i _ => .node i

/-- Index of the leftmost node of a tree, if any. -/
def leftmostIdx : ITree → Option Nat
  | .leaf => none
  | .node l i _ =>
    match leftmostIdx l with
    | some j => some j
    | none => some i

/-! ## Iteration through the public interface -/

/-- `begin()`: the leftmost node (tree.h line 352). -/
def beginPtr (s : Mem) : Ptr :=
  TreeMin s (s.nodes.length + 1) s.root

/-- Repeatedly dereference and advance the iterator (`operator++` is
`TreeSuccessor`) until `end()`; collects the visited values. -/
def iterFrom (s : Mem) : Nat → Ptr → List Int
  | 0, _ => []
  | fuel+1, p =>
    if p = .null then []
    else (rd s p).val :: iterFrom s fuel (TreeSuccessor s (s.nodes.length + 1) p)

/-- The full `begin()`-to-`end()` iteration. -/
def iterVals (s : Mem) : List Int :=
  iterFrom s (s.nodes.length + 1) (beginPtr s)

/-! ## Pure counterparts of insertion -/

/-- Which node becomes the parent of an inserted key (the last node the
descent of `insert_impl` visits). -/
def descParent (s : Mem) (v : Int) : ITree → Ptr → Ptr
  | .leaf, par => par
  | .node l i r, _ =>
    if v < valAt s i then descParent s v l (.node i)
    else descParent s v r (.node i)

/-- The shape of the tree right after the new node (index `n`) is linked,
before the fix-up (which only rotates and recolours). -/
def insertT (s : Mem) (v : Int) (n : Nat) : ITree → ITree
  | .leaf => .node .leaf n .leaf
  | .node l i r =>
    if v < valAt s i then .node (insertT s v n l) i r
    else if valAt s i < v then .node l i (insertT s v n r)
    else .node l i r

/-- Insert a value into a sorted list at its order position. -/
def insSorted (v : Int) : List Int → List Int
  | [] => [v]
  | x :: xs => if v < x then v :: x :: xs else x :: insSorted v xs

/-! # Theorems -/

/-! ## Lookup purity helpers -/

/-- The find loop threads the state through unchanged. -/
theorem TreeFindLoop_state (s : Mem) :
    ∀ fuel p k, (TreeFindLoop s fuel p k).2 = s := by
  intro fuel
  induction fuel with
  | zero => intro p k; rfl
  | succ n ih =>
    intro p k
    simp only [TreeFindLoop]
    split
    · rfl
    · split
      · exact ih _ _
      · split
        · exact ih _ _
        · rfl

/-- The lower-bound loop threads the state through unchanged. -/
theorem TreeLowerBoundLoop_state (s : Mem) :
    ∀ fuel p k res, (TreeLowerBoundLoop s fuel p k res).2 = s := by
  intro fuel
  induction fuel with
  | zero => intro p k res; rfl
  | succ n ih =>
    intro p k res
    simp only [TreeLowerBoundLoop]
    split
    · rfl
    · split
      · exact ih _ _ _
      · exact ih _ _ _

/-- The upper-bound loop threads the state through unchanged. -/
theorem TreeUpperBoundLoop_state (s : Mem) :
    ∀ fuel p k res, (TreeUpperBoundLoop s fuel p k res).2 = s := by
  intro fuel
  induction fuel with
  | zero => intro p k res; rfl
  | succ n ih =>
    intro p k res
    simp only [TreeUpperBoundLoop]
    split
    · rfl
    · split
      · exact ih _ _ _
      · exact ih _ _ _

/-! ## Basic memory lemmas -/

theorem getD_set_self (l : List NodeR) (i : Nat) (x : NodeR) (h : i < l.length) :
    (l.set i x).getD i {} = x := by
  induction l generalizing i with
  | nil => simp at h
  | cons a as ih =>
    cases i with
    | zero => rfl
    | succ n =>
      simp only [List.set, List.getD, List.get?]
      exact ih n (by simpa using h)

theorem getD_set_ne (l : List NodeR) (i j : Nat) (x : NodeR) (h : i ≠ j) :
    (l.set i x).getD j {} = l.getD j {} := by
  induction l generalizing i j with
  | nil => simp [List.set]
  | cons a as ih =>
    cases i with
    | zero =>
      cases j with
      | zero => exact absurd rfl h
      | succ m => rfl
    | succ n =>
      cases j with
      | zero => rfl
      | succ m =>
        simp only [List.set, List.getD, List.get?]
        exact ih n m (fun e => h (by rw [e]))

theorem set_oob (l : List NodeR) (i : Nat) (x : NodeR) (h : l.length ≤ i) :
    l.set i x = l := by
  induction l generalizing i with
  | nil => rfl
  | cons a as ih =>
    cases i with
    | zero => simp at h
    | succ n =>
      simp only [List.set]
      rw [ih n (by simpa using h)]

theorem rd_wr_node_self (s : Mem) (i : Nat) (f : NodeR → NodeR)
    (h : i < s.nodes.length) :
    rd (wr s (.node i) f) (.node i) = f (rd s (.node i)) := by
  simp only [rd, wr]
  exact getD_set_self _ _ _ h

theorem rd_wr_node_ne (s : Mem) (i j : Nat) (f : NodeR → NodeR) (h : i ≠ j) :
    rd (wr s (.node i) f) (.node j) = rd s (.node j) := by
  simp only [rd, wr]
  exact getD_set_ne _ _ _ _ h

/-! ## Frame lemmas: re-linking and recolouring preserve values, liveness,
length and size -/

theorem SameVLS_refl (s : Mem) : SameVLS s s :=
  ⟨rfl, rfl, fun _ => ⟨rfl, rfl⟩⟩

theorem SameVLS_trans {s1 s2 s3 : Mem} (h1 : SameVLS s1 s2) (h2 : SameVLS s2 s3) :
    SameVLS s1 s3 := by
  obtain ⟨ha, hb, hc⟩ := h1
  obtain ⟨hd, he, hf⟩ := h2
  exact ⟨hd.trans ha, he.trans hb,
    fun j => ⟨((hf j).1).trans ((hc j).1), ((hf j).2).trans ((hc j).2)⟩⟩

theorem SameVLS_wr (s : Mem) (p : Ptr) (f : NodeR → NodeR)
    (hf : ∀ n, (f n).val = n.val ∧ (f n).live = n.live) :
    SameVLS s (wr s p f) := by
  cases p with
  | null => exact SameVLS_refl s
  | sent => exact SameVLS_refl s
  | node i =>
    refine ⟨by simp [wr], by simp [wr], ?_⟩
    intro j
    by_cases hij : i = j
    · subst hij
      by_cases hi : i < s.nodes.length
      · simp only [valAt, liveAt, wr]
        rw [getD_set_self _ _ _ hi]
        exact ⟨(hf _).1, (hf _).2⟩
      · have heq : wr s (.node i) f = s := by
          simp only [wr]
          rw [set_oob _ _ _ (by omega)]
        rw [heq]
        exact ⟨rfl, rfl⟩
    · simp only [valAt, liveAt, wr]
      rw [getD_set_ne _ _ _ _ hij]
      exact ⟨rfl, rfl⟩

theorem SameVLS_wr_of {s s' : Mem} (h : SameVLS s s') (p : Ptr) (f : NodeR → NodeR)
    (hf : ∀ n, (f n).val = n.val ∧ (f n).live = n.live) :
    SameVLS s (wr s' p f) :=
  SameVLS_trans h (SameVLS_wr s' p f hf)

theorem SameVLS_wrL {s s' : Mem} (h : SameVLS s s') (p q : Ptr) :
    SameVLS s (wr s' p (fun n => { n with left := q })) :=
  SameVLS_wr_of h p _ (fun _ => ⟨rfl, rfl⟩)

theorem SameVLS_wrR {s s' : Mem} (h : SameVLS s s') (p q : Ptr) :
    SameVLS s (wr s' p (fun n => { n with right := q })) :=
  SameVLS_wr_of h p _ (fun _ => ⟨rfl, rfl⟩)

theorem SameVLS_wrP {s s' : Mem} (h : SameVLS s s') (p q : Ptr) :
    SameVLS s (wr s' p (fun n => { n with parent := q })) :=
  SameVLS_wr_of h p _ (fun _ => ⟨rfl, rfl⟩)

theorem SameVLS_wrC {s s' : Mem} (h : SameVLS s s') (p : Ptr) (c : RBColor) :
    SameVLS s (wr s' p (fun n => { n with color := c })) :=
  SameVLS_wr_of h p _ (fun _ => ⟨rfl, rfl⟩)

theorem SameVLS_ite {s : Mem} (c : Prop) [Decidable c] {a b : Mem}
    (ha : SameVLS s a) (hb : SameVLS s b) : SameVLS s (if c then a else b) := by
  split
  · exact ha
  · exact hb

theorem SameVLS_root {s s' : Mem} (h : SameVLS s s') (r : Ptr) :
    SameVLS s { s' with root := r } :=
  SameVLS_trans h ⟨rfl, rfl, fun _ => ⟨rfl, rfl⟩⟩

theorem SameVLS_sent {s s' : Mem} (h : SameVLS s s') (n : NodeR) :
    SameVLS s { s' with sent := n } :=
  SameVLS_trans h ⟨rfl, rfl, fun _ => ⟨rfl, rfl⟩⟩

theorem SameVLS_rotateLeft {s s0 : Mem} (h : SameVLS s0 s) (x : Ptr) :
    SameVLS s0 (TreeRotateLeft s x).1 := by
  unfold TreeRotateLeft
  dsimp only
  split
  · exact h
  · apply SameVLS_wrP
    apply SameVLS_wrL
    apply SameVLS_ite
    · apply SameVLS_wrP
      apply SameVLS_ite
      · exact SameVLS_wrP (SameVLS_wrR h _ _) _ _
      · exact SameVLS_wrR h _ _
    · apply SameVLS_ite
      · apply SameVLS_wrL
        apply SameVLS_wrP
        apply SameVLS_ite
        · exact SameVLS_wrP (SameVLS_wrR h _ _) _ _
        · exact SameVLS_wrR h _ _
      · apply SameVLS_wrR
        apply SameVLS_wrP
        apply SameVLS_ite
        · exact SameVLS_wrP (SameVLS_wrR h _ _) _ _
        · exact SameVLS_wrR h _ _

theorem SameVLS_rotateRight {s s0 : Mem} (h : SameVLS s0 s) (x : Ptr) :
    SameVLS s0 (TreeRotateRight s x).1 := by
  unfold TreeRotateRight
  dsimp only
  split
  · exact h
  · apply SameVLS_wrP
    apply SameVLS_wrR
    apply SameVLS_ite
    · apply SameVLS_wrP
      apply SameVLS_ite
      · exact SameVLS_wrP (SameVLS_wrL h _ _) _ _
      · exact SameVLS_wrL h _ _
    · apply SameVLS_ite
      · apply SameVLS_wrL
        apply SameVLS_wrP
        apply SameVLS_ite
        · exact SameVLS_wrP (SameVLS_wrL h _ _) _ _
        · exact SameVLS_wrL h _ _
      · apply SameVLS_wrR
        apply SameVLS_wrP
        apply SameVLS_ite
        · exact SameVLS_wrP (SameVLS_wrL h _ _) _ _
        · exact SameVLS_wrL h _ _

theorem SameVLS_set_color {s s0 : Mem} (h : SameVLS s0 s) (p : Ptr) (c : RBColor) :
    SameVLS s0 (set_color s p c) := by
  unfold set_color
  exact SameVLS_wrC h p c

theorem SameVLS_transplant {s s0 : Mem} (h : SameVLS s0 s) (u v : Ptr) :
    SameVLS s0 (TreeTransplant s u v) := by
  unfold TreeTransplant
  dsimp only
  apply SameVLS_ite
  · apply SameVLS_wrP
    apply SameVLS_ite
    · exact SameVLS_root h _
    · apply SameVLS_ite
      · exact SameVLS_wrL h _ _
      · exact SameVLS_wrR h _ _
  · apply SameVLS_ite
    · exact SameVLS_root h _
    · apply SameVLS_ite
      · exact SameVLS_wrL h _ _
      · exact SameVLS_wrR h _ _

theorem SameVLS_zigStep {s0 s : Mem} (h : SameVLS s0 s) (x px : Ptr) (b : Bool) :
    SameVLS s0 (zigStep s x px b).1 := by
  unfold zigStep
  dsimp only
  split
  · exact SameVLS_rotateLeft h px
  · exact SameVLS_rotateRight h px

theorem SameVLS_straightStep {s0 s : Mem} (h : SameVLS s0 s) (gx px1 : Ptr) (b : Bool) :
    SameVLS s0 (straightStep s gx px1 b) := by
  unfold straightStep
  dsimp only
  apply SameVLS_ite
  · apply SameVLS_root
    apply SameVLS_set_color
    apply SameVLS_set_color
    split
    · exact SameVLS_rotateRight h gx
    · exact SameVLS_rotateLeft h gx
  · apply SameVLS_set_color
    apply SameVLS_set_color
    split
    · exact SameVLS_rotateRight h gx
    · exact SameVLS_rotateLeft h gx

theorem SameVLS_redUncleStep {s0 s : Mem} (h : SameVLS s0 s) (px1 ux gx : Ptr) :
    SameVLS s0 (redUncleStep s px1 ux gx) :=
  SameVLS_set_color (SameVLS_set_color (SameVLS_set_color h _ _) _ _) _ _

theorem SameVLS_insert_fixupLoop :
    ∀ (fuel : Nat) (s : Mem) (x px : Ptr), SameVLS s (insert_fixupLoop s fuel x px) := by
  intro fuel
  induction fuel with
  | zero => intro s x px; exact SameVLS_refl s
  | succ n ih =>
    intro s x px
    rw [insert_fixupLoop]
    dsimp only
    split
    · split
      · exact SameVLS_refl s
      · have hbody : ∀ (zz : Mem × Ptr × Ptr × Bool) (ux gx : Ptr), SameVLS s zz.1 →
            SameVLS s (if color_of zz.1 ux = RBColor.RBBk
              then straightStep zz.1 gx zz.2.2.1 zz.2.2.2
              else insert_fixupLoop (redUncleStep zz.1 zz.2.2.1 ux gx) n gx
                     ((rd (redUncleStep zz.1 zz.2.2.1 ux gx) gx).parent)) := by
          intro zz ux gx hzz
          split
          · exact SameVLS_straightStep hzz _ _ _
          · exact SameVLS_trans (SameVLS_redUncleStep hzz _ _ _) (ih _ _ _)
        apply hbody
        split <;> split <;>
          first
          | exact SameVLS_zigStep (SameVLS_refl s) _ _ _
          | exact SameVLS_refl s
    · exact SameVLS_refl s

theorem SameVLS_insert_fixup (s : Mem) (fuel : Nat) (x : Ptr) :
    SameVLS s (insert_fixup s fuel x) := by
  unfold insert_fixup
  dsimp only
  split
  · exact SameVLS_set_color (SameVLS_insert_fixupLoop fuel s x _) _ _
  · exact SameVLS_insert_fixupLoop fuel s x _

theorem SameVLS_eraseWorstStep {s0 s : Mem} (h : SameVLS s0 s) (px bx : Ptr) (b : Bool) :
    SameVLS s0 (eraseWorstStep s px bx b).1 := by
  unfold eraseWorstStep
  dsimp only
  apply SameVLS_set_color
  apply SameVLS_set_color
  split
  · exact SameVLS_rotateLeft (SameVLS_ite _ (SameVLS_root h _) h) px
  · exact SameVLS_rotateRight (SameVLS_ite _ (SameVLS_root h _) h) px

theorem SameVLS_eraseBadStep {s0 s : Mem} (h : SameVLS s0 s) (px bx1 : Ptr) :
    SameVLS s0 (eraseBadStep s px bx1).1 := by
  unfold eraseBadStep
  dsimp only
  split
  · exact SameVLS_set_color (SameVLS_set_color h _ _) _ _
  · exact SameVLS_set_color h _ _

theorem SameVLS_eraseSemiStep {s0 s : Mem} (h : SameVLS s0 s) (bx1 sameX : Ptr) (b : Bool) :
    SameVLS s0 (eraseSemiStep s bx1 sameX b).1 := by
  unfold eraseSemiStep
  dsimp only
  apply SameVLS_set_color
  apply SameVLS_set_color
  split
  · exact SameVLS_rotateRight h bx1
  · exact SameVLS_rotateLeft h bx1

theorem SameVLS_eraseFortunateStep {s0 s : Mem} (h : SameVLS s0 s)
    (px db bx2 oppoX : Ptr) (b : Bool) :
    SameVLS s0 (eraseFortunateStep s px db bx2 oppoX b) := by
  unfold eraseFortunateStep
  dsimp only
  apply SameVLS_ite
  · apply SameVLS_root
    apply SameVLS_set_color
    apply SameVLS_set_color
    apply SameVLS_set_color
    apply SameVLS_set_color
    split
    · exact SameVLS_rotateLeft h px
    · exact SameVLS_rotateRight h px
  · apply SameVLS_set_color
    apply SameVLS_set_color
    apply SameVLS_set_color
    apply SameVLS_set_color
    split
    · exact SameVLS_rotateLeft h px
    · exact SameVLS_rotateRight h px

theorem SameVLS_erase_fixupLoop :
    ∀ (fuel : Nat) (s : Mem) (db : Ptr), SameVLS s (erase_fixupLoop s fuel db).1 := by
  intro fuel
  induction fuel with
  | zero => intro s db; exact SameVLS_refl s
  | succ n ih =>
    intro s db
    rw [erase_fixupLoop]
    dsimp only
    split
    · split
      · exact SameVLS_refl s
      · have hbody : ∀ (wc : Mem × Ptr) (px db sameX oppoX : Ptr) (d : Bool),
            SameVLS s wc.1 →
            SameVLS s (if (sameX = Ptr.null ∨ (rd wc.1 sameX).color = RBColor.RBBk)
                ∧ (oppoX = Ptr.null ∨ (rd wc.1 oppoX).color = RBColor.RBBk) then
                if (eraseBadStep wc.1 px wc.2).2 then ((eraseBadStep wc.1 px wc.2).1, px)
                else erase_fixupLoop (eraseBadStep wc.1 px wc.2).1 n px
              else
                (eraseFortunateStep
                  (if (sameX ≠ Ptr.null ∧ (rd wc.1 sameX).color = RBColor.RBRed)
                      ∧ (oppoX = Ptr.null ∨ (rd wc.1 oppoX).color = RBColor.RBBk) then
                    eraseSemiStep wc.1 wc.2 sameX d
                  else (wc.1, wc.2)).1 px db
                  (if (sameX ≠ Ptr.null ∧ (rd wc.1 sameX).color = RBColor.RBRed)
                      ∧ (oppoX = Ptr.null ∨ (rd wc.1 oppoX).color = RBColor.RBBk) then
                    eraseSemiStep wc.1 wc.2 sameX d
                  else (wc.1, wc.2)).2 oppoX d, db)).1 := by
          intro wc px db sameX oppoX d hwc
          split
          · split
            · exact SameVLS_eraseBadStep hwc _ _
            · exact SameVLS_trans (SameVLS_eraseBadStep hwc _ _) (ih _ _)
          · dsimp only
            have hsf : SameVLS s (if (sameX ≠ Ptr.null ∧ (rd wc.1 sameX).color = RBColor.RBRed)
                ∧ (oppoX = Ptr.null ∨ (rd wc.1 oppoX).color = RBColor.RBBk) then
                  eraseSemiStep wc.1 wc.2 sameX d
                else (wc.1, wc.2)).1 := by
              split
              · exact SameVLS_eraseSemiStep hwc _ _ _
              · exact hwc
            exact SameVLS_eraseFortunateStep hsf _ _ _ _ _
        apply hbody
        split <;> split <;>
          first
          | exact SameVLS_eraseWorstStep (SameVLS_refl s) _ _ _
          | exact SameVLS_refl s
    · exact SameVLS_refl s

theorem SameVLS_erase_fixup (s : Mem) (fuel : Nat) (db : Ptr) :
    SameVLS s (erase_fixup s fuel db) := by
  unfold erase_fixup
  dsimp only
  split
  · exact SameVLS_set_color (SameVLS_erase_fixupLoop fuel s db) _ _
  · exact SameVLS_erase_fixupLoop fuel s db

theorem SameVLS_eraseSplice (s : Mem) (x : Ptr) :
    SameVLS s (eraseSplice s x).1 := by
  unfold eraseSplice
  dsimp only
  split
  · exact SameVLS_transplant (SameVLS_refl s) _ _
  · split
    · exact SameVLS_transplant (SameVLS_refl s) _ _
    · apply SameVLS_set_color
      apply SameVLS_ite
      · apply SameVLS_wrP
        apply SameVLS_wrL
        apply SameVLS_transplant
        apply SameVLS_ite
        · apply SameVLS_ite
          · exact SameVLS_wrP (SameVLS_refl s) _ _
          · exact SameVLS_refl s
        · exact SameVLS_wrP (SameVLS_wrR (SameVLS_transplant (SameVLS_refl s) _ _) _ _) _ _
      · apply SameVLS_wrL
        apply SameVLS_transplant
        apply SameVLS_ite
        · apply SameVLS_ite
          · exact SameVLS_wrP (SameVLS_refl s) _ _
          · exact SameVLS_refl s
        · exact SameVLS_wrP (SameVLS_wrR (SameVLS_transplant (SameVLS_refl s) _ _) _ _) _ _

theorem wr_size (s : Mem) (p : Ptr) (f : NodeR → NodeR) : (wr s p f).size = s.size := by
  cases p <;> rfl

theorem wr_length (s : Mem) (p : Ptr) (f : NodeR → NodeR) :
    (wr s p f).nodes.length = s.nodes.length := by
  cases p with
  | null => rfl
  | sent => rfl
  | node i => simp [wr]

/-- `erase_node` on a live arena node: the node is destroyed and the size
decremented, whatever the fix-up then does. -/
theorem erase_node_effect (s : Mem) (i : Nat) (hi : i < s.nodes.length) :
    liveAt (erase_node s (.node i)) i = false
      ∧ (erase_node s (.node i)).size = s.size - 1 := by
  unfold erase_node erase_nodeFull
  rw [if_neg (by simp : ¬ (Ptr.node i = Ptr.null))]
  dsimp only
  have hmain : SameVLS s (eraseSplice s (.node i)).1 := SameVLS_eraseSplice s (.node i)
  generalize hm : eraseSplice s (Ptr.node i) = m at hmain ⊢
  obtain ⟨mlen, msize, _⟩ := hmain
  have hilt : i < m.1.nodes.length := by omega
  have hlive2 : liveAt (wr m.1 (.node i) (fun n => { n with live := false })) i = false := by
    show (rd (wr m.1 (.node i) (fun n => { n with live := false })) (.node i)).live = false
    rw [rd_wr_node_self _ _ _ hilt]
  have hsz2 : (wr m.1 (.node i) (fun n => { n with live := false })).size = s.size := by
    rw [wr_size]; exact msize
  have transferL : ∀ (z : Mem) (fuel : Nat) (db : Ptr),
      liveAt (erase_fixup z fuel db) i = liveAt z i :=
    fun z fuel db => ((SameVLS_erase_fixup z fuel db).2.2 i).2
  have transferS : ∀ (z : Mem) (fuel : Nat) (db : Ptr),
      (erase_fixup z fuel db).size = z.size :=
    fun z fuel db => (SameVLS_erase_fixup z fuel db).2.1
  split
  · split
    · constructor
      · rw [transferL _ _ _]
        exact hlive2
      · rw [transferS _ _ _]
        show (wr m.1 (.node i) (fun n => { n with live := false })).size - 1 = s.size - 1
        rw [hsz2]
    · constructor
      · rw [transferL _ _ _]
        exact hlive2
      · rw [transferS _ _ _]
        show (wr m.1 (.node i) (fun n => { n with live := false })).size - 1 = s.size - 1
        rw [hsz2]
  · constructor
    · exact hlive2
    · show (wr m.1 (.node i) (fun n => { n with live := false })).size - 1 = s.size - 1
      rw [hsz2]

theorem heightT_le_inorder_length : ∀ t : ITree, heightT t ≤ (inorderIdx t).length := by
  intro t
  induction t with
  | leaf => simp [heightT, inorderIdx]
  | node l i r ihl ihr =>
    simp only [heightT, inorderIdx, List.length_append, List.length_cons]
    omega

theorem reprT_idx_lt (s : Mem) :
    ∀ (t : ITree) (p par : Ptr), reprT s t p par →
      ∀ i ∈ inorderIdx t, i < s.nodes.length := by
  intro t
  induction t with
  | leaf => intro p par _ i hi; simp [inorderIdx] at hi
  | node l j r ihl ihr =>
    intro p par h i hi
    obtain ⟨_, hj, _, _, hl, hr⟩ := h
    simp only [inorderIdx, List.mem_append, List.mem_cons] at hi
    rcases hi with hi | hi | hi
    · exact ihl _ _ hl i hi
    · exact hi ▸ hj
    · exact ihr _ _ hr i hi

theorem heightT_lt_fuel (s : Mem) (t : ITree) (p par : Ptr)
    (hrepr : reprT s t p par) (hnodup : (inorderIdx t).Nodup) :
    heightT t < s.nodes.length + 1 := by
  have h1 : heightT t ≤ (inorderIdx t).length := heightT_le_inorder_length t
  have h2 : (inorderIdx t) ⊆ List.range s.nodes.length := by
    intro i hi
    exact List.mem_range.mpr (reprT_idx_lt s t p par hrepr i hi)
  have h3 : (inorderIdx t).length ≤ s.nodes.length := by
    have := (List.subperm_of_subset hnodup h2).length_le
    simpa using this
  omega

/-! ## Descent-loop correspondence -/

/-- `TreeFindLoop` computes `findIdx` on the abstraction. -/
theorem TreeFindLoop_spec (s : Mem) (k : Int) :
    ∀ (t : ITree) (p par : Ptr) (fuel : Nat), reprT s t p par → heightT t < fuel →
      (TreeFindLoop s fuel p k).1 =
        (match findIdx s k t with | none => Ptr.null | some i => Ptr.node i) := by
  intro t
  induction t with
  | leaf =>
    intro p par fuel h hfuel
    cases fuel with
    | zero => simp [heightT] at hfuel
    | succ n =>
      subst h
      simp [TreeFindLoop, findIdx]
  | node l i r ihl ihr =>
    intro p par fuel h hfuel
    obtain ⟨hp, _, _, _, hl, hr⟩ := h
    cases fuel with
    | zero => simp [heightT] at hfuel
    | succ n =>
      subst hp
      have hvl : (rd s (.node i)).val = valAt s i := rfl
      have hln : heightT l < n := by simp [heightT] at hfuel; omega
      have hrn : heightT r < n := by simp [heightT] at hfuel; omega
      simp only [TreeFindLoop, findIdx, hvl, if_neg (show ¬ (Ptr.node i = Ptr.null) by simp)]
      by_cases h1 : k < valAt s i
      · rw [if_pos h1, if_pos h1]
        exact ihl _ _ n hl hln
      · rw [if_neg h1, if_neg h1]
        by_cases h2 : valAt s i < k
        · rw [if_pos h2, if_pos h2]
          exact ihr _ _ n hr hrn
        · rw [if_neg h2, if_neg h2]

/-- `TreeLowerBoundLoop` computes `lbIdx` on the abstraction. -/
theorem TreeLowerBoundLoop_spec (s : Mem) (k : Int) :
    ∀ (t : ITree) (p par res : Ptr) (fuel : Nat), reprT s t p par → heightT t < fuel →
      (TreeLowerBoundLoop s fuel p k res).1 = lbIdx s k t res := by
  intro t
  induction t with
  | leaf =>
    intro p par res fuel h hfuel
    cases fuel with
    | zero => simp [heightT] at hfuel
    | succ n =>
      subst h
      simp [TreeLowerBoundLoop, lbIdx]
  | node l i r ihl ihr =>
    intro p par res fuel h hfuel
    obtain ⟨hp, _, _, _, hl, hr⟩ := h
    cases fuel with
    | zero => simp [heightT] at hfuel
    | succ n =>
      subst hp
      have hvl : (rd s (.node i)).val = valAt s i := rfl
      have hln : heightT l < n := by simp [heightT] at hfuel; omega
      have hrn : heightT r < n := by simp [heightT] at hfuel; omega
      simp only [TreeLowerBoundLoop, lbIdx, hvl,
        if_neg (show ¬ (Ptr.node i = Ptr.null) by simp)]
      by_cases h1 : ¬ valAt s i < k
      · rw [if_pos h1, if_pos h1]
        exact ihl _ _ _ n hl hln
      · rw [if_neg h1, if_neg h1]
        exact ihr _ _ _ n hr hrn

/-- `TreeUpperBoundLoop` computes `ubIdx` on the abstraction. -/
theorem TreeUpperBoundLoop_spec (s : Mem) (k : Int) :
    ∀ (t : ITree) (p par res : Ptr) (fuel : Nat), reprT s t p par → heightT t < fuel →
      (TreeUpperBoundLoop s fuel p k res).1 = ubIdx s k t res := by
  intro t
  induction t with
  | leaf =>
    intro p par res fuel h hfuel
    cases fuel with
    | zero => simp [heightT] at hfuel
    | succ n =>
      subst h
      simp [TreeUpperBoundLoop, ubIdx]
  | node l i r ihl ihr =>
    intro p par res fuel h hfuel
    obtain ⟨hp, _, _, _, hl, hr⟩ := h
    cases fuel with
    | zero => simp [heightT] at hfuel
    | succ n =>
      subst hp
      have hvl : (rd s (.node i)).val = valAt s i := rfl
      have hln : heightT l < n := by simp [heightT] at hfuel; omega
      have hrn : heightT r < n := by simp [heightT] at hfuel; omega
      simp only [TreeUpperBoundLoop, ubIdx, hvl,
        if_neg (show ¬ (Ptr.node i = Ptr.null) by simp)]
      by_cases h1 : k < valAt s i
      · rw [if_pos h1, if_pos h1]
        exact ihl _ _ _ n hl hln
      · rw [if_neg h1, if_neg h1]
        exact ihr _ _ _ n hr hrn

/-! ## Sorted trees: pure search lemmas -/

theorem inorderKeys_node (s : Mem) (l : ITree) (i : Nat) (r : ITree) :
    inorderKeys s (.node l i r) = inorderKeys s l ++ valAt s i :: inorderKeys s r := by
  simp [inorderKeys, inorderIdx]

theorem pairwise_of_chain {L : List Int} (h : L.Chain' (· < ·)) :
    L.Pairwise (· < ·) := by
  haveI : IsTrans Int (· < ·) := ⟨fun _ _ _ h1 h2 => lt_trans h1 h2⟩
  exact List.chain'_iff_pairwise.mp h

theorem sorted_node (s : Mem) (l : ITree) (i : Nat) (r : ITree)
    (h : (inorderKeys s (.node l i r)).Pairwise (· < ·)) :
    (inorderKeys s l).Pairwise (· < ·) ∧ (inorderKeys s r).Pairwise (· < ·)
      ∧ (∀ x ∈ inorderKeys s l, x < valAt s i)
      ∧ (∀ y ∈ inorderKeys s r, valAt s i < y) := by
  rw [inorderKeys_node] at h
  rcases List.pairwise_append.mp h with ⟨hl, hc, hx⟩
  rcases List.pairwise_cons.mp hc with ⟨hvr, hr⟩
  exact ⟨hl, hr, fun x hx' => hx x hx' _ (List.mem_cons_self _ _), hvr⟩

theorem findIdx_some_facts (s : Mem) (k : Int) :
    ∀ (t : ITree) (i : Nat), findIdx s k t = some i →
      i ∈ inorderIdx t ∧ valAt s i = k := by
  intro t
  induction t with
  | leaf => intro i h; simp [findIdx] at h
  | node l j r ihl ihr =>
    intro i h
    simp only [findIdx] at h
    split at h
    · obtain ⟨hm, hv⟩ := ihl i h
      exact ⟨by simp [inorderIdx]; tauto, hv⟩
    · split at h
      · obtain ⟨hm, hv⟩ := ihr i h
        exact ⟨by simp [inorderIdx]; tauto, hv⟩
      · cases h
        refine ⟨by simp [inorderIdx], ?_⟩
        omega

theorem findIdx_of_not_mem (s : Mem) (k : Int) :
    ∀ t : ITree, k ∉ inorderKeys s t → findIdx s k t = none := by
  intro t
  induction t with
  | leaf => intro _; rfl
  | node l j r ihl ihr =>
    intro h
    rw [inorderKeys_node] at h
    simp only [List.mem_append, List.mem_cons] at h
    push_neg at h
    obtain ⟨h1, h2, h3⟩ := h
    simp only [findIdx]
    by_cases hc1 : k < valAt s j
    · rw [if_pos hc1]; exact ihl h1
    · rw [if_neg hc1]
      by_cases hc2 : valAt s j < k
      · rw [if_pos hc2]; exact ihr h3
      · exact absurd (by omega : k = valAt s j) h2

theorem findIdx_of_mem (s : Mem) (k : Int) :
    ∀ t : ITree, (inorderKeys s t).Pairwise (· < ·) →
      ∀ i ∈ inorderIdx t, valAt s i = k → findIdx s k t = some i := by
  intro t
  induction t with
  | leaf => intro _ i hi; simp [inorderIdx] at hi
  | node l j r ihl ihr =>
    intro hs i hi hv
    obtain ⟨hsl, hsr, hxl, hxr⟩ := sorted_node s l j r hs
    simp only [inorderIdx, List.mem_append, List.mem_cons] at hi
    simp only [findIdx]
    rcases hi with hi | hi | hi
    · have : k < valAt s j := by
        have := hxl (valAt s i) (List.mem_map_of_mem _ hi)
        omega
      rw [if_pos this]
      exact ihl hsl i hi hv
    · subst hi
      rw [if_neg (by omega), if_neg (by omega)]
    · have : valAt s j < k := by
        have := hxr (valAt s i) (List.mem_map_of_mem _ hi)
        omega
      rw [if_neg (by omega), if_pos this]
      exact ihr hsr i hi hv

theorem lbIdx_spec (s : Mem) (k : Int) :
    ∀ (t : ITree) (res : Ptr), (inorderKeys s t).Pairwise (· < ·) →
      ((∀ x ∈ inorderKeys s t, x < k) → lbIdx s k t res = res)
        ∧ (∀ i0 ∈ inorderIdx t, k ≤ valAt s i0 →
            ∃ i, i ∈ inorderIdx t ∧ lbIdx s k t res = .node i ∧ k ≤ valAt s i
              ∧ ∀ x ∈ inorderKeys s t, k ≤ x → valAt s i ≤ x) := by
  intro t
  induction t with
  | leaf =>
    intro res _
    exact ⟨fun _ => rfl, fun i0 hi0 => by simp [inorderIdx] at hi0⟩
  | node l j r ihl ihr =>
    intro res hs
    obtain ⟨hsl, hsr, hxl, hxr⟩ := sorted_node s l j r hs
    constructor
    · intro hall
      have hj : valAt s j < k := hall _ (by rw [inorderKeys_node]; simp)
      simp only [lbIdx, if_neg (by omega : ¬ ¬ valAt s j < k)]
      refine (ihr res hsr).1 ?_
      intro x hx
      exact hall x (by rw [inorderKeys_node]; simp; tauto)
    · intro i0 hi0 hk0
      simp only [inorderIdx, List.mem_append, List.mem_cons] at hi0
      by_cases hj : ¬ valAt s j < k
      · -- k ≤ valAt j: go left with the root as candidate
        simp only [lbIdx, if_pos hj]
        by_cases hql : ∃ i1 ∈ inorderIdx l, k ≤ valAt s i1
        · obtain ⟨i1, hi1, hk1⟩ := hql
          obtain ⟨m, hm, heq, hkm, hmin⟩ := (ihl (.node j) hsl).2 i1 hi1 hk1
          refine ⟨m, by simp [inorderIdx]; tauto, heq, hkm, ?_⟩
          intro x hx hkx
          rw [inorderKeys_node] at hx
          simp only [List.mem_append, List.mem_cons] at hx
          rcases hx with hx | hx | hx
          · exact hmin x hx hkx
          · subst hx
            have := hxl (valAt s m) (List.mem_map_of_mem _ hm)
            omega
          · have hjx := hxr x hx
            have := hxl (valAt s m) (List.mem_map_of_mem _ hm)
            omega
        · push_neg at hql
          have : ∀ x ∈ inorderKeys s l, x < k := by
            intro x hx
            obtain ⟨i1, hi1, rfl⟩ := List.mem_map.mp hx
            have := hql i1 hi1
            omega
          rw [(ihl (.node j) hsl).1 this]
          refine ⟨j, by simp [inorderIdx], rfl, by omega, ?_⟩
          intro x hx hkx
          rw [inorderKeys_node] at hx
          simp only [List.mem_append, List.mem_cons] at hx
          rcases hx with hx | hx | hx
          · exact absurd hkx (by have := this x hx; omega)
          · omega
          · have := hxr x hx
            omega
      · -- valAt j < k: qualifying indices are in the right subtree
        push_neg at hj
        simp only [lbIdx, if_neg (by omega : ¬ ¬ valAt s j < k)]
        have hi0r : i0 ∈ inorderIdx r := by
          rcases hi0 with hi0 | hi0 | hi0
          · have := hxl (valAt s i0) (List.mem_map_of_mem _ hi0)
            omega
          · subst hi0
            omega
          · exact hi0
        obtain ⟨m, hm, heq, hkm, hmin⟩ := (ihr res hsr).2 i0 hi0r hk0
        refine ⟨m, by simp [inorderIdx]; tauto, heq, hkm, ?_⟩
        intro x hx hkx
        rw [inorderKeys_node] at hx
        simp only [List.mem_append, List.mem_cons] at hx
        rcases hx with hx | hx | hx
        · exact absurd hkx (by have := hxl x hx; omega)
        · omega
        · exact hmin x hx hkx

theorem ubIdx_spec (s : Mem) (k : Int) :
    ∀ (t : ITree) (res : Ptr), (inorderKeys s t).Pairwise (· < ·) →
      ((∀ x ∈ inorderKeys s t, x ≤ k) → ubIdx s k t res = res)
        ∧ (∀ i0 ∈ inorderIdx t, k < valAt s i0 →
            ∃ i, i ∈ inorderIdx t ∧ ubIdx s k t res = .node i ∧ k < valAt s i
              ∧ ∀ x ∈ inorderKeys s t, k < x → valAt s i ≤ x) := by
  intro t
  induction t with
  | leaf =>
    intro res _
    exact ⟨fun _ => rfl, fun i0 hi0 => by simp [inorderIdx] at hi0⟩
  | node l j r ihl ihr =>
    intro res hs
    obtain ⟨hsl, hsr, hxl, hxr⟩ := sorted_node s l j r hs
    constructor
    · intro hall
      have hj : valAt s j ≤ k := hall _ (by rw [inorderKeys_node]; simp)
      simp only [ubIdx, if_neg (by omega : ¬ k < valAt s j)]
      refine (ihr res hsr).1 ?_
      intro x hx
      exact hall x (by rw [inorderKeys_node]; simp; tauto)
    · intro i0 hi0 hk0
      simp only [inorderIdx, List.mem_append, List.mem_cons] at hi0
      by_cases hj : k < valAt s j
      · simp only [ubIdx, if_pos hj]
        by_cases hql : ∃ i1 ∈ inorderIdx l, k < valAt s i1
        · obtain ⟨i1, hi1, hk1⟩ := hql
          obtain ⟨m, hm, heq, hkm, hmin⟩ := (ihl (.node j) hsl).2 i1 hi1 hk1
          refine ⟨m, by simp [inorderIdx]; tauto, heq, hkm, ?_⟩
          intro x hx hkx
          rw [inorderKeys_node] at hx
          simp only [List.mem_append, List.mem_cons] at hx
          rcases hx with hx | hx | hx
          · exact hmin x hx hkx
          · subst hx
            have := hxl (valAt s m) (List.mem_map_of_mem _ hm)
            omega
          · have hjx := hxr x hx
            have := hxl (valAt s m) (List.mem_map_of_mem _ hm)
            omega
        · push_neg at hql
          have : ∀ x ∈ inorderKeys s l, x ≤ k := by
            intro x hx
            obtain ⟨i1, hi1, rfl⟩ := List.mem_map.mp hx
            have := hql i1 hi1
            omega
          rw [(ihl (.node j) hsl).1 this]
          refine ⟨j, by simp [inorderIdx], rfl, by omega, ?_⟩
          intro x hx hkx
          rw [inorderKeys_node] at hx
          simp only [List.mem_append, List.mem_cons] at hx
          rcases hx with hx | hx | hx
          · exact absurd hkx (by have := this x hx; omega)
          · omega
          · have := hxr x hx
            omega
      · push_neg at hj
        simp only [ubIdx, if_neg (by omega : ¬ k < valAt s j)]
        have hi0r : i0 ∈ inorderIdx r := by
          rcases hi0 with hi0 | hi0 | hi0
          · have := hxl (valAt s i0) (List.mem_map_of_mem _ hi0)
            omega
          · subst hi0
            omega
          · exact hi0
        obtain ⟨m, hm, heq, hkm, hmin⟩ := (ihr res hsr).2 i0 hi0r hk0
        refine ⟨m, by simp [inorderIdx]; tauto, heq, hkm, ?_⟩
        intro x hx hkx
        rw [inorderKeys_node] at hx
        simp only [List.mem_append, List.mem_cons] at hx
        rcases hx with hx | hx | hx
        · exact absurd hkx (by have := hxl x hx; omega)
        · omega
        · exact hmin x hx hkx

/-! ## More descent lemmas (insert, erase) -/

theorem reprT_live (s : Mem) :
    ∀ (t : ITree) (p par : Ptr), reprT s t p par →
      ∀ i ∈ inorderIdx t, liveAt s i = true := by
  intro t
  induction t with
  | leaf => intro p par _ i hi; simp [inorderIdx] at hi
  | node l j r ihl ihr =>
    intro p par h i hi
    obtain ⟨_, _, hlive, _, hl, hr⟩ := h
    simp only [inorderIdx, List.mem_append, List.mem_cons] at hi
    rcases hi with hi | hi | hi
    · exact ihl _ _ hl i hi
    · subst hi; exact hlive
    · exact ihr _ _ hr i hi

theorem insertDescend_found (s : Mem) (v : Int) :
    ∀ (t : ITree) (p par : Ptr) (fuel : Nat), reprT s t p par → heightT t < fuel →
      ∀ i, findIdx s v t = some i → insertDescend s fuel par p v = .inl (.node i) := by
  intro t
  induction t with
  | leaf => intro p par fuel _ _ i h; simp [findIdx] at h
  | node l j r ihl ihr =>
    intro p par fuel h hfuel i hfi
    obtain ⟨hp, _, _, _, hl, hr⟩ := h
    cases fuel with
    | zero => simp [heightT] at hfuel
    | succ n =>
      subst hp
      have hln : heightT l < n := by simp [heightT] at hfuel; omega
      have hrn : heightT r < n := by simp [heightT] at hfuel; omega
      have hvl : (rd s (.node j)).val = valAt s j := rfl
      simp only [findIdx] at hfi
      simp only [insertDescend, hvl, if_neg (show ¬ (Ptr.node j = Ptr.null) by simp)]
      by_cases h1 : v < valAt s j
      · rw [if_pos h1] at hfi ⊢
        exact ihl _ _ n hl hln i hfi
      · rw [if_neg h1] at hfi ⊢
        by_cases h2 : valAt s j < v
        · rw [if_pos h2] at hfi ⊢
          exact ihr _ _ n hr hrn i hfi
        · rw [if_neg h2] at hfi ⊢
          cases hfi
          rfl

theorem insertDescend_miss (s : Mem) (v : Int) :
    ∀ (t : ITree) (p par : Ptr) (fuel : Nat), reprT s t p par → heightT t < fuel →
      findIdx s v t = none →
        insertDescend s fuel par p v = .inr (descParent s v t par) := by
  intro t
  induction t with
  | leaf =>
    intro p par fuel h hfuel _
    cases fuel with
    | zero => simp [heightT] at hfuel
    | succ n =>
      subst h
      simp [insertDescend, descParent]
  | node l j r ihl ihr =>
    intro p par fuel h hfuel hfi
    obtain ⟨hp, _, _, _, hl, hr⟩ := h
    cases fuel with
    | zero => simp [heightT] at hfuel
    | succ n =>
      subst hp
      have hln : heightT l < n := by simp [heightT] at hfuel; omega
      have hrn : heightT r < n := by simp [heightT] at hfuel; omega
      have hvl : (rd s (.node j)).val = valAt s j := rfl
      simp only [findIdx] at hfi
      simp only [insertDescend, descParent, hvl,
        if_neg (show ¬ (Ptr.node j = Ptr.null) by simp)]
      by_cases h1 : v < valAt s j
      · rw [if_pos h1] at hfi ⊢
        rw [if_pos h1]
        exact ihl _ _ n hl hln hfi
      · rw [if_neg h1] at hfi ⊢
        rw [if_neg h1]
        by_cases h2 : valAt s j < v
        · rw [if_pos h2] at hfi ⊢
          exact ihr _ _ n hr hrn hfi
        · rw [if_neg h2] at hfi
          exact absurd hfi (by simp)

theorem descParent_cases (s : Mem) (v : Int) :
    ∀ (t : ITree) (par : Ptr),
      descParent s v t par = par ∨ ∃ j ∈ inorderIdx t, descParent s v t par = .node j := by
  intro t
  induction t with
  | leaf => intro par; exact Or.inl rfl
  | node l j r ihl ihr =>
    intro par
    simp only [descParent]
    by_cases h1 : v < valAt s j
    · rw [if_pos h1]
      rcases ihl (.node j) with h | ⟨m, hm, h⟩
      · exact Or.inr ⟨j, by simp [inorderIdx], h⟩
      · exact Or.inr ⟨m, by simp [inorderIdx]; tauto, h⟩
    · rw [if_neg h1]
      rcases ihr (.node j) with h | ⟨m, hm, h⟩
      · exact Or.inr ⟨j, by simp [inorderIdx], h⟩
      · exact Or.inr ⟨m, by simp [inorderIdx]; tauto, h⟩

theorem getD_concat_self (l : List NodeR) (x : NodeR) :
    (l ++ [x]).getD l.length {} = x := by
  induction l with
  | nil => rfl
  | cons a as ih => exact ih

theorem getD_concat_lt (l : List NodeR) (x : NodeR) (j : Nat) (h : j < l.length) :
    (l ++ [x]).getD j {} = l.getD j {} := by
  induction l generalizing j with
  | nil => simp at h
  | cons a as ih =>
    cases j with
    | zero => rfl
    | succ n =>
      simp only [List.cons_append, List.getD, List.get?]
      exact ih n (by simpa using h)

/-- The create-link-bump-fixup tail of `insert_impl`, for any insertion
parent: the new slot keeps its value and liveness through the fix-up, and
`m_Size` grows by exactly one. -/
theorem insert_link_effect (s : Mem) (v : Int) (q : Ptr) :
    (let c := create_node s v q
     let s2 := if q = .null then { c.1 with root := Ptr.node c.2 }
               else if v < (rd c.1 q).val then wr c.1 q (fun nd => { nd with left := Ptr.node c.2 })
               else wr c.1 q (fun nd => { nd with right := Ptr.node c.2 })
     let s3 : Mem := { s2 with size := s2.size + 1 }
     let s4 := insert_fixup s3 (s3.nodes.length + 1) (Ptr.node c.2)
     s4.size = s.size + 1 ∧ valAt s4 s.nodes.length = v
       ∧ liveAt s4 s.nodes.length = true) := by
  dsimp only
  have hrec0 : valAt (create_node s v q).1 s.nodes.length = v := by
    show ((s.nodes ++ [_]).getD s.nodes.length {}).val = v
    rw [getD_concat_self]
  have hrec1 : liveAt (create_node s v q).1 s.nodes.length = true := by
    show ((s.nodes ++ [_]).getD s.nodes.length {}).live = true
    rw [getD_concat_self]
  have hcsz : (create_node s v q).1.size = s.size := rfl
  have hvls : SameVLS (create_node s v q).1
      (if q = .null then { (create_node s v q).1 with root := Ptr.node (create_node s v q).2 }
       else if v < (rd (create_node s v q).1 q).val then
         wr (create_node s v q).1 q (fun nd => { nd with left := Ptr.node (create_node s v q).2 })
       else
         wr (create_node s v q).1 q (fun nd => { nd with right := Ptr.node (create_node s v q).2 })) := by
    apply SameVLS_ite
    · exact SameVLS_root (SameVLS_refl _) _
    · apply SameVLS_ite
      · exact SameVLS_wrL (SameVLS_refl _) _ _
      · exact SameVLS_wrR (SameVLS_refl _) _ _
  have main : ∀ (z : Mem), SameVLS (create_node s v q).1 z →
      (insert_fixup { z with size := z.size + 1 }
          (({ z with size := z.size + 1 } : Mem).nodes.length + 1)
          (Ptr.node (create_node s v q).2)).size = s.size + 1
      ∧ valAt (insert_fixup { z with size := z.size + 1 }
          (({ z with size := z.size + 1 } : Mem).nodes.length + 1)
          (Ptr.node (create_node s v q).2)) s.nodes.length = v
      ∧ liveAt (insert_fixup { z with size := z.size + 1 }
          (({ z with size := z.size + 1 } : Mem).nodes.length + 1)
          (Ptr.node (create_node s v q).2)) s.nodes.length = true := by
    intro z hz
    obtain ⟨hl, hs2, hv2⟩ := hz
    obtain ⟨fl, fs, fv⟩ := SameVLS_insert_fixup { z with size := z.size + 1 }
      (({ z with size := z.size + 1 } : Mem).nodes.length + 1)
      (Ptr.node (create_node s v q).2)
    refine ⟨?_, ?_, ?_⟩
    · rw [fs]
      show z.size + 1 = s.size + 1
      rw [hs2, hcsz]
    · rw [(fv s.nodes.length).1]
      show valAt z s.nodes.length = v
      rw [(hv2 s.nodes.length).1]
      exact hrec0
    · rw [(fv s.nodes.length).2]
      show liveAt z s.nodes.length = true
      rw [(hv2 s.nodes.length).2]
      exact hrec1
  exact main _ hvls

/-! ## Path toolbox for the abstraction -/

theorem subAt_snoc (T : ITree) :
    ∀ (σ : List Dir) (d : Dir) (u : ITree), subAt T (σ ++ [d]) = some u →
      ∃ l j r, subAt T σ = some (.node l j r)
        ∧ (d = .L → u = l) ∧ (d = .R → u = r) := by
  induction T with
  | leaf =>
    intro σ d u h
    cases σ <;> simp [subAt] at h
  | node l j r ihl ihr =>
    intro σ d u h
    cases σ with
    | nil =>
      refine ⟨l, j, r, rfl, ?_, ?_⟩ <;> intro hd <;> subst hd <;>
        exact (by simpa [subAt] using h : _ = u).symm
    | cons e σ' =>
      cases e with
      | L =>
        obtain ⟨l1, j1, r1, h1, h2, h3⟩ := ihl σ' d u (by simpa [subAt] using h)
        exact ⟨l1, j1, r1, by simpa [subAt] using h1, h2, h3⟩
      | R =>
        obtain ⟨l1, j1, r1, h1, h2, h3⟩ := ihr σ' d u (by simpa [subAt] using h)
        exact ⟨l1, j1, r1, by simpa [subAt] using h1, h2, h3⟩

theorem parAt_snoc (T : ITree) :
    ∀ (σ : List Dir) (d : Dir) (par0 : Ptr) (l : ITree) (j : Nat) (r : ITree),
      subAt T σ = some (.node l j r) →
      parAt T (σ ++ [d]) par0 = some (.node j) := by
  induction T with
  | leaf =>
    intro σ d par0 l j r h
    cases σ <;> simp [subAt] at h
  | node tl tj tr ihl ihr =>
    intro σ d par0 l j r h
    cases σ with
    | nil =>
      simp only [subAt, Option.some_inj] at h
      cases h
      cases d <;> simp [parAt]
    | cons e σ' =>
      cases e with
      | L => exact ihl σ' d _ l j r (by simpa [subAt] using h)
      | R => exact ihr σ' d _ l j r (by simpa [subAt] using h)

theorem reprT_parAt (s : Mem) :
    ∀ (π : List Dir) (T : ITree) (rootp par0 : Ptr), reprT s T rootp par0 →
      ∀ u, subAt T π = some u →
        ∃ pp, parAt T π par0 = some pp ∧ reprT s u (ptrOfSub u) pp := by
  intro π
  induction π with
  | nil =>
    intro T rootp par0 h u hu
    simp only [subAt, Option.some_inj] at hu
    subst hu
    refine ⟨par0, by simp [parAt], ?_⟩
    cases T with
    | leaf => exact rfl
    | node l j r =>
      obtain ⟨hp, rest⟩ := h
      exact ⟨rfl, rest⟩
  | cons d π' ih =>
    intro T rootp par0 h u hu
    cases T with
    | leaf => simp [subAt] at hu
    | node l j r =>
      obtain ⟨hp, _, _, _, hl, hr⟩ := h
      cases d with
      | L =>
        obtain ⟨pp, h1, h2⟩ := ih l _ (.node j) hl u (by simpa [subAt] using hu)
        exact ⟨pp, by simpa [parAt] using h1, h2⟩
      | R =>
        obtain ⟨pp, h1, h2⟩ := ih r _ (.node j) hr u (by simpa [subAt] using hu)
        exact ⟨pp, by simpa [parAt] using h1, h2⟩

theorem mem_subAt :
    ∀ (T : ITree) (i : Nat), i ∈ inorderIdx T →
      ∃ (π : List Dir) (A B : ITree), subAt T π = some (.node A i B) := by
  intro T
  induction T with
  | leaf => intro i hi; simp [inorderIdx] at hi
  | node l j r ihl ihr =>
    intro i hi
    simp only [inorderIdx, List.mem_append, List.mem_cons] at hi
    rcases hi with hi | hi | hi
    · obtain ⟨π, A, B, h⟩ := ihl i hi
      exact ⟨.L :: π, A, B, by simpa [subAt] using h⟩
    · exact ⟨[], l, r, by simp [subAt, hi]⟩
    · obtain ⟨π, A, B, h⟩ := ihr i hi
      exact ⟨.R :: π, A, B, by simpa [subAt] using h⟩

theorem inorder_replaceAt :
    ∀ (π : List Dir) (T u : ITree), subAt T π = some u →
      ∃ pre post, inorderIdx T = pre ++ inorderIdx u ++ post
        ∧ ∀ u', inorderIdx (replaceAt T π u') = pre ++ inorderIdx u' ++ post := by
  intro π
  induction π with
  | nil =>
    intro T u h
    simp only [subAt, Option.some_inj] at h
    subst h
    exact ⟨[], [], by simp, fun u' => by simp [replaceAt]⟩
  | cons d π' ih =>
    intro T u h
    cases T with
    | leaf => simp [subAt] at h
    | node l j r =>
      cases d with
      | L =>
        obtain ⟨pre, post, h1, h2⟩ := ih l u (by simpa [subAt] using h)
        refine ⟨pre, post ++ j :: inorderIdx r, ?_, ?_⟩
        · simp only [inorderIdx, h1]
          simp
        · intro u'
          simp only [replaceAt, inorderIdx, h2 u']
          simp
      | R =>
        obtain ⟨pre, post, h1, h2⟩ := ih r u (by simpa [subAt] using h)
        refine ⟨inorderIdx l ++ j :: pre, post, ?_, ?_⟩
        · simp only [inorderIdx, h1]
          simp
        · intro u'
          simp only [replaceAt, inorderIdx, h2 u']
          simp

theorem subAt_replaceAt :
    ∀ (σ ρ : List Dir) (T w u : ITree), subAt T σ = some w →
      subAt (replaceAt T (σ ++ ρ) u) σ = some (replaceAt w ρ u) := by
  intro σ
  induction σ with
  | nil =>
    intro ρ T w u h
    simp only [subAt, Option.some_inj] at h
    subst h
    simp [subAt]
  | cons d σ' ih =>
    intro ρ T w u h
    cases T with
    | leaf => simp [subAt] at h
    | node l j r =>
      cases d with
      | L => simpa [subAt, replaceAt] using ih ρ l w u (by simpa [subAt] using h)
      | R => simpa [subAt, replaceAt] using ih ρ r w u (by simpa [subAt] using h)

/-! ## Representation frame and congruence -/

theorem reprT_frame (s s' : Mem) (hlen : s.nodes.length ≤ s'.nodes.length) :
    ∀ (t : ITree), (∀ i ∈ inorderIdx t, rd s' (.node i) = rd s (.node i)) →
      ∀ p par, reprT s t p par → reprT s' t p par := by
  intro t
  induction t with
  | leaf => intro _ p par h; exact h
  | node l j r ihl ihr =>
    intro hagree p par h
    obtain ⟨hp, hlt, hlive, hpar, hl, hr⟩ := h
    have hj : rd s' (.node j) = rd s (.node j) :=
      hagree j (by simp [inorderIdx])
    refine ⟨hp, by omega, by rw [hj]; exact hlive, by rw [hj]; exact hpar, ?_, ?_⟩
    · rw [hj]
      exact ihl (fun i hi => hagree i (by simp [inorderIdx]; tauto)) _ _ hl
    · rw [hj]
      exact ihr (fun i hi => hagree i (by simp [inorderIdx]; tauto)) _ _ hr

theorem reprT_congr (s s' : Mem) (hlen : s.nodes.length = s'.nodes.length)
    (h : ∀ i, (rd s' (.node i)).left = (rd s (.node i)).left
        ∧ (rd s' (.node i)).right = (rd s (.node i)).right
        ∧ (rd s' (.node i)).parent = (rd s (.node i)).parent
        ∧ (rd s' (.node i)).live = (rd s (.node i)).live) :
    ∀ (t : ITree) (p par : Ptr), reprT s t p par → reprT s' t p par := by
  intro t
  induction t with
  | leaf => intro p par hr; exact hr
  | node l j r ihl ihr =>
    intro p par hr
    obtain ⟨hp, hlt, hlive, hpar, hl, hrr⟩ := hr
    obtain ⟨e1, e2, e3, e4⟩ := h j
    refine ⟨hp, by omega, by rw [e4]; exact hlive, by rw [e3]; exact hpar, ?_, ?_⟩
    · rw [e1]; exact ihl _ _ hl
    · rw [e2]; exact ihr _ _ hrr

theorem rd_set_color_fields (s : Mem) (p : Ptr) (c : RBColor) (j : Nat) :
    (rd (set_color s p c) (.node j)).left = (rd s (.node j)).left
      ∧ (rd (set_color s p c) (.node j)).right = (rd s (.node j)).right
      ∧ (rd (set_color s p c) (.node j)).parent = (rd s (.node j)).parent
      ∧ (rd (set_color s p c) (.node j)).live = (rd s (.node j)).live := by
  unfold set_color
  cases p with
  | null => exact ⟨rfl, rfl, rfl, rfl⟩
  | sent => exact ⟨rfl, rfl, rfl, rfl⟩
  | node i =>
    by_cases hij : i = j
    · subst hij
      by_cases hi : i < s.nodes.length
      · rw [rd_wr_node_self s i _ hi]
        exact ⟨rfl, rfl, rfl, rfl⟩
      · have heq : wr s (.node i) (fun n => { n with color := c }) = s := by
          simp only [wr]
          rw [set_oob _ _ _ (by omega)]
        rw [heq]
        exact ⟨rfl, rfl, rfl, rfl⟩
    · rw [rd_wr_node_ne s i j _ hij]
      exact ⟨rfl, rfl, rfl, rfl⟩

theorem reprT_set_color (s : Mem) (p : Ptr) (c : RBColor) (t : ITree) (pp par : Ptr)
    (h : reprT s t pp par) : reprT (set_color s p c) t pp par := by
  refine reprT_congr s (set_color s p c) ?_ (fun j => rd_set_color_fields s p c j) t pp par h
  unfold set_color
  rw [wr_length]

theorem reprT_root_update (s : Mem) (r : Ptr) (t : ITree) (p par : Ptr)
    (h : reprT s t p par) : reprT ({ s with root := r }) t p par :=
  reprT_congr s { s with root := r } rfl (fun _ => ⟨rfl, rfl, rfl, rfl⟩) t p par h

/-! ## Sorted insertion into a list -/

theorem insSorted_append_right (v : Int) :
    ∀ (xs ys : List Int), (∀ x ∈ xs, ¬ v < x) →
      insSorted v (xs ++ ys) = xs ++ insSorted v ys := by
  intro xs
  induction xs with
  | nil => intro ys _; rfl
  | cons x xs ih =>
    intro ys h
    simp only [List.cons_append, insSorted]
    rw [if_neg (h x (by simp))]
    exact congrArg (List.cons x) (ih ys (fun z hz => h z (by simp [hz])))

theorem insSorted_append_left (v y : Int) (hvy : v < y) :
    ∀ (xs ys : List Int),
      insSorted v (xs ++ y :: ys) = insSorted v xs ++ y :: ys := by
  intro xs
  induction xs with
  | nil => intro ys; simp [insSorted, if_pos hvy]
  | cons x xs ih =>
    intro ys
    simp only [List.cons_append, insSorted]
    by_cases h : v < x
    · rw [if_pos h, if_pos h]
      rfl
    · rw [if_neg h, if_neg h]
      simp only [List.cons_append]
      exact congrArg (List.cons x) (ih ys)

theorem mem_insSorted (v w : Int) :
    ∀ xs : List Int, w ∈ insSorted v xs ↔ w = v ∨ w ∈ xs := by
  intro xs
  induction xs with
  | nil => simp [insSorted]
  | cons x xs ih =>
    simp only [insSorted]
    by_cases h : v < x
    · rw [if_pos h]; simp
    · rw [if_neg h]; simp [ih]; tauto

theorem insSorted_pairwise (v : Int) :
    ∀ xs : List Int, xs.Pairwise (· < ·) → v ∉ xs →
      (insSorted v xs).Pairwise (· < ·) := by
  intro xs
  induction xs with
  | nil => intro _ _; simp [insSorted]
  | cons x xs ih =>
    intro hp hv
    obtain ⟨hx, hxs⟩ := List.pairwise_cons.mp hp
    by_cases h : v < x
    · rw [show insSorted v (x :: xs) = v :: x :: xs by simp [insSorted, if_pos h]]
      refine List.pairwise_cons.mpr ⟨?_, hp⟩
      intro y hy
      rcases List.mem_cons.mp hy with rfl | hy
      · exact h
      · exact lt_trans h (hx y hy)
    · rw [show insSorted v (x :: xs) = x :: insSorted v xs by simp [insSorted, if_neg h]]
      refine List.pairwise_cons.mpr ⟨?_, ih hxs (fun hc => hv (by simp [hc]))⟩
      intro y hy
      rcases (mem_insSorted v y xs).mp hy with rfl | hy
      · have : x ≠ y := fun he => hv (by simp [he])
        omega
      · exact hx y hy

/-! ## Subtree membership and nodup -/

theorem subAt_mem_subset (T : ITree) (σ : List Dir) (w : ITree)
    (h : subAt T σ = some w) : ∀ j ∈ inorderIdx w, j ∈ inorderIdx T := by
  obtain ⟨pre, post, hdec, _⟩ := inorder_replaceAt σ T w h
  intro j hj
  rw [hdec]
  simp [hj]

theorem subAt_nodup (T : ITree) (σ : List Dir) (w : ITree)
    (h : subAt T σ = some w) (hnd : (inorderIdx T).Nodup) :
    (inorderIdx w).Nodup := by
  obtain ⟨pre, post, hdec, _⟩ := inorder_replaceAt σ T w h
  rw [hdec] at hnd
  exact (List.nodup_append.mp (List.nodup_append.mp hnd).1).2.1

/-! ## `TreeMin` on the abstraction -/

theorem leftmostIdx_node (l : ITree) (j : Nat) (r : ITree) :
    ∃ i, leftmostIdx (.node l j r) = some i := by
  cases h : leftmostIdx l <;> simp [leftmostIdx, h]

theorem leftmostIdx_node_left (l : ITree) (j : Nat) (r : ITree) (i : Nat)
    (h : leftmostIdx l = some i) : leftmostIdx (.node l j r) = some i := by
  simp only [leftmostIdx]
  rw [h]

theorem TreeMin_spec (s : Mem) :
    ∀ (t : ITree) (p par : Ptr) (f : Nat), reprT s t p par → t ≠ .leaf →
      heightT t ≤ f →
      ∃ i, leftmostIdx t = some i ∧ TreeMin s f p = .node i := by
  intro t
  induction t with
  | leaf => intro p par f _ hne _; exact absurd rfl hne
  | node l j r ihl ihr =>
    intro p par f h _ hf
    obtain ⟨hp, _, _, _, hl, hr⟩ := h
    subst hp
    cases f with
    | zero => simp [heightT] at hf
    | succ f' =>
      cases l with
      | leaf =>
        have hnull : (rd s (.node j)).left = .null := hl
        exact ⟨j, rfl, by simp [TreeMin, hnull]⟩
      | node ll lj lr =>
        have hlf : heightT (.node ll lj lr) ≤ f' := by
          simp only [heightT] at hf ⊢; omega
        obtain ⟨i, hi1, hi2⟩ := ihl _ _ f' hl (by simp) hlf
        have hpl : (rd s (.node j)).left = .node lj := hl.1
        refine ⟨i, leftmostIdx_node_left _ j r i hi1, ?_⟩
        rw [TreeMin, if_pos ⟨by simp, by rw [hpl]; simp⟩]
        exact hi2

/-! ## Iteration visits a represented tree in order -/

theorem iterFrom_tree (s : Mem) :
    ∀ (t : ITree) (p par : Ptr), reprT s t p par → (inorderIdx t).Nodup →
      ∀ (E : Ptr) (b : Nat),
        (∀ f, b ≤ f → TreeSuccUp s f p par = E) →
        b + heightT t ≤ s.nodes.length + 1 →
        ∀ (rest : List Int), (∀ f, rest.length ≤ f → iterFrom s f E = rest) →
          ∀ f, (inorderKeys s t).length + rest.length ≤ f →
            iterFrom s f (match leftmostIdx t with | some i => Ptr.node i | none => E)
              = inorderKeys s t ++ rest := by
  intro t
  induction t with
  | leaf =>
    intro p par _ _ E b _ _ rest hrest f hf
    simp only [leftmostIdx, inorderKeys, inorderIdx, List.map_nil, List.nil_append]
    exact hrest f (by simpa [inorderKeys, inorderIdx] using hf)
  | node l j r ihl ihr =>
    intro p par h hnd E b hE hfit rest hrest f hf
    obtain ⟨hp, hjlt, _, hpar, hl, hr⟩ := h
    subst hp
    simp only [inorderIdx] at hnd
    obtain ⟨hndl, hndjr, hdisj⟩ := List.nodup_append.mp hnd
    obtain ⟨hjr, hndr⟩ := List.nodup_cons.mp hndjr
    have hklen : ∀ u : ITree, (inorderKeys s u).length = (inorderIdx u).length := by
      intro u; simp [inorderKeys]
    have hflen : (inorderKeys s (.node l j r)).length
        = (inorderKeys s l).length + 1 + (inorderKeys s r).length := by
      rw [inorderKeys_node]; simp; omega
    have hEr : ∀ f', b + 1 ≤ f' →
        TreeSuccUp s f' ((rd s (.node j)).right) (.node j) = E := by
      intro f' hf'
      cases f' with
      | zero => omega
      | succ f'' =>
        rw [TreeSuccUp, if_pos ⟨by simp, rfl⟩, hpar]
        exact hE f'' (by omega)
    have hj : ∀ f', (valAt s j :: (inorderKeys s r ++ rest)).length ≤ f' →
        iterFrom s f' (.node j) = valAt s j :: (inorderKeys s r ++ rest) := by
      intro f' hf'
      cases f' with
      | zero => simp at hf'
      | succ f'' =>
        rw [iterFrom, if_neg (by simp)]
        have hval : (rd s (.node j)).val = valAt s j := rfl
        rw [hval]
        congr 1
        cases r with
        | leaf =>
          have hrn : (rd s (.node j)).right = .null := hr
          have hsucc : TreeSuccessor s (s.nodes.length + 1) (.node j) = E := by
            rw [TreeSuccessor, if_neg (by simp), hrn, if_neg (by simp), hpar]
            exact hE (s.nodes.length + 1) (by omega)
          rw [hsucc]
          have : rest.length ≤ f'' := by
            simp only [List.length_cons, List.length_append] at hf'
            omega
          simpa [inorderKeys, inorderIdx] using hrest f'' this
        | node rl rj rr =>
          have hrp : (rd s (.node j)).right = .node rj := hr.1
          have hrfit : heightT (.node rl rj rr) ≤ s.nodes.length + 1 := by
            simp only [heightT] at hfit ⊢; omega
          obtain ⟨i0, hlm, hTM⟩ :=
            TreeMin_spec s (.node rl rj rr) _ (.node j) (s.nodes.length + 1)
              hr (by simp) hrfit
          have hsucc : TreeSuccessor s (s.nodes.length + 1) (.node j) = .node i0 := by
            rw [TreeSuccessor, if_neg (by simp), if_pos (by rw [hrp]; simp)]
            exact hTM
          rw [hsucc]
          have hfit' : (b + 1) + heightT (.node rl rj rr) ≤ s.nodes.length + 1 := by
            simp only [heightT] at hfit ⊢; omega
          have := ihr _ (.node j) hr hndr E (b + 1) hEr hfit' rest hrest f''
            (by simp only [List.length_cons, List.length_append] at hf'; omega)
          rw [hlm] at this
          exact this
    cases l with
    | leaf =>
      have hlm : leftmostIdx (.node .leaf j r) = some j := rfl
      rw [hlm, inorderKeys_node]
      have := hj f (by
        simp only [List.length_cons, List.length_append]
        rw [hflen] at hf
        simp only [hklen, inorderKeys, inorderIdx, List.map_nil, List.length_nil] at hf ⊢
        omega)
      simpa [inorderKeys, inorderIdx] using this
    | node ll lj lr =>
      have hpl : (rd s (.node j)).left = .node lj := hl.1
      have hEl : ∀ f', 1 ≤ f' →
          TreeSuccUp s f' ((rd s (.node j)).left) (.node j) = .node j := by
        intro f' hf'
        cases f' with
        | zero => omega
        | succ f'' =>
          rw [TreeSuccUp, if_neg ?_]
          push_neg
          intro _
          rw [hpl]
          cases r with
          | leaf => rw [(hr : (rd s (.node j)).right = .null)]; simp
          | node rl rj rr =>
            rw [hr.1]
            have : lj ≠ rj := by
              intro he
              have h1 : lj ∈ inorderIdx (ITree.node ll lj lr) := by simp [inorderIdx]
              have h2 : lj ∈ j :: inorderIdx (ITree.node rl rj rr) := by
                simp [inorderIdx, he]
              exact hdisj h1 h2
            simp [this]
      have hfitl : 1 + heightT (.node ll lj lr) ≤ s.nodes.length + 1 := by
        simp only [heightT] at hfit ⊢; omega
      have ihl' := ihl _ (.node j) hl hndl (.node j) 1 hEl hfitl
        (valAt s j :: (inorderKeys s r ++ rest)) hj f
        (by
          simp only [List.length_cons, List.length_append]
          rw [hflen] at hf
          omega)
      obtain ⟨i0, hi0⟩ := leftmostIdx_node ll lj lr
      rw [hi0] at ihl'
      rw [leftmostIdx_node_left _ j r i0 hi0]
      rw [inorderKeys_node]
      simpa [List.append_assoc] using ihl'

theorem iterVals_eq (s : Mem) (T : ITree) (hrep : reprT s T s.root .null)
    (hnd : (inorderIdx T).Nodup) : iterVals s = inorderKeys s T := by
  have hEroot : ∀ f, 0 ≤ f → TreeSuccUp s f s.root .null = .null := by
    intro f _
    cases f with
    | zero => rfl
    | succ f' => rw [TreeSuccUp, if_neg (by simp)]
  have hrest : ∀ f, ([] : List Int).length ≤ f → iterFrom s f .null = [] := by
    intro f _
    cases f with
    | zero => rfl
    | succ f' => rw [iterFrom, if_pos rfl]
  cases T with
  | leaf =>
    have hroot : s.root = .null := hrep
    simp [iterVals, beginPtr, hroot, inorderKeys, inorderIdx]
    rw [show TreeMin s (s.nodes.length + 1) .null = .null by
      simp [TreeMin]]
    exact hrest _ (by simp)
  | node l j r =>
    have hfit : heightT (.node l j r) < s.nodes.length + 1 :=
      heightT_lt_fuel s _ _ _ hrep hnd
    obtain ⟨i0, hlm, hTM⟩ :=
      TreeMin_spec s (.node l j r) s.root .null (s.nodes.length + 1) hrep (by simp)
        (by omega)
    have hlen : (inorderKeys s (.node l j r)).length ≤ s.nodes.length := by
      have h2 : (inorderIdx (.node l j r)) ⊆ List.range s.nodes.length := by
        intro i hi
        exact List.mem_range.mpr (reprT_idx_lt s _ _ _ hrep i hi)
      have h3 := (List.subperm_of_subset hnd h2).length_le
      simp only [List.length_range] at h3
      simpa [inorderKeys] using h3
    have := iterFrom_tree s (.node l j r) s.root .null hrep hnd .null 0 hEroot
      (by omega) [] hrest (s.nodes.length + 1) (by simp; omega)
    rw [hlm] at this
    rw [iterVals, beginPtr, hTM]
    simpa using this

/-! ## Pointwise reads through writes -/

theorem rd_wr_ne (s : Mem) (p q : Ptr) (f : NodeR → NodeR) (h : p ≠ q) :
    rd (wr s p f) q = rd s q := by
  cases p with
  | null => rfl
  | sent =>
    cases q with
    | null => rfl
    | sent => exact absurd rfl h
    | node j => rfl
  | node i =>
    cases q with
    | null => rfl
    | sent => rfl
    | node j => exact rd_wr_node_ne s i j f (fun he => h (by rw [he]))

theorem rd_ite_wr_ne (c : Prop) [Decidable c] (s' : Mem) (p q : Ptr)
    (f : NodeR → NodeR) (h : p ≠ q) :
    rd (if c then wr s' p f else s') q = rd s' q := by
  split
  · exact rd_wr_ne s' p q f h
  · rfl

theorem rd_ite2_wr_ne (c1 c2 : Prop) [Decidable c1] [Decidable c2] (s' : Mem)
    (p q : Ptr) (f g : NodeR → NodeR) (h : p ≠ q) :
    rd (if c1 then s' else if c2 then wr s' p f else wr s' p g) q = rd s' q := by
  split
  · rfl
  · split
    · exact rd_wr_ne s' p q f h
    · exact rd_wr_ne s' p q g h

theorem wr_root (s : Mem) (p : Ptr) (f : NodeR → NodeR) :
    (wr s p f).root = s.root := by
  cases p <;> rfl

theorem root_ite (c : Prop) [Decidable c] (a b : Mem) :
    (if c then a else b).root = if c then a.root else b.root := by
  split <;> rfl

theorem length_ite (c : Prop) [Decidable c] (a b : Mem) :
    (if c then a else b).nodes.length = if c then a.nodes.length else b.nodes.length := by
  split <;> rfl

/-! ## Rebuilding a represented node with one field changed -/

theorem reprT_node_rebuild (s s' : Mem) (hlen : s.nodes.length ≤ s'.nodes.length)
    (l r : ITree) (i : Nat) (p par par' : Ptr)
    (h : reprT s (.node l i r) p par)
    (hsub : ∀ j, (j ∈ inorderIdx l ∨ j ∈ inorderIdx r) →
      rd s' (.node j) = rd s (.node j))
    (hl' : (rd s' (.node i)).left = (rd s (.node i)).left)
    (hr' : (rd s' (.node i)).right = (rd s (.node i)).right)
    (hlive' : (rd s' (.node i)).live = (rd s (.node i)).live)
    (hpar' : (rd s' (.node i)).parent = par') :
    reprT s' (.node l i r) p par' := by
  obtain ⟨hp, hlt, hlive, _, hl, hr⟩ := h
  refine ⟨hp, by omega, by rw [hlive']; exact hlive, hpar', ?_, ?_⟩
  · rw [hl']
    exact reprT_frame s s' hlen l (fun j hj => hsub j (Or.inl hj)) _ _ hl
  · rw [hr']
    exact reprT_frame s s' hlen r (fun j hj => hsub j (Or.inr hj)) _ _ hr

/-! ## Grafting a re-represented subtree back into the whole tree -/

theorem reprT_graft (s s' : Mem) (hlen : s.nodes.length ≤ s'.nodes.length) (d : Dir) :
    ∀ (σp : List Dir) (T P Q : ITree) (jp : Nat) (rootp par0 : Ptr),
      subAt T σp = some (.node P jp Q) → reprT s T rootp par0 →
      (inorderIdx T).Nodup →
      ∀ (u' w : ITree), w = (match d with | .L => P | .R => Q) →
        (∀ j ∈ inorderIdx T, j ∉ inorderIdx w → j ≠ jp →
          rd s' (.node j) = rd s (.node j)) →
        (rd s' (.node jp)).parent = (rd s (.node jp)).parent →
        (rd s' (.node jp)).live = (rd s (.node jp)).live →
        (d = .L → (rd s' (.node jp)).left = ptrOfSub u'
          ∧ (rd s' (.node jp)).right = (rd s (.node jp)).right) →
        (d = .R → (rd s' (.node jp)).right = ptrOfSub u'
          ∧ (rd s' (.node jp)).left = (rd s (.node jp)).left) →
        reprT s' u' (ptrOfSub u') (.node jp) →
        reprT s' (replaceAt T (σp ++ [d]) u') rootp par0 := by
  intro σp
  induction σp with
  | nil =>
    intro T P Q jp rootp par0 hsub hT hnd u' w hw hframe hpar hlive hdL hdR hu
    simp only [subAt, Option.some_inj] at hsub
    subst hsub
    obtain ⟨hp, hlt, hlv, hpv, hP, hQ⟩ := hT
    simp only [inorderIdx] at hnd
    obtain ⟨hndP, hndjQ, hdisj⟩ := List.nodup_append.mp hnd
    obtain ⟨hjQ, hndQ⟩ := List.nodup_cons.mp hndjQ
    cases d with
    | L =>
      subst w
      rw [show replaceAt (ITree.node P jp Q) ([] ++ [Dir.L]) u' = ITree.node u' jp Q
        from by simp [replaceAt]]
      refine ⟨hp, by omega, by rw [hlive]; exact hlv, by rw [hpar]; exact hpv, ?_, ?_⟩
      · rw [(hdL rfl).1]
        exact hu
      · rw [(hdL rfl).2]
        refine reprT_frame s s' hlen Q ?_ _ _ hQ
        intro j hj
        refine hframe j (by simp [inorderIdx]; tauto) (fun hc => hdisj hc (by simp [hj]))
          (fun hc => hjQ (hc ▸ hj))
    | R =>
      subst w
      rw [show replaceAt (ITree.node P jp Q) ([] ++ [Dir.R]) u' = ITree.node P jp u'
        from by simp [replaceAt]]
      refine ⟨hp, by omega, by rw [hlive]; exact hlv, by rw [hpar]; exact hpv, ?_, ?_⟩
      · rw [(hdR rfl).2]
        refine reprT_frame s s' hlen P ?_ _ _ hP
        intro j hj
        exact hframe j (by simp [inorderIdx]; tauto) (fun hc => hdisj hj (by simp [hc]))
          (fun hc => hdisj hj (by simp [hc]))
      · rw [(hdR rfl).1]
        exact hu
  | cons e σp' ih =>
    intro T P Q jp rootp par0 hsub hT hnd u' w hw hframe hpar hlive hdL hdR hu
    cases T with
    | leaf => simp [subAt] at hsub
    | node l i r =>
      obtain ⟨hp, hlt, hlv, hpv, hl, hr⟩ := hT
      simp only [inorderIdx] at hnd
      obtain ⟨hndl, hndir, hdisj⟩ := List.nodup_append.mp hnd
      obtain ⟨hir, hndr⟩ := List.nodup_cons.mp hndir
      cases e with
      | L =>
        have hsub' : subAt l σp' = some (.node P jp Q) := by simpa [subAt] using hsub
        have hjpl : jp ∈ inorderIdx l :=
          subAt_mem_subset l σp' _ hsub' jp (by simp [inorderIdx])
        have hwl : ∀ j ∈ inorderIdx w, j ∈ inorderIdx l := by
          intro j hj
          refine subAt_mem_subset l σp' _ hsub' j ?_
          cases d with
          | L => subst hw; simp [inorderIdx]; tauto
          | R => subst hw; simp [inorderIdx]; tauto
        have hroot_i : rd s' (.node i) = rd s (.node i) := by
          refine hframe i (by simp [inorderIdx]) ?_ ?_
          · intro hc
            exact hdisj (hwl i hc) (by simp)
          · intro hc
            exact hdisj (hc ▸ hjpl) (by simp)
        rw [show replaceAt (ITree.node l i r) ((Dir.L :: σp') ++ [d]) u'
          = ITree.node (replaceAt l (σp' ++ [d]) u') i r from by simp [replaceAt]]
        refine ⟨hp, by omega, by rw [hroot_i]; exact hlv, by rw [hroot_i]; exact hpv,
          ?_, ?_⟩
        · rw [hroot_i]
          refine ih l P Q jp _ (.node i) hsub' hl hndl u' w hw ?_ hpar hlive hdL hdR hu
          intro j hj hjw hjp
          exact hframe j (by simp [inorderIdx]; tauto) hjw hjp
        · rw [hroot_i]
          refine reprT_frame s s' hlen r ?_ _ _ hr
          intro j hj
          refine hframe j (by simp [inorderIdx]; tauto) ?_ ?_
          · intro hc
            exact hdisj (hwl j hc) (by simp [hj])
          · intro hc
            exact hdisj (hc ▸ hjpl) (by simp [hj])
      | R =>
        have hsub' : subAt r σp' = some (.node P jp Q) := by simpa [subAt] using hsub
        have hjpr : jp ∈ inorderIdx r :=
          subAt_mem_subset r σp' _ hsub' jp (by simp [inorderIdx])
        have hwr : ∀ j ∈ inorderIdx w, j ∈ inorderIdx r := by
          intro j hj
          refine subAt_mem_subset r σp' _ hsub' j ?_
          cases d with
          | L => subst hw; simp [inorderIdx]; tauto
          | R => subst hw; simp [inorderIdx]; tauto
        have hroot_i : rd s' (.node i) = rd s (.node i) := by
          refine hframe i (by simp [inorderIdx]) ?_ ?_
          · intro hc
            exact hir (hwr i hc)
          · intro hc
            exact hir (hc ▸ hjpr)
        rw [show replaceAt (ITree.node l i r) ((Dir.R :: σp') ++ [d]) u'
          = ITree.node l i (replaceAt r (σp' ++ [d]) u') from by simp [replaceAt]]
        refine ⟨hp, by omega, by rw [hroot_i]; exact hlv, by rw [hroot_i]; exact hpv,
          ?_, ?_⟩
        · rw [hroot_i]
          refine reprT_frame s s' hlen l ?_ _ _ hl
          intro j hj
          refine hframe j (by simp [inorderIdx]; tauto) ?_ ?_
          · intro hc
            exact hdisj hj (by simp [hwr j hc])
          · intro hc
            exact hdisj hj (by simp [hc ▸ hjpr])
        · rw [hroot_i]
          refine ih r P Q jp _ (.node i) hsub' hr hndr u' w hw ?_ hpar hlive hdL hdR hu
          intro j hj hjw hjp
          exact hframe j (by simp [inorderIdx]; tauto) hjw hjp

/-! ## Pointwise effect of the rotations -/

/-- Pointwise description of `TreeRotateLeft` at a pivot whose right child is
`jy`, whose left grandchild is `bp` and whose parent is `pp`, all pairwise
distinct. -/
theorem rotateLeft_rd (s : Mem) (jx jy : Nat) (bp pp : Ptr)
    (hyr : (rd s (.node jx)).right = .node jy)
    (hbl : (rd s (.node jy)).left = bp)
    (hxpar : (rd s (.node jx)).parent = pp)
    (hxlt : jx < s.nodes.length) (hylt : jy < s.nodes.length)
    (hxy : jx ≠ jy)
    (hbx : bp ≠ .node jx) (hby : bp ≠ .node jy)
    (hpx : pp ≠ .node jx) (hpy : pp ≠ .node jy)
    (hpb : ∀ j : Nat, bp = .node j → pp ≠ .node j)
    (hblt : ∀ jb, bp = .node jb → jb < s.nodes.length)
    (hplt : ∀ jp, pp = .node jp → jp < s.nodes.length) :
    (TreeRotateLeft s (.node jx)).2 = .node jy
    ∧ rd (TreeRotateLeft s (.node jx)).1 (.node jx)
        = { rd s (.node jx) with right := bp, parent := .node jy }
    ∧ rd (TreeRotateLeft s (.node jx)).1 (.node jy)
        = { rd s (.node jy) with left := .node jx, parent := pp }
    ∧ (∀ jb : Nat, bp = .node jb →
        rd (TreeRotateLeft s (.node jx)).1 (.node jb)
          = { rd s (.node jb) with parent := .node jx })
    ∧ (∀ jp : Nat, pp = .node jp →
        ((rd s (.node jp)).left = .node jx →
          rd (TreeRotateLeft s (.node jx)).1 (.node jp)
            = { rd s (.node jp) with left := .node jy })
        ∧ ((rd s (.node jp)).left ≠ .node jx →
          rd (TreeRotateLeft s (.node jx)).1 (.node jp)
            = { rd s (.node jp) with right := .node jy }))
    ∧ (∀ q : Ptr, q ≠ .node jx → q ≠ .node jy → q ≠ bp → q ≠ pp →
        rd (TreeRotateLeft s (.node jx)).1 q = rd s q)
    ∧ (TreeRotateLeft s (.node jx)).1.root = s.root
    ∧ (TreeRotateLeft s (.node jx)).1.nodes.length = s.nodes.length := by
  unfold TreeRotateLeft
  dsimp only
  rw [hyr]
  rw [if_neg (show ¬ (Ptr.node jy = Ptr.null) by simp)]
  rw [hbl]
  rw [rd_ite_wr_ne _ _ _ _ _ hbx]
  rw [rd_wr_node_self s jx _ hxlt]
  dsimp only
  rw [hxpar]
  refine ⟨rfl, ?_, ?_, ?_, ?_, ?_, ?_, ?_⟩
  · rw [rd_wr_node_self, rd_wr_ne _ _ _ _ (show Ptr.node jy ≠ Ptr.node jx by simp; omega),
      rd_ite2_wr_ne _ _ _ _ _ _ _ hpx,
      rd_wr_ne _ _ _ _ (show Ptr.node jy ≠ Ptr.node jx by simp; omega),
      rd_ite_wr_ne _ _ _ _ _ hbx, rd_wr_node_self s jx _ hxlt]
    simp [wr_length, length_ite, hxlt]
  · rw [rd_wr_ne _ _ _ _ (show Ptr.node jx ≠ Ptr.node jy by simp [hxy]),
      rd_wr_node_self,
      rd_ite2_wr_ne _ _ _ _ _ _ _ hpy,
      rd_wr_node_self,
      rd_ite_wr_ne _ _ _ _ _ hby,
      rd_wr_ne _ _ _ _ (show Ptr.node jx ≠ Ptr.node jy by simp [hxy])]
    · simp [wr_length, length_ite, hylt]
    · simp [wr_length, length_ite, hylt]
  · intro jb hbp
    subst hbp
    rw [rd_wr_ne _ _ _ _ (show Ptr.node jx ≠ Ptr.node jb by
        intro h; exact hbx h.symm),
      rd_wr_ne _ _ _ _ (show Ptr.node jy ≠ Ptr.node jb by
        intro h; exact hby h.symm),
      rd_ite2_wr_ne _ _ _ _ _ _ _ (hpb jb rfl),
      rd_wr_ne _ _ _ _ (show Ptr.node jy ≠ Ptr.node jb by
        intro h; exact hby h.symm),
      if_pos (show ¬ (Ptr.node jb = Ptr.null) by simp),
      rd_wr_node_self,
      rd_wr_ne _ _ _ _ (show Ptr.node jx ≠ Ptr.node jb by
        intro h; exact hbx h.symm)]
    simp [wr_length, hblt jb rfl]
  · intro jp hppv
    subst hppv
    rw [rd_wr_ne _ _ _ _ (show Ptr.node jx ≠ Ptr.node jp by
        intro h; exact hpx h.symm),
      rd_wr_ne _ _ _ _ (show Ptr.node jy ≠ Ptr.node jp by
        intro h; exact hpy h.symm),
      if_neg (show ¬ (Ptr.node jp = Ptr.null) by simp),
      rd_wr_ne _ _ _ _ (show Ptr.node jy ≠ Ptr.node jp by
        intro h; exact hpy h.symm),
      rd_ite_wr_ne _ _ _ _ _ (show bp ≠ Ptr.node jp from fun h => hpb jp h rfl),
      rd_wr_ne _ _ _ _ (show Ptr.node jx ≠ Ptr.node jp by
        intro h; exact hpx h.symm)]
    constructor
    · intro hleft
      rw [if_pos hleft, rd_wr_node_self,
        rd_wr_ne _ _ _ _ (show Ptr.node jy ≠ Ptr.node jp by
          intro h; exact hpy h.symm),
        rd_ite_wr_ne _ _ _ _ _ (show bp ≠ Ptr.node jp from fun h => hpb jp h rfl),
        rd_wr_ne _ _ _ _ (show Ptr.node jx ≠ Ptr.node jp by
          intro h; exact hpx h.symm)]
      simp [wr_length, length_ite, hplt jp rfl]
    · intro hleft
      rw [if_neg hleft, rd_wr_node_self,
        rd_wr_ne _ _ _ _ (show Ptr.node jy ≠ Ptr.node jp by
          intro h; exact hpy h.symm),
        rd_ite_wr_ne _ _ _ _ _ (show bp ≠ Ptr.node jp from fun h => hpb jp h rfl),
        rd_wr_ne _ _ _ _ (show Ptr.node jx ≠ Ptr.node jp by
          intro h; exact hpx h.symm)]
      simp [wr_length, length_ite, hplt jp rfl]
  · intro q h1 h2 h3 h4
    rw [rd_wr_ne _ _ _ _ (Ne.symm h1), rd_wr_ne _ _ _ _ (Ne.symm h2),
      rd_ite2_wr_ne _ _ _ _ _ _ _ (Ne.symm h4), rd_wr_ne _ _ _ _ (Ne.symm h2),
      rd_ite_wr_ne _ _ _ _ _ (Ne.symm h3), rd_wr_ne _ _ _ _ (Ne.symm h1)]
  · simp [wr_root, root_ite]
  · simp [wr_length, length_ite]

/-- Pointwise description of `TreeRotateRight`, mirror of `rotateLeft_rd`. -/
theorem rotateRight_rd (s : Mem) (jx jy : Nat) (bp pp : Ptr)
    (hyl : (rd s (.node jx)).left = .node jy)
    (hbr : (rd s (.node jy)).right = bp)
    (hxpar : (rd s (.node jx)).parent = pp)
    (hxlt : jx < s.nodes.length) (hylt : jy < s.nodes.length)
    (hxy : jx ≠ jy)
    (hbx : bp ≠ .node jx) (hby : bp ≠ .node jy)
    (hpx : pp ≠ .node jx) (hpy : pp ≠ .node jy)
    (hpb : ∀ j : Nat, bp = .node j → pp ≠ .node j)
    (hblt : ∀ jb, bp = .node jb → jb < s.nodes.length)
    (hplt : ∀ jp, pp = .node jp → jp < s.nodes.length) :
    (TreeRotateRight s (.node jx)).2 = .node jy
    ∧ rd (TreeRotateRight s (.node jx)).1 (.node jx)
        = { rd s (.node jx) with left := bp, parent := .node jy }
    ∧ rd (TreeRotateRight s (.node jx)).1 (.node jy)
        = { rd s (.node jy) with right := .node jx, parent := pp }
    ∧ (∀ jb : Nat, bp = .node jb →
        rd (TreeRotateRight s (.node jx)).1 (.node jb)
          = { rd s (.node jb) with parent := .node jx })
    ∧ (∀ jp : Nat, pp = .node jp →
        ((rd s (.node jp)).left = .node jx →
          rd (TreeRotateRight s (.node jx)).1 (.node jp)
            = { rd s (.node jp) with left := .node jy })
        ∧ ((rd s (.node jp)).left ≠ .node jx →
          rd (TreeRotateRight s (.node jx)).1 (.node jp)
            = { rd s (.node jp) with right := .node jy }))
    ∧ (∀ q : Ptr, q ≠ .node jx → q ≠ .node jy → q ≠ bp → q ≠ pp →
        rd (TreeRotateRight s (.node jx)).1 q = rd s q)
    ∧ (TreeRotateRight s (.node jx)).1.root = s.root
    ∧ (TreeRotateRight s (.node jx)).1.nodes.length = s.nodes.length := by
  unfold TreeRotateRight
  dsimp only
  rw [hyl]
  rw [if_neg (show ¬ (Ptr.node jy = Ptr.null) by simp)]
  rw [hbr]
  rw [rd_ite_wr_ne _ _ _ _ _ hbx]
  rw [rd_wr_node_self s jx _ hxlt]
  dsimp only
  rw [hxpar]
  refine ⟨rfl, ?_, ?_, ?_, ?_, ?_, ?_, ?_⟩
  · rw [rd_wr_node_self, rd_wr_ne _ _ _ _ (show Ptr.node jy ≠ Ptr.node jx by simp; omega),
      rd_ite2_wr_ne _ _ _ _ _ _ _ hpx,
      rd_wr_ne _ _ _ _ (show Ptr.node jy ≠ Ptr.node jx by simp; omega),
      rd_ite_wr_ne _ _ _ _ _ hbx, rd_wr_node_self s jx _ hxlt]
    simp [wr_length, length_ite, hxlt]
  · rw [rd_wr_ne _ _ _ _ (show Ptr.node jx ≠ Ptr.node jy by simp [hxy]),
      rd_wr_node_self,
      rd_ite2_wr_ne _ _ _ _ _ _ _ hpy,
      rd_wr_node_self,
      rd_ite_wr_ne _ _ _ _ _ hby,
      rd_wr_ne _ _ _ _ (show Ptr.node jx ≠ Ptr.node jy by simp [hxy])]
    · simp [wr_length, length_ite, hylt]
    · simp [wr_length, length_ite, hylt]
  · intro jb hbp
    subst hbp
    rw [rd_wr_ne _ _ _ _ (show Ptr.node jx ≠ Ptr.node jb by
        intro h; exact hbx h.symm),
      rd_wr_ne _ _ _ _ (show Ptr.node jy ≠ Ptr.node jb by
        intro h; exact hby h.symm),
      rd_ite2_wr_ne _ _ _ _ _ _ _ (hpb jb rfl),
      rd_wr_ne _ _ _ _ (show Ptr.node jy ≠ Ptr.node jb by
        intro h; exact hby h.symm),
      if_pos (show ¬ (Ptr.node jb = Ptr.null) by simp),
      rd_wr_node_self,
      rd_wr_ne _ _ _ _ (show Ptr.node jx ≠ Ptr.node jb by
        intro h; exact hbx h.symm)]
    simp [wr_length, hblt jb rfl]
  · intro jp hppv
    subst hppv
    rw [rd_wr_ne _ _ _ _ (show Ptr.node jx ≠ Ptr.node jp by
        intro h; exact hpx h.symm),
      rd_wr_ne _ _ _ _ (show Ptr.node jy ≠ Ptr.node jp by
        intro h; exact hpy h.symm),
      if_neg (show ¬ (Ptr.node jp = Ptr.null) by simp),
      rd_wr_ne _ _ _ _ (show Ptr.node jy ≠ Ptr.node jp by
        intro h; exact hpy h.symm),
      rd_ite_wr_ne _ _ _ _ _ (show bp ≠ Ptr.node jp from fun h => hpb jp h rfl),
      rd_wr_ne _ _ _ _ (show Ptr.node jx ≠ Ptr.node jp by
        intro h; exact hpx h.symm)]
    constructor
    · intro hleft
      rw [if_pos hleft, rd_wr_node_self,
        rd_wr_ne _ _ _ _ (show Ptr.node jy ≠ Ptr.node jp by
          intro h; exact hpy h.symm),
        rd_ite_wr_ne _ _ _ _ _ (show bp ≠ Ptr.node jp from fun h => hpb jp h rfl),
        rd_wr_ne _ _ _ _ (show Ptr.node jx ≠ Ptr.node jp by
          intro h; exact hpx h.symm)]
      simp [wr_length, length_ite, hplt jp rfl]
    · intro hleft
      rw [if_neg hleft, rd_wr_node_self,
        rd_wr_ne _ _ _ _ (show Ptr.node jy ≠ Ptr.node jp by
          intro h; exact hpy h.symm),
        rd_ite_wr_ne _ _ _ _ _ (show bp ≠ Ptr.node jp from fun h => hpb jp h rfl),
        rd_wr_ne _ _ _ _ (show Ptr.node jx ≠ Ptr.node jp by
          intro h; exact hpx h.symm)]
      simp [wr_length, length_ite, hplt jp rfl]
  · intro q h1 h2 h3 h4
    rw [rd_wr_ne _ _ _ _ (Ne.symm h1), rd_wr_ne _ _ _ _ (Ne.symm h2),
      rd_ite2_wr_ne _ _ _ _ _ _ _ (Ne.symm h4), rd_wr_ne _ _ _ _ (Ne.symm h2),
      rd_ite_wr_ne _ _ _ _ _ (Ne.symm h3), rd_wr_ne _ _ _ _ (Ne.symm h1)]
  · simp [wr_root, root_ite]
  · simp [wr_length, length_ite]

/-- Rotating left at a represented pivot re-represents the rotated subtree
and leaves every other live node untouched. -/
theorem rotateLeft_sub_repr (s : Mem) (A B C : ITree) (jx jy : Nat) (pp : Ptr)
    (hrep : reprT s (.node A jx (.node B jy C)) (.node jx) pp)
    (hnd : (inorderIdx (.node A jx (.node B jy C))).Nodup)
    (hppn : ∀ j, pp = .node j → j ∉ inorderIdx (.node A jx (.node B jy C)))
    (hplt : ∀ jp, pp = .node jp → jp < s.nodes.length) :
    (TreeRotateLeft s (.node jx)).2 = .node jy
    ∧ reprT (TreeRotateLeft s (.node jx)).1 (.node (.node A jx B) jy C) (.node jy) pp
    ∧ (TreeRotateLeft s (.node jx)).1.root = s.root
    ∧ (TreeRotateLeft s (.node jx)).1.nodes.length = s.nodes.length
    ∧ (∀ j : Nat, j ∉ inorderIdx (.node A jx (.node B jy C)) → pp ≠ .node j →
        rd (TreeRotateLeft s (.node jx)).1 (.node j) = rd s (.node j))
    ∧ (∀ jp : Nat, pp = .node jp →
        (rd (TreeRotateLeft s (.node jx)).1 (.node jp)).parent = (rd s (.node jp)).parent
        ∧ (rd (TreeRotateLeft s (.node jx)).1 (.node jp)).live = (rd s (.node jp)).live
        ∧ ((rd s (.node jp)).left = .node jx →
            (rd (TreeRotateLeft s (.node jx)).1 (.node jp)).left = .node jy
            ∧ (rd (TreeRotateLeft s (.node jx)).1 (.node jp)).right
                = (rd s (.node jp)).right)
        ∧ ((rd s (.node jp)).left ≠ .node jx →
            (rd (TreeRotateLeft s (.node jx)).1 (.node jp)).right = .node jy
            ∧ (rd (TreeRotateLeft s (.node jx)).1 (.node jp)).left
                = (rd s (.node jp)).left)) := by
  obtain ⟨_, hxlt, hxlive, hxpar, hA, hY⟩ := hrep
  obtain ⟨hyr, hylt, hylive, hypar, hB, hC⟩ := hY
  have hnd' := hnd
  simp only [inorderIdx] at hnd'
  obtain ⟨hndA, hndrest, hdisjA⟩ := List.nodup_append.mp hnd'
  obtain ⟨hjxrest, hndrest2⟩ := List.nodup_cons.mp hndrest
  obtain ⟨hndB, hndjyC, hdisjB⟩ := List.nodup_append.mp hndrest2
  obtain ⟨hjyC, hndC⟩ := List.nodup_cons.mp hndjyC
  have hxy : jx ≠ jy := fun he => hjxrest (by simp [he])
  have hmemA : ∀ j ∈ inorderIdx A, j ∈ inorderIdx (ITree.node A jx (.node B jy C)) := by
    intro j hj; simp [inorderIdx]; tauto
  have hmemB : ∀ j ∈ inorderIdx B, j ∈ inorderIdx (ITree.node A jx (.node B jy C)) := by
    intro j hj; simp [inorderIdx]; tauto
  have hmemC : ∀ j ∈ inorderIdx C, j ∈ inorderIdx (ITree.node A jx (.node B jy C)) := by
    intro j hj; simp [inorderIdx]; tauto
  have hmemx : jx ∈ inorderIdx (ITree.node A jx (.node B jy C)) := by simp [inorderIdx]
  have hmemy : jy ∈ inorderIdx (ITree.node A jx (.node B jy C)) := by simp [inorderIdx]
  have hAneqx : ∀ j ∈ inorderIdx A, j ≠ jx := fun j hj he => hdisjA hj (by simp [he])
  have hAneqy : ∀ j ∈ inorderIdx A, j ≠ jy := fun j hj he => hdisjA hj (by simp [he])
  have hBneqx : ∀ j ∈ inorderIdx B, j ≠ jx := fun j hj he =>
    hjxrest (by rw [← he]; simp [hj])
  have hBneqy : ∀ j ∈ inorderIdx B, j ≠ jy := fun j hj he => hdisjB hj (by simp [he])
  have hCneqx : ∀ j ∈ inorderIdx C, j ≠ jx := fun j hj he =>
    hjxrest (by rw [← he]; simp [hj])
  have hCneqy : ∀ j ∈ inorderIdx C, j ≠ jy := fun j hj he => hjyC (he ▸ hj)
  have hbpOut : ∀ j : Nat, j ∉ inorderIdx B → (rd s (.node jy)).left ≠ .node j := by
    intro j hj
    cases B with
    | leaf => rw [(hB : (rd s (Ptr.node jy)).left = Ptr.null)]; simp
    | node B1 jb B2 =>
      rw [hB.1]
      simp only [ne_eq, Ptr.node.injEq]
      intro he
      exact hj (by rw [← he]; simp [inorderIdx])
  have hbx : (rd s (.node jy)).left ≠ .node jx :=
    hbpOut jx (fun hc => hBneqx jx hc rfl)
  have hby : (rd s (.node jy)).left ≠ .node jy :=
    hbpOut jy (fun hc => hBneqy jy hc rfl)
  have hblt : ∀ jb', (rd s (.node jy)).left = .node jb' → jb' < s.nodes.length := by
    intro jb' hb
    cases B with
    | leaf =>
      rw [(hB : (rd s (Ptr.node jy)).left = Ptr.null)] at hb
      exact absurd hb (by simp)
    | node B1 jb B2 =>
      rw [hB.1] at hb
      injection hb with hh
      subst hh
      exact hB.2.1
  have hpx : pp ≠ .node jx := fun he => hppn jx he hmemx
  have hpy : pp ≠ .node jy := fun he => hppn jy he hmemy
  have hpb : ∀ j : Nat, (rd s (.node jy)).left = .node j → pp ≠ .node j := by
    intro j hb he
    cases B with
    | leaf =>
      rw [(hB : (rd s (Ptr.node jy)).left = Ptr.null)] at hb
      exact absurd hb (by simp)
    | node B1 jb B2 =>
      rw [hB.1] at hb
      injection hb with hh
      subst hh
      exact hppn _ he (hmemB _ (by simp [inorderIdx]))
  obtain ⟨c1, c2, c3, c4, c5, c6, c7, c8⟩ :=
    rotateLeft_rd s jx jy ((rd s (.node jy)).left) pp hyr rfl hxpar hxlt hylt hxy
      hbx hby hpx hpy hpb hblt hplt
  have hfrIn : ∀ j : Nat, j ∈ inorderIdx (ITree.node A jx (.node B jy C)) →
      j ≠ jx → j ≠ jy → (rd s (.node jy)).left ≠ .node j →
      rd (TreeRotateLeft s (.node jx)).1 (.node j) = rd s (.node j) := by
    intro j hjmem h1 h2 h3
    exact c6 (.node j) (by simp [h1]) (by simp [h2]) (Ne.symm h3)
      (fun he => hppn j he.symm hjmem)
  have hlenS : s.nodes.length ≤ (TreeRotateLeft s (.node jx)).1.nodes.length := by
    rw [c8]
  have hfrA : ∀ j ∈ inorderIdx A,
      rd (TreeRotateLeft s (.node jx)).1 (.node j) = rd s (.node j) := by
    intro j hj
    exact hfrIn j (hmemA j hj) (hAneqx j hj) (hAneqy j hj)
      (hbpOut j (fun hc => hdisjA hj (by simp [hc])))
  have hfrC : ∀ j ∈ inorderIdx C,
      rd (TreeRotateLeft s (.node jx)).1 (.node j) = rd s (.node j) := by
    intro j hj
    exact hfrIn j (hmemC j hj) (hCneqx j hj) (hCneqy j hj)
      (hbpOut j (fun hc => hdisjB hc (by simp [hj])))
  have hA' : reprT (TreeRotateLeft s (.node jx)).1 A ((rd s (.node jx)).left)
      (.node jx) := reprT_frame s _ hlenS A hfrA _ _ hA
  have hC' : reprT (TreeRotateLeft s (.node jx)).1 C ((rd s (.node jy)).right)
      (.node jy) := reprT_frame s _ hlenS C hfrC _ _ hC
  have hB' : reprT (TreeRotateLeft s (.node jx)).1 B ((rd s (.node jy)).left)
      (.node jx) := by
    cases B with
    | leaf => exact hB
    | node B1 jb B2 =>
      obtain ⟨hbp1, hblt1, hblive1, hbpar1, hB1, hB2⟩ := hB
      obtain ⟨hndB1, hndjbB2, hdisjB1⟩ := List.nodup_append.mp hndB
      obtain ⟨hjbB2, hndB2⟩ := List.nodup_cons.mp hndjbB2
      have hc4 := c4 jb hbp1
      have hfrB12 : ∀ j : Nat, (j ∈ inorderIdx B1 ∨ j ∈ inorderIdx B2) →
          rd (TreeRotateLeft s (.node jx)).1 (.node j) = rd s (.node j) := by
        intro j hj
        have hjB : j ∈ inorderIdx (ITree.node B1 jb B2) := by
          simp [inorderIdx]; tauto
        refine hfrIn j (hmemB j hjB) (hBneqx j hjB) (hBneqy j hjB) ?_
        rw [hbp1]
        simp only [ne_eq, Ptr.node.injEq]
        intro he
        rcases hj with hj | hj
        · exact hdisjB1 hj (by simp [← he])
        · exact hjbB2 (by rw [he]; exact hj)
      refine ⟨hbp1, by omega, ?_, ?_, ?_, ?_⟩
      · rw [hc4]; exact hblive1
      · rw [hc4]
      · rw [hc4]
        exact reprT_frame s _ hlenS B1 (fun j hj => hfrB12 j (Or.inl hj)) _ _ hB1
      · rw [hc4]
        exact reprT_frame s _ hlenS B2 (fun j hj => hfrB12 j (Or.inr hj)) _ _ hB2
  refine ⟨c1, ?_, c7, c8, ?_, ?_⟩
  · refine ⟨rfl, by omega, ?_, ?_, ?_, ?_⟩
    · rw [c3]; exact hylive
    · rw [c3]
    · rw [c3]
      show reprT (TreeRotateLeft s (.node jx)).1 (.node A jx B) (.node jx) (.node jy)
      refine ⟨rfl, by omega, ?_, ?_, ?_, ?_⟩
      · rw [c2]; exact hxlive
      · rw [c2]
      · rw [c2]; exact hA'
      · rw [c2]; exact hB'
    · rw [c3]; exact hC'
  · intro j hjn hppj
    refine c6 (.node j) ?_ ?_ ?_ (Ne.symm hppj)
    · simp only [ne_eq, Ptr.node.injEq]
      intro he
      exact hjn (by rw [he]; exact hmemx)
    · simp only [ne_eq, Ptr.node.injEq]
      intro he
      exact hjn (by rw [he]; exact hmemy)
    · refine Ne.symm (hbpOut j ?_)
      intro hc
      exact hjn (hmemB j hc)
  · intro jp hppv
    have h5 := c5 jp hppv
    have hA4 := c4
    refine ⟨?_, ?_, ?_, ?_⟩
    · by_cases hcl : (rd s (.node jp)).left = .node jx
      · rw [(h5.1 hcl)]
      · rw [(h5.2 hcl)]
    · by_cases hcl : (rd s (.node jp)).left = .node jx
      · rw [(h5.1 hcl)]
      · rw [(h5.2 hcl)]
    · intro hcl
      rw [(h5.1 hcl)]
      exact ⟨rfl, rfl⟩
    · intro hcl
      rw [(h5.2 hcl)]
      exact ⟨rfl, rfl⟩

/-- Mirror of `rotateLeft_sub_repr` for `TreeRotateRight`. -/
theorem rotateRight_sub_repr (s : Mem) (A B C : ITree) (jx jy : Nat) (pp : Ptr)
    (hrep : reprT s (.node (.node C jy B) jx A) (.node jx) pp)
    (hnd : (inorderIdx (.node (.node C jy B) jx A)).Nodup)
    (hppn : ∀ j, pp = .node j → j ∉ inorderIdx (.node (.node C jy B) jx A))
    (hplt : ∀ jp, pp = .node jp → jp < s.nodes.length) :
    (TreeRotateRight s (.node jx)).2 = .node jy
    ∧ reprT (TreeRotateRight s (.node jx)).1 (.node C jy (.node B jx A)) (.node jy) pp
    ∧ (TreeRotateRight s (.node jx)).1.root = s.root
    ∧ (TreeRotateRight s (.node jx)).1.nodes.length = s.nodes.length
    ∧ (∀ j : Nat, j ∉ inorderIdx (.node (.node C jy B) jx A) → pp ≠ .node j →
        rd (TreeRotateRight s (.node jx)).1 (.node j) = rd s (.node j))
    ∧ (∀ jp : Nat, pp = .node jp →
        (rd (TreeRotateRight s (.node jx)).1 (.node jp)).parent = (rd s (.node jp)).parent
        ∧ (rd (TreeRotateRight s (.node jx)).1 (.node jp)).live = (rd s (.node jp)).live
        ∧ ((rd s (.node jp)).left = .node jx →
            (rd (TreeRotateRight s (.node jx)).1 (.node jp)).left = .node jy
            ∧ (rd (TreeRotateRight s (.node jx)).1 (.node jp)).right
                = (rd s (.node jp)).right)
        ∧ ((rd s (.node jp)).left ≠ .node jx →
            (rd (TreeRotateRight s (.node jx)).1 (.node jp)).right = .node jy
            ∧ (rd (TreeRotateRight s (.node jx)).1 (.node jp)).left
                = (rd s (.node jp)).left)) := by
  obtain ⟨_, hxlt, hxlive, hxpar, hY, hA⟩ := hrep
  obtain ⟨hyl, hylt, hylive, hypar, hC, hB⟩ := hY
  have hnd' := hnd
  simp only [inorderIdx] at hnd'
  obtain ⟨hndCyB, hndjxA, hdisjL⟩ := List.nodup_append.mp hnd'
  obtain ⟨hjxA, hndA⟩ := List.nodup_cons.mp hndjxA
  obtain ⟨hndC, hndjyB, hdisjC⟩ := List.nodup_append.mp hndCyB
  obtain ⟨hjyB, hndB⟩ := List.nodup_cons.mp hndjyB
  have hxy : jx ≠ jy := fun he =>
    hdisjL (show jy ∈ inorderIdx C ++ jy :: inorderIdx B by simp)
      (show jy ∈ jx :: inorderIdx A by rw [he]; simp)
  have hmemA : ∀ j ∈ inorderIdx A,
      j ∈ inorderIdx (ITree.node (.node C jy B) jx A) := by
    intro j hj; simp [inorderIdx]; tauto
  have hmemB : ∀ j ∈ inorderIdx B,
      j ∈ inorderIdx (ITree.node (.node C jy B) jx A) := by
    intro j hj; simp [inorderIdx]; tauto
  have hmemC : ∀ j ∈ inorderIdx C,
      j ∈ inorderIdx (ITree.node (.node C jy B) jx A) := by
    intro j hj; simp [inorderIdx]; tauto
  have hmemx : jx ∈ inorderIdx (ITree.node (.node C jy B) jx A) := by simp [inorderIdx]
  have hmemy : jy ∈ inorderIdx (ITree.node (.node C jy B) jx A) := by simp [inorderIdx]
  have hAneqx : ∀ j ∈ inorderIdx A, j ≠ jx := fun j hj he => hjxA (he ▸ hj)
  have hAneqy : ∀ j ∈ inorderIdx A, j ≠ jy := fun j hj he =>
    hdisjL (show j ∈ inorderIdx C ++ jy :: inorderIdx B by rw [he]; simp)
      (show j ∈ jx :: inorderIdx A by simp [hj])
  have hBneqx : ∀ j ∈ inorderIdx B, j ≠ jx := fun j hj he =>
    hdisjL (show j ∈ inorderIdx C ++ jy :: inorderIdx B by simp [hj])
      (show j ∈ jx :: inorderIdx A by rw [he]; simp)
  have hBneqy : ∀ j ∈ inorderIdx B, j ≠ jy := fun j hj he => hjyB (he ▸ hj)
  have hCneqx : ∀ j ∈ inorderIdx C, j ≠ jx := fun j hj he =>
    hdisjL (show j ∈ inorderIdx C ++ jy :: inorderIdx B by simp [hj])
      (show j ∈ jx :: inorderIdx A by rw [he]; simp)
  have hCneqy : ∀ j ∈ inorderIdx C, j ≠ jy := fun j hj he => hdisjC hj (by simp [he])
  have hbpOut : ∀ j : Nat, j ∉ inorderIdx B → (rd s (.node jy)).right ≠ .node j := by
    intro j hj
    cases B with
    | leaf => rw [(hB : (rd s (Ptr.node jy)).right = Ptr.null)]; simp
    | node B1 jb B2 =>
      rw [hB.1]
      simp only [ne_eq, Ptr.node.injEq]
      intro he
      exact hj (by rw [← he]; simp [inorderIdx])
  have hbx : (rd s (.node jy)).right ≠ .node jx :=
    hbpOut jx (fun hc => hBneqx jx hc rfl)
  have hby : (rd s (.node jy)).right ≠ .node jy :=
    hbpOut jy (fun hc => hBneqy jy hc rfl)
  have hblt : ∀ jb', (rd s (.node jy)).right = .node jb' → jb' < s.nodes.length := by
    intro jb' hb
    cases B with
    | leaf =>
      rw [(hB : (rd s (Ptr.node jy)).right = Ptr.null)] at hb
      exact absurd hb (by simp)
    | node B1 jb B2 =>
      rw [hB.1] at hb
      injection hb with hh
      subst hh
      exact hB.2.1
  have hpx : pp ≠ .node jx := fun he => hppn jx he hmemx
  have hpy : pp ≠ .node jy := fun he => hppn jy he hmemy
  have hpb : ∀ j : Nat, (rd s (.node jy)).right = .node j → pp ≠ .node j := by
    intro j hb he
    cases B with
    | leaf =>
      rw [(hB : (rd s (Ptr.node jy)).right = Ptr.null)] at hb
      exact absurd hb (by simp)
    | node B1 jb B2 =>
      rw [hB.1] at hb
      injection hb with hh
      subst hh
      exact hppn _ he (hmemB _ (by simp [inorderIdx]))
  obtain ⟨c1, c2, c3, c4, c5, c6, c7, c8⟩ :=
    rotateRight_rd s jx jy ((rd s (.node jy)).right) pp hyl rfl hxpar hxlt hylt hxy
      hbx hby hpx hpy hpb hblt hplt
  have hfrIn : ∀ j : Nat, j ∈ inorderIdx (ITree.node (.node C jy B) jx A) →
      j ≠ jx → j ≠ jy → (rd s (.node jy)).right ≠ .node j →
      rd (TreeRotateRight s (.node jx)).1 (.node j) = rd s (.node j) := by
    intro j hjmem h1 h2 h3
    exact c6 (.node j) (by simp [h1]) (by simp [h2]) (Ne.symm h3)
      (fun he => hppn j he.symm hjmem)
  have hlenS : s.nodes.length ≤ (TreeRotateRight s (.node jx)).1.nodes.length := by
    rw [c8]
  have hfrA : ∀ j ∈ inorderIdx A,
      rd (TreeRotateRight s (.node jx)).1 (.node j) = rd s (.node j) := by
    intro j hj
    exact hfrIn j (hmemA j hj) (hAneqx j hj) (hAneqy j hj)
      (hbpOut j (fun hc =>
        hdisjL (show j ∈ inorderIdx C ++ jy :: inorderIdx B by simp [hc])
          (show j ∈ jx :: inorderIdx A by simp [hj])))
  have hfrC : ∀ j ∈ inorderIdx C,
      rd (TreeRotateRight s (.node jx)).1 (.node j) = rd s (.node j) := by
    intro j hj
    exact hfrIn j (hmemC j hj) (hCneqx j hj) (hCneqy j hj)
      (hbpOut j (fun hc => hdisjC hj (by simp [hc])))
  have hA' : reprT (TreeRotateRight s (.node jx)).1 A ((rd s (.node jx)).right)
      (.node jx) := reprT_frame s _ hlenS A hfrA _ _ hA
  have hC' : reprT (TreeRotateRight s (.node jx)).1 C ((rd s (.node jy)).left)
      (.node jy) := reprT_frame s _ hlenS C hfrC _ _ hC
  have hB' : reprT (TreeRotateRight s (.node jx)).1 B ((rd s (.node jy)).right)
      (.node jx) := by
    cases B with
    | leaf => exact hB
    | node B1 jb B2 =>
      obtain ⟨hbp1, hblt1, hblive1, hbpar1, hB1, hB2⟩ := hB
      obtain ⟨hndB1, hndjbB2, hdisjB1⟩ := List.nodup_append.mp hndB
      obtain ⟨hjbB2, hndB2⟩ := List.nodup_cons.mp hndjbB2
      have hc4 := c4 jb hbp1
      have hfrB12 : ∀ j : Nat, (j ∈ inorderIdx B1 ∨ j ∈ inorderIdx B2) →
          rd (TreeRotateRight s (.node jx)).1 (.node j) = rd s (.node j) := by
        intro j hj
        have hjB : j ∈ inorderIdx (ITree.node B1 jb B2) := by
          simp [inorderIdx]; tauto
        refine hfrIn j (hmemB j hjB) (hBneqx j hjB) (hBneqy j hjB) ?_
        rw [hbp1]
        simp only [ne_eq, Ptr.node.injEq]
        intro he
        rcases hj with hj | hj
        · exact hdisjB1 hj (by simp [← he])
        · exact hjbB2 (by rw [he]; exact hj)
      refine ⟨hbp1, by omega, ?_, ?_, ?_, ?_⟩
      · rw [hc4]; exact hblive1
      · rw [hc4]
      · rw [hc4]
        exact reprT_frame s _ hlenS B1 (fun j hj => hfrB12 j (Or.inl hj)) _ _ hB1
      · rw [hc4]
        exact reprT_frame s _ hlenS B2 (fun j hj => hfrB12 j (Or.inr hj)) _ _ hB2
  refine ⟨c1, ?_, c7, c8, ?_, ?_⟩
  · refine ⟨rfl, by omega, ?_, ?_, ?_, ?_⟩
    · rw [c3]; exact hylive
    · rw [c3]
    · rw [c3]; exact hC'
    · rw [c3]
      show reprT (TreeRotateRight s (.node jx)).1 (.node B jx A) (.node jx) (.node jy)
      refine ⟨rfl, by omega, ?_, ?_, ?_, ?_⟩
      · rw [c2]; exact hxlive
      · rw [c2]
      · rw [c2]; exact hB'
      · rw [c2]; exact hA'
  · intro j hjn hppj
    refine c6 (.node j) ?_ ?_ ?_ (Ne.symm hppj)
    · simp only [ne_eq, Ptr.node.injEq]
      intro he
      exact hjn (by rw [he]; exact hmemx)
    · simp only [ne_eq, Ptr.node.injEq]
      intro he
      exact hjn (by rw [he]; exact hmemy)
    · refine Ne.symm (hbpOut j ?_)
      intro hc
      exact hjn (hmemB j hc)
  · intro jp hppv
    have h5 := c5 jp hppv
    refine ⟨?_, ?_, ?_, ?_⟩
    · by_cases hcl : (rd s (.node jp)).left = .node jx
      · rw [(h5.1 hcl)]
      · rw [(h5.2 hcl)]
    · by_cases hcl : (rd s (.node jp)).left = .node jx
      · rw [(h5.1 hcl)]
      · rw [(h5.2 hcl)]
    · intro hcl
      rw [(h5.1 hcl)]
      exact ⟨rfl, rfl⟩
    · intro hcl
      rw [(h5.2 hcl)]
      exact ⟨rfl, rfl⟩

/-- Rotating left at the subtree sitting at path `σ` of a represented tree:
the whole tree is re-represented with the rotated subtree replaced in place,
the arena, root field and all other nodes untouched. -/
theorem rotateLeft_at (s : Mem) (T : ITree) (σ : List Dir) (A B C : ITree)
    (jx jy : Nat) (rtp : Ptr)
    (hT : reprT s T rtp .null) (hnd : (inorderIdx T).Nodup)
    (hsub : subAt T σ = some (.node A jx (.node B jy C))) :
    (TreeRotateLeft s (.node jx)).2 = .node jy
    ∧ reprT (TreeRotateLeft s (.node jx)).1
        (replaceAt T σ (.node (.node A jx B) jy C))
        (if σ = [] then .node jy else rtp) .null
    ∧ (TreeRotateLeft s (.node jx)).1.root = s.root
    ∧ (TreeRotateLeft s (.node jx)).1.nodes.length = s.nodes.length
    ∧ (∀ j : Nat, j ∉ inorderIdx (.node A jx (.node B jy C)) →
        parAt T σ .null ≠ some (.node j) →
        rd (TreeRotateLeft s (.node jx)).1 (.node j) = rd s (.node j)) := by
  obtain ⟨pp, hppAt, hrepSub⟩ := reprT_parAt s σ T rtp .null hT _ hsub
  have hndsub := subAt_nodup T σ _ hsub hnd
  rcases List.eq_nil_or_concat σ with hσ | ⟨σp, d, hσ⟩
  · subst hσ
    simp only [subAt, Option.some_inj] at hsub
    subst hsub
    simp only [parAt, Option.some_inj] at hppAt
    have hppv : pp = Ptr.null := hppAt.symm
    subst hppv
    obtain ⟨c1, crep, croot, clen, cfr, _⟩ :=
      rotateLeft_sub_repr s A B C jx jy .null hrepSub hndsub
        (fun j he => absurd he (by simp)) (fun jp he => absurd he (by simp))
    refine ⟨c1, ?_, croot, clen, ?_⟩
    · rw [show replaceAt (ITree.node A jx (.node B jy C)) []
        (ITree.node (.node A jx B) jy C) = ITree.node (.node A jx B) jy C
        from by simp [replaceAt], if_pos rfl]
      exact crep
    · intro j hjn _
      exact cfr j hjn (by simp)
  · rw [List.concat_eq_append] at hσ
    subst hσ
    obtain ⟨P, jp, Q, hsubp, hdP, hdQ⟩ := subAt_snoc T σp d _ hsub
    have hparSnoc := parAt_snoc T σp d .null P jp Q hsubp
    have hppv : pp = .node jp := by
      rw [hparSnoc] at hppAt
      exact (Option.some_inj.mp hppAt).symm
    subst hppv
    obtain ⟨pp2, hppAt2, hrepPar⟩ := reprT_parAt s σp T rtp .null hT _ hsubp
    obtain ⟨_, hjplt, _, _, hPrep, hQrep⟩ := hrepPar
    have hndPQ := subAt_nodup T σp _ hsubp hnd
    simp only [inorderIdx] at hndPQ
    obtain ⟨hndP, hndjpQ, hdisjPQ⟩ := List.nodup_append.mp hndPQ
    obtain ⟨hjpQ, hndQ⟩ := List.nodup_cons.mp hndjpQ
    have hppn' : ∀ j, Ptr.node jp = Ptr.node j →
        j ∉ inorderIdx (ITree.node A jx (.node B jy C)) := by
      intro j he
      injection he with he'
      subst he'
      cases d with
      | L =>
        rw [hdP rfl]
        intro hc
        exact hdisjPQ hc (by simp)
      | R =>
        rw [hdQ rfl]
        exact hjpQ
    have hplt' : ∀ jp', Ptr.node jp = Ptr.node jp' → jp' < s.nodes.length := by
      intro jp' he
      injection he with he'
      subst he'
      exact hjplt
    obtain ⟨c1, crep, croot, clen, cfr, cpp⟩ :=
      rotateLeft_sub_repr s A B C jx jy (.node jp) hrepSub hndsub hppn' hplt'
    refine ⟨c1, ?_, croot, clen, ?_⟩
    · rw [if_neg (by simp)]
      cases d with
      | L =>
        have hPs : P = ITree.node A jx (.node B jy C) := (hdP rfl).symm
        subst hPs
        have hleft : (rd s (.node jp)).left = .node jx := hPrep.1
        refine reprT_graft s _ (le_of_eq clen.symm) .L σp T _ Q jp rtp .null hsubp hT
          hnd (ITree.node (.node A jx B) jy C) _ rfl ?_ (cpp jp rfl).1
          (cpp jp rfl).2.1 ?_ (by intro h; cases h) crep
        · intro j hj hjw hjp
          exact cfr j hjw (by simp [Ne.symm hjp])
        · intro _
          exact ((cpp jp rfl).2.2.1 hleft)
      | R =>
        have hQs : Q = ITree.node A jx (.node B jy C) := (hdQ rfl).symm
        subst hQs
        have hright : (rd s (.node jp)).right = .node jx := hQrep.1
        have hleftne : (rd s (.node jp)).left ≠ .node jx := by
          cases P with
          | leaf =>
            rw [(hPrep : (rd s (Ptr.node jp)).left = Ptr.null)]
            simp
          | node P1 jP P2 =>
            rw [hPrep.1]
            simp only [ne_eq, Ptr.node.injEq]
            intro he
            subst he
            exact hdisjPQ
              (show jP ∈ inorderIdx (ITree.node P1 jP P2) by simp [inorderIdx])
              (show jP ∈ jp :: inorderIdx (ITree.node A jP (ITree.node B jy C)) by
                simp [inorderIdx])
        refine reprT_graft s _ (le_of_eq clen.symm) .R σp T P _ jp rtp .null hsubp hT
          hnd (ITree.node (.node A jx B) jy C) _ rfl ?_ (cpp jp rfl).1
          (cpp jp rfl).2.1 (by intro h; cases h) ?_ crep
        · intro j hj hjw hjp
          exact cfr j hjw (by simp [Ne.symm hjp])
        · intro _
          exact ((cpp jp rfl).2.2.2 hleftne)
    · intro j hjn hpar
      rw [hparSnoc] at hpar
      refine cfr j hjn ?_
      simp only [ne_eq, Ptr.node.injEq]
      intro he
      exact hpar (by rw [he])

/-- Mirror of `rotateLeft_at` for `TreeRotateRight`. -/
theorem rotateRight_at (s : Mem) (T : ITree) (σ : List Dir) (A B C : ITree)
    (jx jy : Nat) (rtp : Ptr)
    (hT : reprT s T rtp .null) (hnd : (inorderIdx T).Nodup)
    (hsub : subAt T σ = some (.node (.node C jy B) jx A)) :
    (TreeRotateRight s (.node jx)).2 = .node jy
    ∧ reprT (TreeRotateRight s (.node jx)).1
        (replaceAt T σ (.node C jy (.node B jx A)))
        (if σ = [] then .node jy else rtp) .null
    ∧ (TreeRotateRight s (.node jx)).1.root = s.root
    ∧ (TreeRotateRight s (.node jx)).1.nodes.length = s.nodes.length
    ∧ (∀ j : Nat, j ∉ inorderIdx (.node (.node C jy B) jx A) →
        parAt T σ .null ≠ some (.node j) →
        rd (TreeRotateRight s (.node jx)).1 (.node j) = rd s (.node j)) := by
  obtain ⟨pp, hppAt, hrepSub⟩ := reprT_parAt s σ T rtp .null hT _ hsub
  have hndsub := subAt_nodup T σ _ hsub hnd
  rcases List.eq_nil_or_concat σ with hσ | ⟨σp, d, hσ⟩
  · subst hσ
    simp only [subAt, Option.some_inj] at hsub
    subst hsub
    simp only [parAt, Option.some_inj] at hppAt
    have hppv : pp = Ptr.null := hppAt.symm
    subst hppv
    obtain ⟨c1, crep, croot, clen, cfr, _⟩ :=
      rotateRight_sub_repr s A B C jx jy .null hrepSub hndsub
        (fun j he => absurd he (by simp)) (fun jp he => absurd he (by simp))
    refine ⟨c1, ?_, croot, clen, ?_⟩
    · rw [show replaceAt (ITree.node (.node C jy B) jx A) []
        (ITree.node C jy (.node B jx A)) = ITree.node C jy (.node B jx A)
        from by simp [replaceAt], if_pos rfl]
      exact crep
    · intro j hjn _
      exact cfr j hjn (by simp)
  · rw [List.concat_eq_append] at hσ
    subst hσ
    obtain ⟨P, jp, Q, hsubp, hdP, hdQ⟩ := subAt_snoc T σp d _ hsub
    have hparSnoc := parAt_snoc T σp d .null P jp Q hsubp
    have hppv : pp = .node jp := by
      rw [hparSnoc] at hppAt
      exact (Option.some_inj.mp hppAt).symm
    subst hppv
    obtain ⟨pp2, hppAt2, hrepPar⟩ := reprT_parAt s σp T rtp .null hT _ hsubp
    obtain ⟨_, hjplt, _, _, hPrep, hQrep⟩ := hrepPar
    have hndPQ := subAt_nodup T σp _ hsubp hnd
    simp only [inorderIdx] at hndPQ
    obtain ⟨hndP, hndjpQ, hdisjPQ⟩ := List.nodup_append.mp hndPQ
    obtain ⟨hjpQ, hndQ⟩ := List.nodup_cons.mp hndjpQ
    have hppn' : ∀ j, Ptr.node jp = Ptr.node j →
        j ∉ inorderIdx (ITree.node (.node C jy B) jx A) := by
      intro j he
      injection he with he'
      subst he'
      cases d with
      | L =>
        rw [hdP rfl]
        intro hc
        exact hdisjPQ hc (by simp)
      | R =>
        rw [hdQ rfl]
        exact hjpQ
    have hplt' : ∀ jp', Ptr.node jp = Ptr.node jp' → jp' < s.nodes.length := by
      intro jp' he
      injection he with he'
      subst he'
      exact hjplt
    obtain ⟨c1, crep, croot, clen, cfr, cpp⟩ :=
      rotateRight_sub_repr s A B C jx jy (.node jp) hrepSub hndsub hppn' hplt'
    refine ⟨c1, ?_, croot, clen, ?_⟩
    · rw [if_neg (by simp)]
      cases d with
      | L =>
        have hPs : P = ITree.node (.node C jy B) jx A := (hdP rfl).symm
        subst hPs
        have hleft : (rd s (.node jp)).left = .node jx := hPrep.1
        refine reprT_graft s _ (le_of_eq clen.symm) .L σp T _ Q jp rtp .null hsubp hT
          hnd (ITree.node C jy (.node B jx A)) _ rfl ?_ (cpp jp rfl).1
          (cpp jp rfl).2.1 ?_ (by intro h; cases h) crep
        · intro j hj hjw hjp
          exact cfr j hjw (by simp [Ne.symm hjp])
        · intro _
          exact ((cpp jp rfl).2.2.1 hleft)
      | R =>
        have hQs : Q = ITree.node (.node C jy B) jx A := (hdQ rfl).symm
        subst hQs
        have hright : (rd s (.node jp)).right = .node jx := hQrep.1
        have hleftne : (rd s (.node jp)).left ≠ .node jx := by
          cases P with
          | leaf =>
            rw [(hPrep : (rd s (Ptr.node jp)).left = Ptr.null)]
            simp
          | node P1 jP P2 =>
            rw [hPrep.1]
            simp only [ne_eq, Ptr.node.injEq]
            intro he
            subst he
            exact hdisjPQ
              (show jP ∈ inorderIdx (ITree.node P1 jP P2) by simp [inorderIdx])
              (show jP ∈ jp :: inorderIdx (ITree.node (.node C jy B) jP A) by
                simp [inorderIdx])
        refine reprT_graft s _ (le_of_eq clen.symm) .R σp T P _ jp rtp .null hsubp hT
          hnd (ITree.node C jy (.node B jx A)) _ rfl ?_ (cpp jp rfl).1
          (cpp jp rfl).2.1 (by intro h; cases h) ?_ crep
        · intro j hj hjw hjp
          exact cfr j hjw (by simp [Ne.symm hjp])
        · intro _
          exact ((cpp jp rfl).2.2.2 hleftne)
    · intro j hjn hpar
      rw [hparSnoc] at hpar
      refine cfr j hjn ?_
      simp only [ne_eq, Ptr.node.injEq]
      intro he
      exact hpar (by rw [he])

/-! ## The blocks of `insert_fixup` preserve representation -/

theorem reprT_redUncleStep (s : Mem) (a b c : Ptr) (T : ITree) (p par : Ptr)
    (h : reprT s T p par) :
    reprT (redUncleStep s a b c) T p par
    ∧ (redUncleStep s a b c).root = s.root
    ∧ (redUncleStep s a b c).nodes.length = s.nodes.length := by
  unfold redUncleStep
  refine ⟨reprT_set_color _ _ _ _ _ _
      (reprT_set_color _ _ _ _ _ _ (reprT_set_color _ _ _ _ _ _ h)), ?_, ?_⟩
  · simp [set_color, wr_root]
  · simp [set_color, wr_length]

/-- `straightStep` with `IsXLeftChild = true` (rotate the grandparent right,
recolour, update the root if needed) keeps the tree represented with the same
in-order sequence. -/
theorem straightStep_repr_right (t0 : Mem) (Tc : ITree) (σg : List Dir)
    (A B C : ITree) (jg jy : Nat) (px1 : Ptr)
    (hrep : reprT t0 Tc t0.root .null) (hnd : (inorderIdx Tc).Nodup)
    (hsub : subAt Tc σg = some (.node (.node C jy B) jg A)) :
    ∃ T', reprT (straightStep t0 (.node jg) px1 true) T'
        (straightStep t0 (.node jg) px1 true).root .null
      ∧ inorderIdx T' = inorderIdx Tc
      ∧ (straightStep t0 (.node jg) px1 true).nodes.length = t0.nodes.length := by
  obtain ⟨r1, r2rep, r3root, r4len, _⟩ :=
    rotateRight_at t0 Tc σg A B C jg jy t0.root hrep hnd hsub
  refine ⟨replaceAt Tc σg (.node C jy (.node B jg A)), ?_⟩
  have hinord : inorderIdx (replaceAt Tc σg (.node C jy (.node B jg A)))
      = inorderIdx Tc := by
    obtain ⟨pre, post, hTc, hrepl⟩ :=
      inorder_replaceAt σg Tc _ hsub
    rw [hrepl, hTc]
    simp [inorderIdx]
  have hsub2 : subAt (replaceAt Tc σg (.node C jy (.node B jg A))) σg
      = some (.node C jy (.node B jg A)) := by
    have := subAt_replaceAt σg [] Tc _ (.node C jy (.node B jg A)) hsub
    rw [List.append_nil] at this
    rw [this]
    rw [show replaceAt (ITree.node (.node C jy B) jg A) [] (.node C jy (.node B jg A))
      = ITree.node C jy (.node B jg A) from by simp [replaceAt]]
  unfold straightStep
  dsimp only
  rw [if_pos rfl, r1]
  have hrep4 : reprT (set_color (set_color (TreeRotateRight t0 (Ptr.node jg)).1
      (Ptr.node jg) RBColor.RBRed) px1 RBColor.RBBk)
      (replaceAt Tc σg (.node C jy (.node B jg A)))
      (if σg = [] then Ptr.node jy else t0.root) Ptr.null :=
    reprT_set_color _ _ _ _ _ _ (reprT_set_color _ _ _ _ _ _ r2rep)
  have hroot4 : (set_color (set_color (TreeRotateRight t0 (Ptr.node jg)).1
      (Ptr.node jg) RBColor.RBRed) px1 RBColor.RBBk).root = t0.root := by
    simp [set_color, wr_root, r3root]
  have hlen4 : (set_color (set_color (TreeRotateRight t0 (Ptr.node jg)).1
      (Ptr.node jg) RBColor.RBRed) px1 RBColor.RBBk).nodes.length
      = t0.nodes.length := by
    simp [set_color, wr_length, r4len]
  obtain ⟨pp2, hppAt2, hrepu2⟩ :=
    reprT_parAt (set_color (set_color (TreeRotateRight t0 (Ptr.node jg)).1
      (Ptr.node jg) RBColor.RBRed) px1 RBColor.RBBk) σg _ _ _ hrep4 _ hsub2
  have hpar2 : (rd (set_color (set_color (TreeRotateRight t0 (Ptr.node jg)).1
      (Ptr.node jg) RBColor.RBRed) px1 RBColor.RBBk) (.node jy)).parent = pp2 :=
    hrepu2.2.2.2.1
  rcases List.eq_nil_or_concat σg with hσ | ⟨σ3, d3, hσ⟩
  · subst hσ
    simp only [parAt, Option.some_inj] at hppAt2
    rw [hpar2, ← hppAt2, if_pos rfl]
    refine ⟨?_, hinord, hlen4⟩
    exact reprT_root_update _ _ _ _ _ (by simpa using hrep4)
  · rw [List.concat_eq_append] at hσ
    subst hσ
    obtain ⟨l3, j3, r3, hsub3, _, _⟩ := subAt_snoc _ σ3 d3 _ hsub2
    have hpar3 := parAt_snoc _ σ3 d3 Ptr.null l3 j3 r3 hsub3
    rw [hpar3] at hppAt2
    have hpp2v : pp2 = .node j3 := (Option.some_inj.mp hppAt2).symm
    rw [hpar2, hpp2v, if_neg (by simp)]
    refine ⟨?_, hinord, hlen4⟩
    rw [hroot4]
    simpa [if_neg (show ¬ (σ3 ++ [d3] = []) by simp)] using hrep4

/-- Mirror: `straightStep` with `IsXLeftChild = false` rotates the
grandparent left. -/
theorem straightStep_repr_left (t0 : Mem) (Tc : ITree) (σg : List Dir)
    (A B C : ITree) (jg jy : Nat) (px1 : Ptr)
    (hrep : reprT t0 Tc t0.root .null) (hnd : (inorderIdx Tc).Nodup)
    (hsub : subAt Tc σg = some (.node A jg (.node B jy C))) :
    ∃ T', reprT (straightStep t0 (.node jg) px1 false) T'
        (straightStep t0 (.node jg) px1 false).root .null
      ∧ inorderIdx T' = inorderIdx Tc
      ∧ (straightStep t0 (.node jg) px1 false).nodes.length = t0.nodes.length := by
  obtain ⟨r1, r2rep, r3root, r4len, _⟩ :=
    rotateLeft_at t0 Tc σg A B C jg jy t0.root hrep hnd hsub
  refine ⟨replaceAt Tc σg (.node (.node A jg B) jy C), ?_⟩
  have hinord : inorderIdx (replaceAt Tc σg (.node (.node A jg B) jy C))
      = inorderIdx Tc := by
    obtain ⟨pre, post, hTc, hrepl⟩ :=
      inorder_replaceAt σg Tc _ hsub
    rw [hrepl, hTc]
    simp [inorderIdx]
  have hsub2 : subAt (replaceAt Tc σg (.node (.node A jg B) jy C)) σg
      = some (.node (.node A jg B) jy C) := by
    have := subAt_replaceAt σg [] Tc _ (.node (.node A jg B) jy C) hsub
    rw [List.append_nil] at this
    rw [this]
    rw [show replaceAt (ITree.node A jg (.node B jy C)) [] (.node (.node A jg B) jy C)
      = ITree.node (.node A jg B) jy C from by simp [replaceAt]]
  unfold straightStep
  dsimp only
  rw [if_neg (show ¬ (false = true) by simp), r1]
  have hrep4 : reprT (set_color (set_color (TreeRotateLeft t0 (Ptr.node jg)).1
      (Ptr.node jg) RBColor.RBRed) px1 RBColor.RBBk)
      (replaceAt Tc σg (.node (.node A jg B) jy C))
      (if σg = [] then Ptr.node jy else t0.root) Ptr.null :=
    reprT_set_color _ _ _ _ _ _ (reprT_set_color _ _ _ _ _ _ r2rep)
  have hroot4 : (set_color (set_color (TreeRotateLeft t0 (Ptr.node jg)).1
      (Ptr.node jg) RBColor.RBRed) px1 RBColor.RBBk).root = t0.root := by
    simp [set_color, wr_root, r3root]
  have hlen4 : (set_color (set_color (TreeRotateLeft t0 (Ptr.node jg)).1
      (Ptr.node jg) RBColor.RBRed) px1 RBColor.RBBk).nodes.length
      = t0.nodes.length := by
    simp [set_color, wr_length, r4len]
  obtain ⟨pp2, hppAt2, hrepu2⟩ :=
    reprT_parAt (set_color (set_color (TreeRotateLeft t0 (Ptr.node jg)).1
      (Ptr.node jg) RBColor.RBRed) px1 RBColor.RBBk) σg _ _ _ hrep4 _ hsub2
  have hpar2 : (rd (set_color (set_color (TreeRotateLeft t0 (Ptr.node jg)).1
      (Ptr.node jg) RBColor.RBRed) px1 RBColor.RBBk) (.node jy)).parent = pp2 :=
    hrepu2.2.2.2.1
  rcases List.eq_nil_or_concat σg with hσ | ⟨σ3, d3, hσ⟩
  · subst hσ
    simp only [parAt, Option.some_inj] at hppAt2
    rw [hpar2, ← hppAt2, if_pos rfl]
    refine ⟨?_, hinord, hlen4⟩
    exact reprT_root_update _ _ _ _ _ (by simpa using hrep4)
  · rw [List.concat_eq_append] at hσ
    subst hσ
    obtain ⟨l3, j3, r3, hsub3, _, _⟩ := subAt_snoc _ σ3 d3 _ hsub2
    have hpar3 := parAt_snoc _ σ3 d3 Ptr.null l3 j3 r3 hsub3
    rw [hpar3] at hppAt2
    have hpp2v : pp2 = .node j3 := (Option.some_inj.mp hppAt2).symm
    rw [hpar2, hpp2v, if_neg (by simp)]
    refine ⟨?_, hinord, hlen4⟩
    rw [hroot4]
    simpa [if_neg (show ¬ (σ3 ++ [d3] = []) by simp)] using hrep4

/-- The fix-up loop of insertion preserves the representation and the
in-order sequence of arena indices. -/
theorem insert_fixupLoop_repr (I0 : List Nat) (hndI0 : I0.Nodup) :
    ∀ (fuel : Nat) (s : Mem) (T : ITree) (x px : Ptr),
      reprT s T s.root .null → inorderIdx T = I0 →
      (∃ ix, x = .node ix ∧ ix ∈ I0) →
      px = (rd s x).parent →
      ∃ T', reprT (insert_fixupLoop s fuel x px) T'
          (insert_fixupLoop s fuel x px).root .null
        ∧ inorderIdx T' = I0
        ∧ (insert_fixupLoop s fuel x px).nodes.length = s.nodes.length := by
  intro fuel
  induction fuel with
  | zero =>
    intro s T x px hrepr hI0 _ _
    exact ⟨T, hrepr, hI0, rfl⟩
  | succ fuel ih =>
    intro s T x px hrepr hI0 hx hpx
    obtain ⟨ix, hxeq, hixmem⟩ := hx
    subst hxeq
    subst hpx
    have hnd : (inorderIdx T).Nodup := hI0 ▸ hndI0
    obtain ⟨πx, A, B, hπx⟩ := mem_subAt T ix (hI0 ▸ hixmem)
    obtain ⟨ppx, hparx, hrepx⟩ := reprT_parAt s πx T s.root .null hrepr _ hπx
    have hxpar : (rd s (.node ix)).parent = ppx := hrepx.2.2.2.1
    simp only [insert_fixupLoop]
    rw [hxpar]
    rcases List.eq_nil_or_concat πx with hn | ⟨πp, d1, hcat⟩
    · subst hn
      simp only [parAt, Option.some_inj] at hparx
      rw [← hparx]
      rw [if_neg (by simp)]
      exact ⟨T, hrepr, hI0, rfl⟩
    · rw [List.concat_eq_append] at hcat
      subst hcat
      obtain ⟨l1, jpx, r1, hπp, hd1L, hd1R⟩ := subAt_snoc T πp d1 _ hπx
      have hparx2 := parAt_snoc T πp d1 .null l1 jpx r1 hπp
      have hppxv : ppx = .node jpx := by
        rw [hparx2] at hparx
        exact (Option.some_inj.mp hparx).symm
      subst hppxv
      by_cases hcRed : color_of s (.node jpx) = .RBRed
      case neg =>
        rw [if_neg (fun hcc => hcRed hcc.2)]
        exact ⟨T, hrepr, hI0, rfl⟩
      case pos =>
      rw [if_pos ⟨by simp, hcRed⟩]
      obtain ⟨ppp, hparp, hrepp⟩ := reprT_parAt s πp T s.root .null hrepr _ hπp
      have hpxpar : (rd s (.node jpx)).parent = ppp := hrepp.2.2.2.1
      rw [hpxpar]
      rcases List.eq_nil_or_concat πp with hn | ⟨πg, d2, hcat⟩
      · subst hn
        simp only [parAt, Option.some_inj] at hparp
        rw [← hparp, if_pos rfl]
        exact ⟨T, hrepr, hI0, rfl⟩
      · rw [List.concat_eq_append] at hcat
        subst hcat
        obtain ⟨l2, jgx, r2, hπg, hd2L, hd2R⟩ := subAt_snoc T πg d2 _ hπp
        have hparp2 := parAt_snoc T πg d2 .null l2 jgx r2 hπg
        have hpppv : ppp = .node jgx := by
          rw [hparp2] at hparp
          exact (Option.some_inj.mp hparp).symm
        subst hpppv
        rw [if_neg (by simp)]
        have hjgxmem : jgx ∈ inorderIdx T :=
          subAt_mem_subset T πg _ hπg jgx (by simp [inorderIdx])
        have hl1rep : reprT s l1 ((rd s (.node jpx)).left) (.node jpx) :=
          hrepp.2.2.2.2.1
        have hr1rep : reprT s r1 ((rd s (.node jpx)).right) (.node jpx) :=
          hrepp.2.2.2.2.2
        have hl2rep : reprT s l2 ((rd s (.node jgx)).left) (.node jgx) :=
          (reprT_parAt s πg T s.root .null hrepr _ hπg).choose_spec.2.2.2.2.2.1
        have hr2rep : reprT s r2 ((rd s (.node jgx)).right) (.node jgx) :=
          (reprT_parAt s πg T s.root .null hrepr _ hπg).choose_spec.2.2.2.2.2.2
        have hndg := subAt_nodup T πg _ hπg hnd
        have hndp := subAt_nodup T _ _ hπp hnd
        simp only [inorderIdx] at hndg hndp
        obtain ⟨hndl2, hndjgr2, hdisjg⟩ := List.nodup_append.mp hndg
        obtain ⟨hjgr2, hndr2⟩ := List.nodup_cons.mp hndjgr2
        obtain ⟨hndl1, hndjpr1, hdisjp⟩ := List.nodup_append.mp hndp
        obtain ⟨hjpr1, hndr1⟩ := List.nodup_cons.mp hndjpr1
        cases d2 with
        | L =>
          have hl2v : l2 = .node l1 jpx r1 := (hd2L rfl).symm
          subst hl2v
          have hgl : (rd s (.node jgx)).left = .node jpx := hl2rep.1
          rw [hgl, if_pos rfl]
          dsimp only
          by_cases hcu : color_of s ((rd s (.node jgx)).right) = .RBBk
          case neg =>
            rw [if_neg (show ¬ (color_of s ((rd s (.node jgx)).right) = RBColor.RBBk
              ∧ decide (Ptr.node ix = (rd s (.node jpx)).left) = false)
              from fun hcc => hcu hcc.1)]
            dsimp only
            rw [if_neg hcu]
            obtain ⟨hrep4, hroot4, hlen4⟩ :=
              reprT_redUncleStep s (.node jpx) ((rd s (.node jgx)).right)
                (.node jgx) T s.root .null hrepr
            obtain ⟨T', h1', h2', h3'⟩ := ih _ T (.node jgx) _
              (by rw [hroot4]; exact hrep4) hI0 ⟨jgx, rfl, hI0 ▸ hjgxmem⟩ rfl
            exact ⟨T', h1', h2', by rw [h3', hlen4]⟩
          case pos =>
          cases d1 with
          | L =>
            -- straight LL: no zig, rotate the grandparent right
            have hl1v : l1 = .node A ix B := (hd1L rfl).symm
            subst hl1v
            have hpl : (rd s (.node jpx)).left = .node ix := hl1rep.1
            rw [hpl]
            rw [show decide (Ptr.node ix = Ptr.node ix) = true from by simp]
            rw [if_neg (show ¬ (color_of s ((rd s (.node jgx)).right) = RBColor.RBBk
              ∧ (true : Bool) = false) from fun hcc => by simpa using hcc.2)]
            dsimp only
            rw [if_pos hcu]
            obtain ⟨T', h1', h2', h3'⟩ :=
              straightStep_repr_right s T πg r2 r1 (.node A ix B) jgx jpx
                (.node jpx) hrepr hnd hπg
            exact ⟨T', h1', by rw [h2', hI0], h3'⟩
          | R =>
            -- zig RL: rotate the parent left, then the grandparent right
            have hr1v : r1 = .node A ix B := (hd1R rfl).symm
            subst hr1v
            have hxnotleft : Ptr.node ix ≠ (rd s (.node jpx)).left := by
              cases l1 with
              | leaf =>
                rw [(hl1rep : (rd s (Ptr.node jpx)).left = Ptr.null)]
                simp
              | node l1a jl l1b =>
                rw [hl1rep.1]
                simp only [ne_eq, Ptr.node.injEq]
                intro he
                exact hdisjp (show jl ∈ inorderIdx (ITree.node l1a jl l1b) by
                    simp [inorderIdx])
                  (by rw [← he]; simp [inorderIdx])
            rw [show decide (Ptr.node ix = (rd s (.node jpx)).left) = false from by
              simp [hxnotleft]]
            rw [if_pos (show color_of s ((rd s (.node jgx)).right) = RBColor.RBBk
              ∧ (false : Bool) = false from ⟨hcu, rfl⟩)]
            unfold zigStep
            dsimp only
            rw [if_pos rfl]
            obtain ⟨z1, z2rep, z3root, z4len, z5fr⟩ :=
              rotateLeft_at s T (πg ++ [Dir.L]) l1 A B jpx ix s.root hrepr hnd hπp
            have hinord1 : inorderIdx (replaceAt T (πg ++ [Dir.L]) (.node (.node l1 jpx A) ix B))
                = inorderIdx T := by
              obtain ⟨pre, post, hTc, hrepl⟩ := inorder_replaceAt (πg ++ [Dir.L]) T _ hπp
              rw [hrepl, hTc]
              simp [inorderIdx]
            have hnd1 : (inorderIdx (replaceAt T (πg ++ [Dir.L])
                (.node (.node l1 jpx A) ix B))).Nodup := by
              rw [hinord1]; exact hnd
            have hrep1 : reprT (TreeRotateLeft s (Ptr.node jpx)).1
                (replaceAt T (πg ++ [Dir.L]) (.node (.node l1 jpx A) ix B))
                (TreeRotateLeft s (Ptr.node jpx)).1.root Ptr.null := by
              rw [z3root]
              rw [if_neg (show ¬ (πg ++ [Dir.L] = []) by simp)] at z2rep
              exact z2rep
            have hsubT1 : subAt (replaceAt T (πg ++ [Dir.L]) (.node (.node l1 jpx A) ix B)) (πg ++ [Dir.L])
                = some (.node (.node l1 jpx A) ix B) := by
              have := subAt_replaceAt (πg ++ [Dir.L]) [] T _ (.node (.node l1 jpx A) ix B) hπp
              rw [List.append_nil] at this
              rw [this]
              rw [show replaceAt (ITree.node l1 jpx (.node A ix B)) []
                (.node (.node l1 jpx A) ix B) = ITree.node (.node l1 jpx A) ix B
                from by simp [replaceAt]]
            obtain ⟨ppz, hppz, hrepz⟩ :=
              reprT_parAt (TreeRotateLeft s (Ptr.node jpx)).1 (πg ++ [Dir.L]) _ _ _
                hrep1 _ hsubT1
            have hzl : (rd (TreeRotateLeft s (Ptr.node jpx)).1 (.node ix)).left
                = .node jpx := hrepz.2.2.2.2.1.1
            rw [hzl]
            rw [show decide (Ptr.node jpx = Ptr.node jpx) = true from by simp]
            have hcolorpres : color_of (TreeRotateLeft s (Ptr.node jpx)).1
                ((rd s (.node jgx)).right) = color_of s ((rd s (.node jgx)).right) := by
              cases r2 with
              | leaf =>
                rw [(hr2rep : (rd s (Ptr.node jgx)).right = Ptr.null)]
                rfl
              | node r2a jux r2b =>
                rw [hr2rep.1]
                show (rd _ (Ptr.node jux)).color = (rd s (Ptr.node jux)).color
                rw [z5fr jux ?_ ?_]
                · intro hc
                  exact hdisjg hc
                    (show jux ∈ jgx :: inorderIdx (ITree.node r2a jux r2b) by
                      simp [inorderIdx])
                · rw [hparp2]
                  simp only [ne_eq, Option.some_inj, Ptr.node.injEq]
                  intro he
                  exact hjgr2 (by rw [he]; simp [inorderIdx])
            rw [if_pos (by rw [hcolorpres]; exact hcu)]
            have hsubT1g : subAt (replaceAt T (πg ++ [Dir.L]) (.node (.node l1 jpx A) ix B)) πg
                = some (.node (.node (.node l1 jpx A) ix B) jgx r2) := by
              have := subAt_replaceAt πg [Dir.L] T _
                (.node (.node l1 jpx A) ix B) hπg
              rw [this]
              rw [show replaceAt (ITree.node (.node l1 jpx (.node A ix B)) jgx r2)
                [Dir.L] (.node (.node l1 jpx A) ix B)
                = ITree.node (.node (.node l1 jpx A) ix B) jgx r2
                from by simp [replaceAt]]
            obtain ⟨T', h1', h2', h3'⟩ :=
              straightStep_repr_right (TreeRotateLeft s (Ptr.node jpx)).1
                (replaceAt T (πg ++ [Dir.L]) (.node (.node l1 jpx A) ix B)) πg r2 B
                (.node l1 jpx A) jgx ix (.node ix) hrep1 hnd1 hsubT1g
            refine ⟨T', h1', by rw [h2', hinord1, hI0], by rw [h3', z4len]⟩
        | R =>
          have hr2v : r2 = .node l1 jpx r1 := (hd2R rfl).symm
          subst hr2v
          have hgr : (rd s (.node jgx)).right = .node jpx := hr2rep.1
          have hglne : Ptr.node jpx ≠ (rd s (.node jgx)).left := by
            cases l2 with
            | leaf =>
              rw [(hl2rep : (rd s (Ptr.node jgx)).left = Ptr.null)]
              simp
            | node l2a jl2 l2b =>
              rw [hl2rep.1]
              simp only [ne_eq, Ptr.node.injEq]
              intro he
              exact hdisjg (show jl2 ∈ inorderIdx (ITree.node l2a jl2 l2b) by
                  simp [inorderIdx])
                (by rw [← he]; simp [inorderIdx])
          rw [if_neg (fun hcc => hglne hcc)]
          dsimp only
          by_cases hcu : color_of s ((rd s (.node jgx)).left) = .RBBk
          case neg =>
            rw [if_neg (show ¬ (color_of s ((rd s (.node jgx)).left) = RBColor.RBBk
              ∧ decide (Ptr.node ix = (rd s (.node jpx)).left) = true)
              from fun hcc => hcu hcc.1)]
            dsimp only
            rw [if_neg hcu]
            obtain ⟨hrep4, hroot4, hlen4⟩ :=
              reprT_redUncleStep s (.node jpx) ((rd s (.node jgx)).left)
                (.node jgx) T s.root .null hrepr
            obtain ⟨T', h1', h2', h3'⟩ := ih _ T (.node jgx) _
              (by rw [hroot4]; exact hrep4) hI0 ⟨jgx, rfl, hI0 ▸ hjgxmem⟩ rfl
            exact ⟨T', h1', h2', by rw [h3', hlen4]⟩
          case pos =>
          cases d1 with
          | R =>
            -- straight RR: no zig, rotate the grandparent left
            have hr1v : r1 = .node A ix B := (hd1R rfl).symm
            subst hr1v
            have hxnotleft : Ptr.node ix ≠ (rd s (.node jpx)).left := by
              cases l1 with
              | leaf =>
                rw [(hl1rep : (rd s (Ptr.node jpx)).left = Ptr.null)]
                simp
              | node l1a jl l1b =>
                rw [hl1rep.1]
                simp only [ne_eq, Ptr.node.injEq]
                intro he
                exact hdisjp (show jl ∈ inorderIdx (ITree.node l1a jl l1b) by
                    simp [inorderIdx])
                  (by rw [← he]; simp [inorderIdx])
            rw [show decide (Ptr.node ix = (rd s (.node jpx)).left) = false from by
              simp [hxnotleft]]
            rw [if_neg (show ¬ (color_of s ((rd s (.node jgx)).left) = RBColor.RBBk
              ∧ (false : Bool) = true) from fun hcc => by simpa using hcc.2)]
            dsimp only
            rw [if_pos hcu]
            obtain ⟨T', h1', h2', h3'⟩ :=
              straightStep_repr_left s T πg l2 l1 (.node A ix B) jgx jpx
                (.node jpx) hrepr hnd hπg
            exact ⟨T', h1', by rw [h2', hI0], h3'⟩
          | L =>
            -- zig LR: rotate the parent right, then the grandparent left
            have hl1v : l1 = .node A ix B := (hd1L rfl).symm
            subst hl1v
            have hpl : (rd s (.node jpx)).left = .node ix := hl1rep.1
            rw [hpl]
            rw [show decide (Ptr.node ix = Ptr.node ix) = true from by simp]
            rw [if_pos (show color_of s ((rd s (.node jgx)).left) = RBColor.RBBk
              ∧ (true : Bool) = true from ⟨hcu, rfl⟩)]
            unfold zigStep
            dsimp only
            rw [if_neg (show ¬ ((true : Bool) = false) by simp)]
            obtain ⟨z1, z2rep, z3root, z4len, z5fr⟩ :=
              rotateRight_at s T (πg ++ [Dir.R]) r1 B A jpx ix s.root hrepr hnd hπp
            have hinord1 : inorderIdx (replaceAt T (πg ++ [Dir.R]) (.node A ix (.node B jpx r1)))
                = inorderIdx T := by
              obtain ⟨pre, post, hTc, hrepl⟩ := inorder_replaceAt (πg ++ [Dir.R]) T _ hπp
              rw [hrepl, hTc]
              simp [inorderIdx]
            have hnd1 : (inorderIdx (replaceAt T (πg ++ [Dir.R])
                (.node A ix (.node B jpx r1)))).Nodup := by
              rw [hinord1]; exact hnd
            have hrep1 : reprT (TreeRotateRight s (Ptr.node jpx)).1
                (replaceAt T (πg ++ [Dir.R]) (.node A ix (.node B jpx r1)))
                (TreeRotateRight s (Ptr.node jpx)).1.root Ptr.null := by
              rw [z3root]
              rw [if_neg (show ¬ (πg ++ [Dir.R] = []) by simp)] at z2rep
              exact z2rep
            have hsubT1 : subAt (replaceAt T (πg ++ [Dir.R]) (.node A ix (.node B jpx r1))) (πg ++ [Dir.R])
                = some (.node A ix (.node B jpx r1)) := by
              have := subAt_replaceAt (πg ++ [Dir.R]) [] T _ (.node A ix (.node B jpx r1)) hπp
              rw [List.append_nil] at this
              rw [this]
              rw [show replaceAt (ITree.node (.node A ix B) jpx r1) []
                (.node A ix (.node B jpx r1)) = ITree.node A ix (.node B jpx r1)
                from by simp [replaceAt]]
            obtain ⟨ppz, hppz, hrepz⟩ :=
              reprT_parAt (TreeRotateRight s (Ptr.node jpx)).1 (πg ++ [Dir.R]) _ _ _
                hrep1 _ hsubT1
            have hzl : (rd (TreeRotateRight s (Ptr.node jpx)).1 (.node ix)).left
                = ptrOfSub A := by
              have := hrepz.2.2.2.2.1
              cases A with
              | leaf => exact this
              | node Aa ja Ab => exact this.1
            have hzlne : Ptr.node jpx
                ≠ (rd (TreeRotateRight s (Ptr.node jpx)).1 (.node ix)).left := by
              rw [hzl]
              cases A with
              | leaf => simp [ptrOfSub]
              | node Aa ja Ab =>
                simp only [ptrOfSub, ne_eq, Ptr.node.injEq]
                intro he
                exact hdisjp
                  (show jpx ∈ inorderIdx (ITree.node (.node Aa ja Ab) ix B) by
                    rw [he]; simp [inorderIdx])
                  (show jpx ∈ jpx :: inorderIdx r1 by simp)
            rw [show decide (Ptr.node jpx
                = (rd (TreeRotateRight s (Ptr.node jpx)).1 (.node ix)).left) = false
              from by simp [hzlne]]
            have hcolorpres : color_of (TreeRotateRight s (Ptr.node jpx)).1
                ((rd s (.node jgx)).left) = color_of s ((rd s (.node jgx)).left) := by
              cases l2 with
              | leaf =>
                rw [(hl2rep : (rd s (Ptr.node jgx)).left = Ptr.null)]
                rfl
              | node l2a jux l2b =>
                rw [hl2rep.1]
                show (rd _ (Ptr.node jux)).color = (rd s (Ptr.node jux)).color
                rw [z5fr jux ?_ ?_]
                · intro hc
                  exact hdisjg
                    (show jux ∈ inorderIdx (ITree.node l2a jux l2b) by
                      simp [inorderIdx])
                    (show jux ∈ jgx :: inorderIdx (ITree.node (.node A ix B) jpx r1)
                      by simp [hc])
                · rw [hparp2]
                  simp only [ne_eq, Option.some_inj, Ptr.node.injEq]
                  intro he
                  exact hdisjg
                    (show jgx ∈ inorderIdx (ITree.node l2a jux l2b) by
                      rw [he]; simp [inorderIdx])
                    (show jgx ∈ jgx :: inorderIdx (ITree.node (.node A ix B) jpx r1)
                      by simp)
            rw [if_pos (by rw [hcolorpres]; exact hcu)]
            have hsubT1g : subAt (replaceAt T (πg ++ [Dir.R]) (.node A ix (.node B jpx r1))) πg
                = some (.node l2 jgx (.node A ix (.node B jpx r1))) := by
              have := subAt_replaceAt πg [Dir.R] T _
                (.node A ix (.node B jpx r1)) hπg
              rw [this]
              rw [show replaceAt (ITree.node l2 jgx (.node (.node A ix B) jpx r1))
                [Dir.R] (.node A ix (.node B jpx r1))
                = ITree.node l2 jgx (.node A ix (.node B jpx r1))
                from by simp [replaceAt]]
            obtain ⟨T', h1', h2', h3'⟩ :=
              straightStep_repr_left (TreeRotateRight s (Ptr.node jpx)).1
                (replaceAt T (πg ++ [Dir.R]) (.node A ix (.node B jpx r1))) πg l2 A
                (.node B jpx r1) jgx ix (.node ix) hrep1 hnd1 hsubT1g
            refine ⟨T', h1', by rw [h2', hinord1, hI0], by rw [h3', z4len]⟩

/-! ## Linking the freshly created node -/

/-- On a non-empty tree the descent parent is always one of the tree's own
nodes. -/
theorem descParent_mem (s : Mem) (v : Int) :
    ∀ t : ITree, t ≠ .leaf → ∀ par : Ptr,
      ∃ m ∈ inorderIdx t, descParent s v t par = .node m := by
  intro t
  induction t with
  | leaf => intro h _; exact absurd rfl h
  | node l i r ihl ihr =>
    intro _ par
    simp only [descParent]
    by_cases h1 : v < valAt s i
    · rw [if_pos h1]
      cases l with
      | leaf =>
        exact ⟨i, by simp [inorderIdx], by simp [descParent]⟩
      | node ll li lr =>
        obtain ⟨m, hm, he⟩ := ihl (by simp) (.node i)
        refine ⟨m, ?_, he⟩
        simp only [inorderIdx, List.mem_append, List.mem_cons] at hm ⊢
        tauto
    · rw [if_neg h1]
      cases r with
      | leaf =>
        exact ⟨i, by simp [inorderIdx], by simp [descParent]⟩
      | node rl ri rr =>
        obtain ⟨m, hm, he⟩ := ihr (by simp) (.node i)
        refine ⟨m, ?_, he⟩
        simp only [inorderIdx, List.mem_append, List.mem_cons] at hm ⊢
        tauto

/-- After `create_node` and the one child-pointer write of `insert_impl`,
the linked tree is `insertT`. -/
theorem insertT_link_repr (s sF : Mem) (v : Int) (n : Nat)
    (hn : n = s.nodes.length) (hlenF : n < sF.nodes.length)
    (hnleft : (rd sF (.node n)).left = .null)
    (hnright : (rd sF (.node n)).right = .null)
    (hnlive : (rd sF (.node n)).live = true) :
    ∀ (t : ITree) (p par : Ptr), reprT s t p par → (inorderIdx t).Nodup →
      findIdx s v t = none →
      (rd sF (.node n)).parent = descParent s v t par →
      (∀ j ∈ inorderIdx t,
        (descParent s v t par = .node j →
          rd sF (.node j) = (if v < valAt s j
            then { rd s (.node j) with left := .node n }
            else { rd s (.node j) with right := .node n }))
        ∧ (descParent s v t par ≠ .node j → rd sF (.node j) = rd s (.node j))) →
      reprT sF (insertT s v n t)
        (match t with | .leaf => Ptr.node n | .node _ _ _ => p) par := by
  intro t
  induction t with
  | leaf =>
    intro p par _ _ _ hpar _
    refine ⟨rfl, hlenF, hnlive, ?_, hnleft, hnright⟩
    rw [hpar]
    rfl
  | node l i r ihl ihr =>
    intro p par hrep hnd hmiss hpar hold
    obtain ⟨hp, hilt, hilive, hipar, hl, hr⟩ := hrep
    simp only [inorderIdx] at hnd
    obtain ⟨hndl, hndir, hdisj⟩ := List.nodup_append.mp hnd
    obtain ⟨hir, hndr⟩ := List.nodup_cons.mp hndir
    have hinl : i ∉ inorderIdx l := fun hc => hdisj hc (by simp)
    simp only [findIdx] at hmiss
    by_cases h1 : v < valAt s i
    · rw [if_pos h1] at hmiss
      have hdesc : descParent s v (.node l i r) par = descParent s v l (.node i) := by
        simp [descParent, if_pos h1]
      rw [show insertT s v n (.node l i r) = .node (insertT s v n l) i r from by
        simp [insertT, if_pos h1]]
      cases l with
      | leaf =>
        have hq : descParent s v (.node .leaf i r) par = .node i := by
          simp [descParent, if_pos h1]
        have hri : rd sF (.node i) = { rd s (.node i) with left := .node n } := by
          have := (hold i (by simp [inorderIdx])).1 hq
          rwa [if_pos h1] at this
        refine ⟨hp, by omega, by rw [hri]; exact hilive, by rw [hri]; exact hipar,
          ?_, ?_⟩
        · rw [hri]
          refine ⟨rfl, hlenF, hnlive, ?_, hnleft, hnright⟩
          rw [hpar]
          exact hq
        · rw [hri]
          refine reprT_frame s sF (by omega) r ?_ _ _ hr
          intro j hj
          refine (hold j (by simp [inorderIdx, hj])).2 ?_
          rw [hq]
          simp only [ne_eq, Ptr.node.injEq]
          intro he
          exact hir (he ▸ hj)
      | node ll li lr =>
        obtain ⟨m, hm, hqm⟩ := descParent_mem s v (.node ll li lr) (by simp) (.node i)
        have hri : rd sF (.node i) = rd s (.node i) := by
          refine (hold i (by simp [inorderIdx])).2 ?_
          rw [hdesc, hqm]
          simp only [ne_eq, Ptr.node.injEq]
          intro he
          exact hinl (he ▸ hm)
        refine ⟨hp, by omega, by rw [hri]; exact hilive, by rw [hri]; exact hipar,
          ?_, ?_⟩
        · rw [hri]
          exact ihl _ (.node i) hl hndl hmiss (by rw [hpar, hdesc])
            (fun j hj => by
              have := hold j (by
                simp only [inorderIdx, List.mem_append, List.mem_cons] at hj ⊢
                tauto)
              rwa [hdesc] at this)
        · rw [hri]
          refine reprT_frame s sF (by omega) r ?_ _ _ hr
          intro j hj
          refine (hold j (by simp [inorderIdx, hj])).2 ?_
          rw [hdesc, hqm]
          simp only [ne_eq, Ptr.node.injEq]
          intro he
          exact hdisj (he ▸ hm : j ∈ inorderIdx (ITree.node ll li lr)) (by simp [hj])
    · rw [if_neg h1] at hmiss
      have h2 : valAt s i < v := by
        by_contra h2
        rw [if_neg h2] at hmiss
        cases hmiss
      rw [if_pos h2] at hmiss
      have hdesc : descParent s v (.node l i r) par = descParent s v r (.node i) := by
        simp [descParent, if_neg h1]
      rw [show insertT s v n (.node l i r) = .node l i (insertT s v n r) from by
        simp [insertT, if_neg h1, if_pos h2]]
      cases r with
      | leaf =>
        have hq : descParent s v (.node l i .leaf) par = .node i := by
          simp [descParent, if_neg h1]
        have hri : rd sF (.node i) = { rd s (.node i) with right := .node n } := by
          have := (hold i (by simp [inorderIdx])).1 hq
          rwa [if_neg (by omega)] at this
        refine ⟨hp, by omega, by rw [hri]; exact hilive, by rw [hri]; exact hipar,
          ?_, ?_⟩
        · rw [hri]
          refine reprT_frame s sF (by omega) l ?_ _ _ hl
          intro j hj
          refine (hold j (by simp [inorderIdx, hj])).2 ?_
          rw [hq]
          simp only [ne_eq, Ptr.node.injEq]
          intro he
          exact hinl (he ▸ hj)
        · rw [hri]
          refine ⟨rfl, hlenF, hnlive, ?_, hnleft, hnright⟩
          rw [hpar]
          exact hq
      | node rl ri rr =>
        obtain ⟨m, hm, hqm⟩ := descParent_mem s v (.node rl ri rr) (by simp) (.node i)
        have hri : rd sF (.node i) = rd s (.node i) := by
          refine (hold i (by simp [inorderIdx])).2 ?_
          rw [hdesc, hqm]
          simp only [ne_eq, Ptr.node.injEq]
          intro he
          exact hir (he ▸ hm)
        refine ⟨hp, by omega, by rw [hri]; exact hilive, by rw [hri]; exact hipar,
          ?_, ?_⟩
        · rw [hri]
          refine reprT_frame s sF (by omega) l ?_ _ _ hl
          intro j hj
          refine (hold j (by simp [inorderIdx, hj])).2 ?_
          rw [hdesc, hqm]
          simp only [ne_eq, Ptr.node.injEq]
          intro he
          exact hdisj hj (by
            simp only [List.mem_cons]
            right
            exact he ▸ hm)
        · rw [hri]
          exact ihr _ (.node i) hr hndr hmiss (by rw [hpar, hdesc])
            (fun j hj => by
              have := hold j (by
                simp only [inorderIdx, List.mem_append, List.mem_cons] at hj ⊢
                tauto)
              rwa [hdesc] at this)

/-- The linked tree's in-order indices are the old ones plus `n`. -/
theorem insertT_perm (s : Mem) (v : Int) (n : Nat) :
    ∀ t : ITree, findIdx s v t = none →
      (inorderIdx (insertT s v n t)).Perm (n :: inorderIdx t) := by
  intro t
  induction t with
  | leaf =>
    intro _
    simp [insertT, inorderIdx]
  | node l i r ihl ihr =>
    intro hmiss
    simp only [findIdx] at hmiss
    by_cases h1 : v < valAt s i
    · rw [if_pos h1] at hmiss
      rw [show insertT s v n (.node l i r) = .node (insertT s v n l) i r from by
        simp [insertT, if_pos h1]]
      simp only [inorderIdx]
      exact (ihl hmiss).append_right (i :: inorderIdx r)
    · rw [if_neg h1] at hmiss
      by_cases h2 : valAt s i < v
      · rw [if_pos h2] at hmiss
        rw [show insertT s v n (.node l i r) = .node l i (insertT s v n r) from by
          simp [insertT, if_neg h1, if_pos h2]]
        simp only [inorderIdx]
        have hp1 : (inorderIdx l ++ i :: inorderIdx (insertT s v n r)).Perm
            (inorderIdx l ++ i :: (n :: inorderIdx r)) :=
          List.Perm.append_left _ ((ihr hmiss).cons i)
        refine hp1.trans ?_
        rw [show inorderIdx l ++ i :: n :: inorderIdx r
            = (inorderIdx l ++ [i]) ++ n :: inorderIdx r by simp]
        refine List.perm_middle.trans ?_
        rw [show (inorderIdx l ++ [i]) ++ inorderIdx r
            = inorderIdx l ++ i :: inorderIdx r by simp]
      · rw [if_neg h2] at hmiss
        cases hmiss

/-- Keys of the linked tree: the new value inserted at its sorted place. -/
theorem inorderKeys_insertT (s sF : Mem) (v : Int) (n : Nat)
    (hvn : valAt sF n = v) :
    ∀ t : ITree, (∀ j ∈ inorderIdx t, valAt sF j = valAt s j) →
      (inorderKeys s t).Pairwise (· < ·) → findIdx s v t = none →
      inorderKeys sF (insertT s v n t) = insSorted v (inorderKeys s t) := by
  intro t
  induction t with
  | leaf =>
    intro _ _ _
    simp [insertT, inorderIdx, inorderKeys, insSorted, hvn]
  | node l i r ihl ihr =>
    intro hagree hsort hmiss
    obtain ⟨hsl, hsr, hxl, hxr⟩ := sorted_node s l i r hsort
    have hki : valAt sF i = valAt s i := hagree i (by simp [inorderIdx])
    have hkl : inorderKeys sF l = inorderKeys s l :=
      List.map_congr_left (fun j hj => hagree j (by simp [inorderIdx, hj]))
    have hkr : inorderKeys sF r = inorderKeys s r :=
      List.map_congr_left (fun j hj => hagree j (by simp [inorderIdx, hj]))
    simp only [findIdx] at hmiss
    by_cases h1 : v < valAt s i
    · rw [if_pos h1] at hmiss
      rw [show insertT s v n (.node l i r) = .node (insertT s v n l) i r from by
        simp [insertT, if_pos h1]]
      rw [inorderKeys_node, inorderKeys_node]
      rw [ihl (fun j hj => hagree j (by simp [inorderIdx, hj])) hsl hmiss]
      rw [insSorted_append_left v (valAt s i) h1, hki, hkr]
    · rw [if_neg h1] at hmiss
      have h2 : valAt s i < v := by
        by_contra h2
        rw [if_neg h2] at hmiss
        cases hmiss
      rw [if_pos h2] at hmiss
      rw [show insertT s v n (.node l i r) = .node l i (insertT s v n r) from by
        simp [insertT, if_neg h1, if_pos h2]]
      rw [inorderKeys_node, inorderKeys_node]
      rw [ihr (fun j hj => hagree j (by simp [inorderIdx, hj])) hsr hmiss]
      rw [show inorderKeys s l ++ valAt s i :: inorderKeys s r
          = (inorderKeys s l ++ [valAt s i]) ++ inorderKeys s r by simp]
      rw [insSorted_append_right v _ _ ?_]
      · rw [hki, hkl]
        simp
      · intro x hx
        rcases List.mem_append.mp hx with hx | hx
        · have := hxl x hx
          omega
        · simp only [List.mem_singleton] at hx
          omega

/-- `insert_fixup` (loop plus final root recolouring) preserves the
representation. -/
theorem insert_fixup_repr (I0 : List Nat) (hndI0 : I0.Nodup) (fuel : Nat) (s : Mem)
    (T : ITree) (x : Ptr)
    (hrepr : reprT s T s.root .null) (hI0 : inorderIdx T = I0)
    (hx : ∃ ix, x = .node ix ∧ ix ∈ I0) :
    ∃ T', reprT (insert_fixup s fuel x) T' (insert_fixup s fuel x).root .null
      ∧ inorderIdx T' = I0
      ∧ (insert_fixup s fuel x).nodes.length = s.nodes.length := by
  obtain ⟨T', h1, h2, h3⟩ := insert_fixupLoop_repr I0 hndI0 fuel s T x _ hrepr hI0 hx rfl
  unfold insert_fixup
  dsimp only
  split
  · refine ⟨T', ?_, h2, by simpa [set_color, wr_length] using h3⟩
    have h := reprT_set_color (insert_fixupLoop s fuel x ((rd s x).parent))
      (insert_fixupLoop s fuel x ((rd s x).parent)).root RBColor.RBBk T'
      (insert_fixupLoop s fuel x ((rd s x).parent)).root Ptr.null h1
    rw [show (set_color (insert_fixupLoop s fuel x ((rd s x).parent))
        (insert_fixupLoop s fuel x ((rd s x).parent)).root RBColor.RBBk).root
        = (insert_fixupLoop s fuel x ((rd s x).parent)).root from by
      simp [set_color, wr_root]]
    exact h
  · exact ⟨T', h1, h2, h3⟩

/-- The common ending of a successful insertion: from a represented linked
tree, the fix-up yields a represented tree whose keys are the old keys with
`v` at its sorted position. -/
theorem insert_finish (s s3 : Mem) (T : ITree) (v : Int) (fuel : Nat)
    (hnd : (inorderIdx T).Nodup) (hsorted : (inorderKeys s T).Pairwise (· < ·))
    (hfi : findIdx s v T = none)
    (hrepr3 : reprT s3 (insertT s v s.nodes.length T) s3.root .null)
    (hvn : valAt s3 s.nodes.length = v)
    (hagree : ∀ j ∈ inorderIdx T, valAt s3 j = valAt s j)
    (hidx : ∀ j ∈ inorderIdx T, j < s.nodes.length) :
    ∃ T', reprT (insert_fixup s3 fuel (Ptr.node s.nodes.length)) T'
        (insert_fixup s3 fuel (Ptr.node s.nodes.length)).root .null
      ∧ (inorderIdx T').Nodup
      ∧ (inorderKeys (insert_fixup s3 fuel (Ptr.node s.nodes.length)) T').Pairwise
          (· < ·)
      ∧ ∀ w, w ∈ inorderKeys (insert_fixup s3 fuel (Ptr.node s.nodes.length)) T'
          ↔ w = v ∨ w ∈ inorderKeys s T := by
  have hnotin : s.nodes.length ∉ inorderIdx T := fun hc => by
    have := hidx _ hc
    omega
  have hperm := insertT_perm s v s.nodes.length T hfi
  have hndI : (inorderIdx (insertT s v s.nodes.length T)).Nodup :=
    hperm.nodup_iff.mpr (List.nodup_cons.mpr ⟨hnotin, hnd⟩)
  obtain ⟨T', h1, h2, h3⟩ := insert_fixup_repr _ hndI fuel s3 _ (.node s.nodes.length)
    hrepr3 rfl ⟨s.nodes.length, rfl, hperm.mem_iff.mpr (by simp)⟩
  have hvls := SameVLS_insert_fixup s3 fuel (.node s.nodes.length)
  have hk3 : inorderKeys s3 (insertT s v s.nodes.length T)
      = insSorted v (inorderKeys s T) :=
    inorderKeys_insertT s s3 v s.nodes.length hvn T hagree hsorted hfi
  have hkeys4 : inorderKeys (insert_fixup s3 fuel (Ptr.node s.nodes.length)) T'
      = insSorted v (inorderKeys s T) := by
    unfold inorderKeys
    rw [h2]
    rw [List.map_congr_left (fun j _ => ((hvls.2.2 j).1 :
      valAt (insert_fixup s3 fuel (Ptr.node s.nodes.length)) j = valAt s3 j))]
    exact hk3
  have hvnot : v ∉ inorderKeys s T := by
    intro hc
    obtain ⟨i0, hi0, hvi0⟩ := List.mem_map.mp hc
    have := findIdx_of_mem s v T hsorted i0 hi0 hvi0
    rw [hfi] at this
    cases this
  refine ⟨T', h1, by rw [h2]; exact hndI, ?_, ?_⟩
  · rw [hkeys4]
    exact insSorted_pairwise v _ hsorted hvnot
  · intro w
    rw [hkeys4]
    exact mem_insSorted v w _

theorem valAt_rd (s : Mem) (j : Nat) : valAt s j = (rd s (.node j)).val := rfl

theorem rd_mk (l : List NodeR) (sn : NodeR) (r : Ptr) (k : Nat) (j : Nat) :
    rd (Mem.mk l sn r k) (.node j) = l.getD j {} := rfl

theorem wr_nodes (s : Mem) (i : Nat) (f : NodeR → NodeR) :
    (wr s (.node i) f).nodes = s.nodes.set i (f (s.nodes.getD i {})) := rfl

theorem create_node_nodes (s : Mem) (v : Int) (q : Ptr) :
    (create_node s v q).1.nodes
      = s.nodes ++ [{ val := v, parent := q, left := .null, right := .null,
                      color := .RBRed, live := true }] := rfl

theorem rd_create_lt (s : Mem) (v : Int) (q : Ptr) (j : Nat)
    (h : j < s.nodes.length) :
    rd (create_node s v q).1 (.node j) = rd s (.node j) :=
  getD_concat_lt s.nodes _ j h

/-- The miss branch of `insert_impl`, restated over its let-chain. -/
theorem insert_tail_repr (s : Mem) (T : ITree) (v : Int)
    (hrepr : reprT s T s.root .null) (hnd : (inorderIdx T).Nodup)
    (hsorted : (inorderKeys s T).Pairwise (· < ·))
    (hfi : findIdx s v T = none) :
    (let parent := descParent s v T .null
     let c := create_node s v parent
     let s1 := c.1
     let ni := c.2
     let s2 :=
       if parent = .null then { s1 with root := .node ni }
       else if v < (rd s1 parent).val then
         wr s1 parent (fun n => { n with left := .node ni })
       else wr s1 parent (fun n => { n with right := .node ni })
     let s3 : Mem := { s2 with size := s2.size + 1 }
     let s4 := insert_fixup s3 (s3.nodes.length + 1) (.node ni)
     ∃ T', reprT s4 T' s4.root .null
       ∧ (inorderIdx T').Nodup
       ∧ (inorderKeys s4 T').Pairwise (· < ·)
       ∧ ∀ w, w ∈ inorderKeys s4 T' ↔ w = v ∨ w ∈ inorderKeys s T) := by
  dsimp only
  have hidx : ∀ j ∈ inorderIdx T, j < s.nodes.length :=
    reprT_idx_lt s T s.root .null hrepr
  cases T with
  | leaf =>
    rw [if_pos (show descParent s v ITree.leaf Ptr.null = Ptr.null from rfl)]
    refine insert_finish s _ ITree.leaf v _ hnd hsorted hfi ?_ ?_ ?_ ?_
    · refine ⟨rfl, by simp [create_node_nodes], ?_, ?_, ?_, ?_⟩
      · rw [rd_mk, create_node_nodes, getD_concat_self]
      · rw [rd_mk, create_node_nodes, getD_concat_self]
        rfl
      · rw [rd_mk, create_node_nodes, getD_concat_self]
        rfl
      · rw [rd_mk, create_node_nodes, getD_concat_self]
        rfl
    · rw [valAt_rd, rd_mk, create_node_nodes, getD_concat_self]
    · intro j hj
      simp [inorderIdx] at hj
    · intro j hj
      simp [inorderIdx] at hj
  | node l0 i0 r0 =>
    obtain ⟨m, hm, hqm⟩ := descParent_mem s v (.node l0 i0 r0) (by simp) .null
    have hmlt : m < s.nodes.length := hidx m hm
    rw [hqm]
    rw [if_neg (by simp)]
    have hv : (rd (create_node s v (Ptr.node m)).1 (Ptr.node m)).val = valAt s m := by
      rw [rd_create_lt s v (Ptr.node m) m hmlt]
      rfl
    rw [hv]
    by_cases hside : v < valAt s m
    · rw [if_pos hside]
      refine insert_finish s _ (ITree.node l0 i0 r0) v _ hnd hsorted hfi ?_ ?_ ?_ hidx
      · refine insertT_link_repr s _ v s.nodes.length rfl ?_ ?_ ?_ ?_
          _ s.root Ptr.null hrepr hnd hfi ?_ ?_
        · simp [wr_nodes, create_node_nodes]
        · rw [rd_mk, wr_nodes, create_node_nodes,
            getD_set_ne _ _ _ _ (by omega), getD_concat_self]
        · rw [rd_mk, wr_nodes, create_node_nodes,
            getD_set_ne _ _ _ _ (by omega), getD_concat_self]
        · rw [rd_mk, wr_nodes, create_node_nodes,
            getD_set_ne _ _ _ _ (by omega), getD_concat_self]
        · rw [rd_mk, wr_nodes, create_node_nodes,
            getD_set_ne _ _ _ _ (by omega), getD_concat_self, hqm]
        · intro j hj
          constructor
          · intro he
            rw [hqm] at he
            injection he with he'
            subst he'
            rw [if_pos hside]
            rw [rd_mk, wr_nodes, create_node_nodes,
              getD_set_self _ _ _ (by simp; omega), getD_concat_lt _ _ _ hmlt]
            rfl
          · intro hne
            rw [hqm] at hne
            have hjm : m ≠ j := fun he => hne (by rw [he])
            rw [rd_mk, wr_nodes, create_node_nodes,
              getD_set_ne _ _ _ _ hjm, getD_concat_lt _ _ _ (hidx j hj)]
            rfl
      · rw [valAt_rd, rd_mk, wr_nodes, create_node_nodes,
          getD_set_ne _ _ _ _ (by omega), getD_concat_self]
      · intro j hj
        rw [valAt_rd, valAt_rd, rd_mk, wr_nodes, create_node_nodes]
        by_cases hc : j = m
        · subst hc
          rw [getD_set_self _ _ _ (by simp; omega), getD_concat_lt _ _ _ hmlt]
          rfl
        · rw [getD_set_ne _ _ _ _ (fun he => hc he.symm),
            getD_concat_lt _ _ _ (hidx j hj)]
          rfl
    · rw [if_neg hside]
      refine insert_finish s _ (ITree.node l0 i0 r0) v _ hnd hsorted hfi ?_ ?_ ?_ hidx
      · refine insertT_link_repr s _ v s.nodes.length rfl ?_ ?_ ?_ ?_
          _ s.root Ptr.null hrepr hnd hfi ?_ ?_
        · simp [wr_nodes, create_node_nodes]
        · rw [rd_mk, wr_nodes, create_node_nodes,
            getD_set_ne _ _ _ _ (by omega), getD_concat_self]
        · rw [rd_mk, wr_nodes, create_node_nodes,
            getD_set_ne _ _ _ _ (by omega), getD_concat_self]
        · rw [rd_mk, wr_nodes, create_node_nodes,
            getD_set_ne _ _ _ _ (by omega), getD_concat_self]
        · rw [rd_mk, wr_nodes, create_node_nodes,
            getD_set_ne _ _ _ _ (by omega), getD_concat_self, hqm]
        · intro j hj
          constructor
          · intro he
            rw [hqm] at he
            injection he with he'
            subst he'
            rw [if_neg hside]
            rw [rd_mk, wr_nodes, create_node_nodes,
              getD_set_self _ _ _ (by simp; omega), getD_concat_lt _ _ _ hmlt]
            rfl
          · intro hne
            rw [hqm] at hne
            have hjm : m ≠ j := fun he => hne (by rw [he])
            rw [rd_mk, wr_nodes, create_node_nodes,
              getD_set_ne _ _ _ _ hjm, getD_concat_lt _ _ _ (hidx j hj)]
            rfl
      · rw [valAt_rd, rd_mk, wr_nodes, create_node_nodes,
          getD_set_ne _ _ _ _ (by omega), getD_concat_self]
      · intro j hj
        rw [valAt_rd, valAt_rd, rd_mk, wr_nodes, create_node_nodes]
        by_cases hc : j = m
        · subst hc
          rw [getD_set_self _ _ _ (by simp; omega), getD_concat_lt _ _ _ hmlt]
          rfl
        · rw [getD_set_ne _ _ _ _ (fun he => hc he.symm),
            getD_concat_lt _ _ _ (hidx j hj)]
          rfl

/-- One public `insert` preserves the full invariant and inserts the key. -/
theorem insert_step (s : Mem) (T : ITree) (v : Int)
    (hrepr : reprT s T s.root .null) (hnd : (inorderIdx T).Nodup)
    (hsorted : (inorderKeys s T).Pairwise (· < ·)) :
    ∃ T', reprT (insert s v).2 T' (insert s v).2.root .null
      ∧ (inorderIdx T').Nodup
      ∧ (inorderKeys (insert s v).2 T').Pairwise (· < ·)
      ∧ ∀ w, w ∈ inorderKeys (insert s v).2 T' ↔ w = v ∨ w ∈ inorderKeys s T := by
  have hfuel := heightT_lt_fuel s T s.root .null hrepr hnd
  cases hfi : findIdx s v T with
  | some i =>
    have hdes := insertDescend_found s v T s.root .null _ hrepr hfuel i hfi
    obtain ⟨hmem, hval⟩ := findIdx_some_facts s v T i hfi
    unfold insert insert_impl
    rw [hdes]
    refine ⟨T, hrepr, hnd, hsorted, ?_⟩
    intro w
    constructor
    · exact fun h => Or.inr h
    · rintro (rfl | h)
      · exact List.mem_map.mpr ⟨i, hmem, hval⟩
      · exact h
  | none =>
    have hdes := insertDescend_miss s v T s.root .null _ hrepr hfuel hfi
    unfold insert insert_impl
    rw [hdes]
    exact insert_tail_repr s T v hrepr hnd hsorted hfi

/-- Folding a list of inserts over any state satisfying the invariant
(sorted, well-represented, keys = `done`) preserves it, extending the key
set with the inserted values. -/
theorem insert_fold_inv (ks : List Int) :
    ∀ (s : Mem) (done : List Int),
      (∃ T, reprT s T s.root .null ∧ (inorderIdx T).Nodup
        ∧ (inorderKeys s T).Pairwise (· < ·)
        ∧ ∀ w, w ∈ inorderKeys s T ↔ w ∈ done) →
      ∃ T, reprT (List.foldl applyOp s (ks.map Op.ins)) T
            (List.foldl applyOp s (ks.map Op.ins)).root .null
        ∧ (inorderIdx T).Nodup
        ∧ (inorderKeys (List.foldl applyOp s (ks.map Op.ins)) T).Pairwise (· < ·)
        ∧ ∀ w, w ∈ inorderKeys (List.foldl applyOp s (ks.map Op.ins)) T
            ↔ w ∈ done ++ ks := by
  induction ks with
  | nil =>
    intro s done h
    simpa using h
  | cons k ks ih =>
    intro s done h
    obtain ⟨T, hr, hnd, hp, hmem⟩ := h
    obtain ⟨T', hr', hnd', hp', hmem'⟩ := insert_step s T k hr hnd hp
    simp only [List.map_cons, List.foldl_cons]
    have hstep : applyOp s (Op.ins k) = (insert s k).2 := rfl
    rw [hstep]
    have hres := ih (insert s k).2 (done ++ [k])
      ⟨T', hr', hnd', hp', by
        intro w
        rw [hmem' w, hmem w]
        simp [or_comm]⟩
    obtain ⟨T2, h1, h2, h3, h4⟩ := hres
    refine ⟨T2, h1, h2, h3, fun w => ?_⟩
    rw [h4 w]
    simp

/-! ## Claim theorems (universal) -/

/-- C2.  `insert(v)` on a well-formed tree: if a node with `v`'s key exists,
it returns that node's iterator with `false` and the memory — size, stored
values, links — exactly unchanged (no node created or relinked); if not, it
returns an iterator to the freshly created node (the next arena slot)
holding `v` with `true`, and `size()` grows by one. -/
theorem C2_insert_semantics (s : Mem) (t : ITree) (v : Int)
    (hrepr : reprT s t s.root .null)
    (hnodup : (inorderIdx t).Nodup)
    (hsorted : (inorderKeys s t).Pairwise (· < ·)) :
    (∀ i ∈ inorderIdx t, valAt s i = v → insert s v = ((.node i, false), s))
      ∧ (v ∉ inorderKeys s t →
          (insert s v).1 = (.node s.nodes.length, true)
            ∧ (insert s v).2.size = s.size + 1
            ∧ valAt (insert s v).2 s.nodes.length = v
            ∧ liveAt (insert s v).2 s.nodes.length = true
            ∧ ∀ j ∈ inorderIdx t, j ≠ s.nodes.length) := by
  have hfuel := heightT_lt_fuel s t s.root .null hrepr hnodup
  constructor
  · intro i hi hv
    have hdes := insertDescend_found s v t s.root .null _ hrepr hfuel i
      (findIdx_of_mem s v t (hsorted) i hi hv)
    unfold insert insert_impl
    rw [hdes]
  · intro hnm
    have hdes := insertDescend_miss s v t s.root .null _ hrepr hfuel
      (findIdx_of_not_mem s v t hnm)
    have hjn : ∀ j ∈ inorderIdx t, j ≠ s.nodes.length := by
      intro j hj
      have := reprT_idx_lt s t s.root .null hrepr j hj
      omega
    have heff := insert_link_effect s v (descParent s v t .null)
    unfold insert insert_impl
    rw [hdes]
    exact ⟨rfl, heff.1, heff.2.1, heff.2.2, hjn⟩

/-- Witness for C2 at a concrete input: in the tree built by inserting
2, 1, 3, re-inserting 2 returns the existing node 0 with `false` and the
exact same memory, and inserting the absent key 5 returns the fresh node 3
with `true` and size 4. -/
theorem C2_insert_semantics_witness :
    insert (applyOps [.ins 2, .ins 1, .ins 3]) 2
        = ((.node 0, false), applyOps [.ins 2, .ins 1, .ins 3])
      ∧ (insert (applyOps [.ins 2, .ins 1, .ins 3]) 5).1 = (.node 3, true)
      ∧ (insert (applyOps [.ins 2, .ins 1, .ins 3]) 5).2.size = 4 := by
  have h := C2_insert_semantics (applyOps [.ins 2, .ins 1, .ins 3])
    (.node (.node .leaf 1 .leaf) 0 (.node .leaf 2 .leaf)) 2
    (by decide) (by decide) (by decide)
  have h5 := C2_insert_semantics (applyOps [.ins 2, .ins 1, .ins 3])
    (.node (.node .leaf 1 .leaf) 0 (.node .leaf 2 .leaf)) 5
    (by decide) (by decide) (by decide)
  refine ⟨h.1 0 (by decide) (by decide), ?_, ?_⟩
  · rw [(h5.2 (by decide)).1]
    decide
  · rw [(h5.2 (by decide)).2.1]
    decide

/-- C6.  On a well-formed tree, `lower_bound(k)` returns an iterator to the
minimal stored element not less than `k` and `upper_bound(k)` to the minimal
stored element strictly greater than `k`; each returns `end()` (null) when
no stored element qualifies. -/
theorem C6_bounds (s : Mem) (t : ITree) (k : Int)
    (hrepr : reprT s t s.root .null)
    (hnodup : (inorderIdx t).Nodup)
    (hsorted : (inorderKeys s t).Pairwise (· < ·)) :
    ((∀ x ∈ inorderKeys s t, x < k) → (lower_bound s k).1 = .null)
      ∧ (∀ i0 ∈ inorderIdx t, k ≤ valAt s i0 →
          ∃ i, i ∈ inorderIdx t ∧ (lower_bound s k).1 = .node i ∧ k ≤ valAt s i
            ∧ ∀ x ∈ inorderKeys s t, k ≤ x → valAt s i ≤ x)
      ∧ ((∀ x ∈ inorderKeys s t, x ≤ k) → (upper_bound s k).1 = .null)
      ∧ (∀ i0 ∈ inorderIdx t, k < valAt s i0 →
          ∃ i, i ∈ inorderIdx t ∧ (upper_bound s k).1 = .node i ∧ k < valAt s i
            ∧ ∀ x ∈ inorderKeys s t, k < x → valAt s i ≤ x) := by
  have hpw := hsorted
  have hfuel := heightT_lt_fuel s t s.root .null hrepr hnodup
  have hlb : (lower_bound s k).1 = lbIdx s k t .null :=
    TreeLowerBoundLoop_spec s k t s.root .null .null _ hrepr hfuel
  have hub : (upper_bound s k).1 = ubIdx s k t .null :=
    TreeUpperBoundLoop_spec s k t s.root .null .null _ hrepr hfuel
  obtain ⟨hlb1, hlb2⟩ := lbIdx_spec s k t .null hpw
  obtain ⟨hub1, hub2⟩ := ubIdx_spec s k t .null hpw
  refine ⟨fun h => by rw [hlb]; exact hlb1 h, fun i0 h1 h2 => ?_,
    fun h => by rw [hub]; exact hub1 h, fun i0 h1 h2 => ?_⟩
  · rw [hlb]
    exact hlb2 i0 h1 h2
  · rw [hub]
    exact hub2 i0 h1 h2

/-- Witness for C6 at a concrete input: in the tree with keys 1, 2, 3,
`lower_bound(2)` lands on the node holding 2 and `upper_bound(2)` on the
node holding 3, each the minimal qualifying element. -/
theorem C6_bounds_witness :
    (∃ i, i ∈ inorderIdx (.node (.node .leaf 1 .leaf) 0 (.node .leaf 2 .leaf))
      ∧ (lower_bound (applyOps [.ins 2, .ins 1, .ins 3]) 2).1 = .node i
      ∧ (2:Int) ≤ valAt (applyOps [.ins 2, .ins 1, .ins 3]) i
      ∧ ∀ x ∈ inorderKeys (applyOps [.ins 2, .ins 1, .ins 3])
          (.node (.node .leaf 1 .leaf) 0 (.node .leaf 2 .leaf)),
          2 ≤ x → valAt (applyOps [.ins 2, .ins 1, .ins 3]) i ≤ x)
    ∧ (∃ i, i ∈ inorderIdx (.node (.node .leaf 1 .leaf) 0 (.node .leaf 2 .leaf))
      ∧ (upper_bound (applyOps [.ins 2, .ins 1, .ins 3]) 2).1 = .node i
      ∧ (2:Int) < valAt (applyOps [.ins 2, .ins 1, .ins 3]) i
      ∧ ∀ x ∈ inorderKeys (applyOps [.ins 2, .ins 1, .ins 3])
          (.node (.node .leaf 1 .leaf) 0 (.node .leaf 2 .leaf)),
          2 < x → valAt (applyOps [.ins 2, .ins 1, .ins 3]) i ≤ x) := by
  have h := C6_bounds (applyOps [.ins 2, .ins 1, .ins 3])
    (.node (.node .leaf 1 .leaf) 0 (.node .leaf 2 .leaf)) 2
    (by decide) (by decide) (by decide)
  exact ⟨h.2.1 0 (by decide) (by decide), h.2.2.2 2 (by decide) (by decide)⟩

/-- C7.  `erase(k)` on a well-formed tree returns 1 exactly when a node with
key `k` exists — that node is destroyed and `m_Size` decremented by one —
and returns 0 with the memory exactly unchanged when no such node exists:
key-not-found is signalled by the count, not an error. -/
theorem C7_erase_by_key (s : Mem) (t : ITree) (k : Int)
    (hrepr : reprT s t s.root .null)
    (hnodup : (inorderIdx t).Nodup)
    (hsorted : (inorderKeys s t).Pairwise (· < ·)) :
    (k ∉ inorderKeys s t → eraseKey s k = (0, s))
      ∧ (k ∈ inorderKeys s t →
          (eraseKey s k).1 = 1
            ∧ (eraseKey s k).2.size = s.size - 1
            ∧ ∃ i, i ∈ inorderIdx t ∧ valAt s i = k ∧ liveAt s i = true
                ∧ liveAt (eraseKey s k).2 i = false) := by
  have hfuel := heightT_lt_fuel s t s.root .null hrepr hnodup
  constructor
  · intro hnm
    have hnone := findIdx_of_not_mem s k t hnm
    have hloop : (TreeFindLoop s (s.nodes.length + 1) s.root k).1 = Ptr.null := by
      rw [TreeFindLoop_spec s k t s.root .null _ hrepr hfuel, hnone]
    unfold eraseKey
    rw [hloop]
    rfl
  · intro hm
    obtain ⟨i, hi, hv⟩ := List.mem_map.mp hm
    have hsome := findIdx_of_mem s k t (hsorted) i hi hv
    have hloop : (TreeFindLoop s (s.nodes.length + 1) s.root k).1 = Ptr.node i := by
      rw [TreeFindLoop_spec s k t s.root .null _ hrepr hfuel, hsome]
    have hlt := reprT_idx_lt s t s.root .null hrepr i hi
    have heff := erase_node_effect s i hlt
    have hlive := reprT_live s t s.root .null hrepr i hi
    unfold eraseKey
    rw [hloop]
    rw [if_neg (by simp : ¬ (Ptr.node i = Ptr.null))]
    exact ⟨rfl, heff.2, i, hi, hv, hlive, heff.1⟩

/-- Witness for C7 at a concrete input: in the tree with keys 1, 2, 3,
erasing the absent key 7 returns 0 with the memory untouched, and erasing
the present key 1 returns 1, destroys its node and shrinks the size to 2. -/
theorem C7_erase_by_key_witness :
    eraseKey (applyOps [.ins 2, .ins 1, .ins 3]) 7 = (0, applyOps [.ins 2, .ins 1, .ins 3])
      ∧ (eraseKey (applyOps [.ins 2, .ins 1, .ins 3]) 1).1 = 1
      ∧ (eraseKey (applyOps [.ins 2, .ins 1, .ins 3]) 1).2.size = 2 := by
  have h := C7_erase_by_key (applyOps [.ins 2, .ins 1, .ins 3])
    (.node (.node .leaf 1 .leaf) 0 (.node .leaf 2 .leaf)) 7
    (by decide) (by decide) (by decide)
  have h1 := C7_erase_by_key (applyOps [.ins 2, .ins 1, .ins 3])
    (.node (.node .leaf 1 .leaf) 0 (.node .leaf 2 .leaf)) 1
    (by decide) (by decide) (by decide)
  refine ⟨h.1 (by decide), (h1.2 (by decide)).1, ?_⟩
  rw [(h1.2 (by decide)).2.1]
  decide

/-! ## Claim theorems (concrete) -/

/-- C1.  The claim — that after any finite sequence of insert/erase
operations from the empty tree all red-black invariants hold — is refuted by
the code: inserting 1, 2, 3, 4 and erasing 1 leaves a tree that violates the
equal-black-count invariant (our checker `rbInvariantsOK` and the code's own
structural verifier `IsRBTree` both reject it), because `erase_node` starts
the fix-up on a sentinel whose parent pointer is the just-destroyed node, so
the sibling recolouring of a correct erase fix-up never happens. -/
theorem C1_invariants_fail_after_erase :
    rbInvariantsOK (applyOps [.ins 1, .ins 2, .ins 3, .ins 4, .del 1]) = false
      ∧ IsRBTree (applyOps [.ins 1, .ins 2, .ins 3, .ins 4, .del 1]) = false
      ∧ rbInvariantsOK (applyOps [.ins 1, .ins 2, .ins 3, .ins 4]) = true := by
  decide

/-- C3.  The claim says the transient black sentinel's parent is set to the
removed node's former parent, a node still live in the tree.  In the code
(`leafSentinel.mp_Parent = removed_node`, line 471) it is set to the removed
node itself, which `DoDestroyNode` has already destroyed: erasing key 1 from
the tree built by inserting 1, 2, 3, 4 removes the black childless arena
node 0 whose live former parent is node 1, yet the sentinel is given parent
`node 0`, a pointer that is already dead at the moment the fix-up runs. -/
theorem C3_sentinel_parent_is_destroyed_node :
    (TreeFindLoop (applyOps [.ins 1, .ins 2, .ins 3, .ins 4])
        ((applyOps [.ins 1, .ins 2, .ins 3, .ins 4]).nodes.length + 1)
        (applyOps [.ins 1, .ins 2, .ins 3, .ins 4]).root 1).1 = .node 0
      ∧ (rd (applyOps [.ins 1, .ins 2, .ins 3, .ins 4]) (.node 0)).parent = .node 1
      ∧ (rd (applyOps [.ins 1, .ins 2, .ins 3, .ins 4]) (.node 0)).color = .RBBk
      ∧ (rd (applyOps [.ins 1, .ins 2, .ins 3, .ins 4]) (.node 0)).left = .null
      ∧ (rd (applyOps [.ins 1, .ins 2, .ins 3, .ins 4]) (.node 0)).right = .null
      ∧ (erase_nodeFull (applyOps [.ins 1, .ins 2, .ins 3, .ins 4]) (.node 0)).2
          = some (.node 0)
      ∧ (rd (erase_nodeFull (applyOps [.ins 1, .ins 2, .ins 3, .ins 4]) (.node 0)).1
          (.node 0)).live = false := by
  decide

/-- C4.  The spec's scenario holds on the code: inserting
8, 3, 10, 1, 6, 14, 4, 7, 13 yields in-order 1,3,4,6,7,8,10,13,14 with a
black root, and erasing 7, then 14, then 3, then 8 preserves all red-black
invariants after each erasure, ending with keys 1,4,6,10,13 in order. -/
theorem C4_scenario_holds :
    inorderList (applyOps ([8,3,10,1,6,14,4,7,13].map Op.ins))
        = [1,3,4,6,7,8,10,13,14]
      ∧ color_of (applyOps ([8,3,10,1,6,14,4,7,13].map Op.ins))
          (applyOps ([8,3,10,1,6,14,4,7,13].map Op.ins)).root = .RBBk
      ∧ rbInvariantsOK (applyOps ([8,3,10,1,6,14,4,7,13].map Op.ins ++ [Op.del 7]))
          = true
      ∧ rbInvariantsOK (applyOps ([8,3,10,1,6,14,4,7,13].map Op.ins
          ++ [Op.del 7, Op.del 14])) = true
      ∧ rbInvariantsOK (applyOps ([8,3,10,1,6,14,4,7,13].map Op.ins
          ++ [Op.del 7, Op.del 14, Op.del 3])) = true
      ∧ rbInvariantsOK (applyOps ([8,3,10,1,6,14,4,7,13].map Op.ins
          ++ [Op.del 7, Op.del 14, Op.del 3, Op.del 8])) = true
      ∧ inorderList (applyOps ([8,3,10,1,6,14,4,7,13].map Op.ins
          ++ [Op.del 7, Op.del 14, Op.del 3, Op.del 8])) = [1,4,6,10,13] := by
  decide

/-- C8.  Strong exception safety of insertion: whenever node allocation or
value construction fails during `insert` or `emplace`, the error propagates
and the resulting memory is exactly the pre-call memory — in particular the
slot allocated for the partially constructed node has been released and
nothing was linked, and `m_Size` is unchanged. -/
theorem C8_insert_failure_leaves_tree_unchanged (s : Mem) (v : Int)
    (mode : FailMode) :
    ((insert_implF s v mode).1 = .error () → (insert_implF s v mode).2 = s)
      ∧ ∀ tf : Bool, (emplaceF s v tf mode).1 = .error () →
          (emplaceF s v tf mode).2 = s := by
  have core : (insert_implF s v mode).1 = .error () →
      (insert_implF s v mode).2 = s := by
    intro h
    unfold insert_implF at h ⊢
    cases hd : insertDescend s (s.nodes.length + 1) .null s.root v with
    | inl current => simp [hd] at h
    | inr parent =>
      cases mode with
      | ok => simp [hd, create_nodeF] at h
      | allocFail => simp [hd, create_nodeF]
      | constructFail =>
        simp [hd, create_nodeF, List.dropLast_concat]
  refine ⟨core, ?_⟩
  intro tf h
  cases tf with
  | false =>
    simp only [emplaceF, Bool.false_eq_true, if_false] at h ⊢
    exact core h
  | true => rfl

/-- Witness for C8 at a concrete input: construction failure on inserting 5
into the empty tree propagates and leaves the memory untouched. -/
theorem C8_insert_failure_leaves_tree_unchanged_witness :
    (insert_implF emptyMem 5 .constructFail).2 = emptyMem :=
  (C8_insert_failure_leaves_tree_unchanged emptyMem 5 .constructFail).1 rfl

/-- C9.  Erasing the end iterator (the null node pointer) is defined in the
implementation: it returns `end()` and the memory — root, size, every node's
links, colour and value — is returned unchanged. -/
theorem C9_erase_end_iterator_is_noop (s : Mem) :
    eraseIter s .null = (.null, s) :=
  rfl

/-- C10.  The lookup operations `find`, `lower_bound`, `upper_bound`,
`contains` and `equal_range` leave the memory — root, element count and
every node's links, colour and stored value — exactly as it was. -/
theorem C10_lookups_leave_tree_unchanged (s : Mem) (k : Int) :
    (find s k).2 = s ∧ (lower_bound s k).2 = s ∧ (upper_bound s k).2 = s
      ∧ (contains s k).2 = s ∧ (equal_range s k).2 = s := by
  refine ⟨TreeFindLoop_state s _ _ _, TreeLowerBoundLoop_state s _ _ _ _,
    TreeUpperBoundLoop_state s _ _ _ _, TreeFindLoop_state s _ _ _, ?_⟩
  show (upper_bound (lower_bound s k).2 k).2 = s
  rw [show (lower_bound s k).2 = s from TreeLowerBoundLoop_state s _ _ _ _]
  exact TreeUpperBoundLoop_state s _ _ _ _


/-- C5.  For every finite sequence of inserts applied to the empty tree,
iterating from `begin()` to `end()` by repeated successor steps visits the
stored keys in strictly increasing order, each stored key exactly once:
the visited list is pairwise `<` (hence duplicate-free) and holds exactly
the inserted values. -/
theorem C5_iteration_sorted (ks : List Int) :
    (iterVals (applyOps (ks.map Op.ins))).Pairwise (· < ·)
      ∧ ∀ v, v ∈ iterVals (applyOps (ks.map Op.ins)) ↔ v ∈ ks := by
  obtain ⟨T, hr, hnd, hp, hmem⟩ :=
    insert_fold_inv ks emptyMem []
      ⟨ITree.leaf, rfl, by simp [inorderIdx], by
        simp [inorderKeys, inorderIdx], by simp [inorderKeys, inorderIdx]⟩
  have hiter : iterVals (applyOps (ks.map Op.ins))
      = inorderKeys (List.foldl applyOp emptyMem (ks.map Op.ins)) T :=
    iterVals_eq _ T hr hnd
  refine ⟨by rw [hiter]; exact hp, fun v => ?_⟩
  rw [hiter, hmem v]
  simp


end mstl
